import Mathlib

set_option maxRecDepth 1000000

set_option maxHeartbeats 2000000

/-!
Verification of the speak-mintlify narration pipeline.

This file shallowly embeds the pure core of the `speak-mintlify` tool:
the MDX text extractor (`src/core/extractor.ts`), the content hasher
(`src/core/hash-tracker.ts`), the component injector / locator
(`src/core/injector.ts`), the S3 key / batching / orphan logic
(`src/core/s3-upload.ts`, `src/commands/cleanup.ts`) and the per-file
decision logic of the generate command (`src/commands/generate.ts`).

Strings are modelled as `List Char` (`Str`) so that every operation is an
executable structural recursion.  The remark/MDX parser used by the tool is
a third-party library whose behaviour the specification describes; it is
modelled here (see `parseLinesFrom`) by a line-oriented block scanner that
is faithful for the constructs the claims exercise: front matter, fenced
code, import/export statements, brace expressions, JSX component blocks,
headings and paragraphs.
-/

/-- Character-list strings: every definition below works on `List Char` so
that all computations kernel-reduce. -/
abbrev Str := List Char

/-- Convert a Lean string literal to the `Str` representation. -/
def ofStr (s : String) : Str := s.data

/-- Convert back to `String` (only used at statement boundaries). -/
def toStr (s : Str) : String := String.mk s

/-- Newline character. -/
def nlChar : Char := Char.ofNat 10

/-- Opening brace character (U+007B). -/
def lbChar : Char := Char.ofNat 123

/-- Closing brace character (U+007D). -/
def rbChar : Char := Char.ofNat 125

/-- Whitespace in the sense of JavaScript `\s` / `String.prototype.trim`,
restricted to the ASCII range that the pipeline can produce. -/
def isWsChar (c : Char) : Bool :=
  c = ' ' || c = Char.ofNat 9 || c = nlChar || c = Char.ofNat 13 ||
  c = Char.ofNat 11 || c = Char.ofNat 12

/-- JavaScript `String.prototype.trim` (ASCII whitespace model). -/
def jsTrim (s : Str) : Str :=
  (s.dropWhile isWsChar).reverse.dropWhile isWsChar |>.reverse

/-- Split on newline characters, exactly like JavaScript `split('\n')`. -/
def splitNl : Str → List Str
  | [] => [[]]
  | c :: r =>
    match splitNl r with
    | [] => [[c]]
    | h :: t => if c = nlChar then [] :: h :: t else (c :: h) :: t

/-- Join with newlines, exactly like JavaScript `join('\n')`. -/
def joinNl (ls : List Str) : Str := (ls.intersperse [nlChar]).flatten

/-- Substring test (JavaScript `String.prototype.includes`). -/
def containsStr (s pat : Str) : Bool :=
  s.tails.any (fun t => pat.isPrefixOf t)

/-- JavaScript `Array.prototype.splice(start, deleteCount, ...items)` on a
list (start and deleteCount clamp to the list bounds like in JS). -/
def listSplice (l : List α) (start del : Nat) (items : List α) : List α :=
  l.take start ++ items ++ l.drop (start + del)

/-- Lowercase a character, modelling `String.prototype.toLowerCase` on the
ASCII range that document paths use. -/
def jsLowerChar (c : Char) : Char :=
  if 'A' ≤ c ∧ c ≤ 'Z' then Char.ofNat (c.toNat + 32) else c

/-- Lowercase a string (ASCII model of `toLowerCase`). -/
def jsLower (s : Str) : Str := s.map jsLowerChar

/-- Split on a single character, like JavaScript `split('/')`. -/
def splitOnChar (sep : Char) : Str → List Str
  | [] => [[]]
  | c :: r =>
    match splitOnChar sep r with
    | [] => [[c]]
    | h :: t => if c = sep then [] :: h :: t else (c :: h) :: t

/-- Join with a single separator character (JavaScript `join('-')`). -/
def joinWithChar (sep : Char) (ls : List Str) : Str :=
  (ls.intersperse [sep]).flatten

/-! ## SHA-256 (`generateHash` in `src/core/hash-tracker.ts`)

`generateHash` is `crypto.createHash('sha256').update(content,
'utf8').digest('hex')`.  The algorithm below is the FIPS 180-4 SHA-256
compression function over the UTF-8 bytes of the content, producing the
lowercase hexadecimal digest. -/

/-- UTF-8 encode one scalar value. -/
def utf8EncodeChar (c : Char) : List Nat :=
  let n := c.toNat
  if n < 128 then [n]
  else if n < 2048 then [192 + n / 64, 128 + n % 64]
  else if n < 65536 then [224 + n / 4096, 128 + n / 64 % 64, 128 + n % 64]
  else [240 + n / 262144, 128 + n / 4096 % 64, 128 + n / 64 % 64, 128 + n % 64]

/-- UTF-8 encode a string to bytes. -/
def utf8Encode (s : Str) : List Nat := s.flatMap utf8EncodeChar

/-- 32-bit right rotation (operands are always below 2^32 here). -/
def rotW (x k : Nat) : Nat :=
  ((x >>> k) ||| (x <<< (32 - k))) % 4294967296

/-- Addition reduced modulo 2^32. -/
def addW (a b : Nat) : Nat := (a + b) % 4294967296

/-- The 64 round constants of the compression loop. -/
def roundK : List Nat :=
  [1116352408, 1899447441, 3049323471, 3921009573,
   961987163, 1508970993, 2453635748, 2870763221,
   3624381080, 310598401, 607225278, 1426881987,
   1925078388, 2162078206, 2614888103, 3248222580,
   3835390401, 4022224774, 264347078, 604807628,
   770255983, 1249150122, 1555081692, 1996064986,
   2554220882, 2821834349, 2952996808, 3210313671,
   3336571891, 3584528711, 113926993, 338241895,
   666307205, 773529912, 1294757372, 1396182291,
   1695183700, 1986661051, 2177026350, 2456956037,
   2730485921, 2820302411, 3259730800, 3345764771,
   3516065817, 3600352804, 4094571909, 275423344,
   430227734, 506948616, 659060556, 883997877,
   958139571, 1322822218, 1537002063, 1747873779,
   1955562222, 2024104815, 2227730452, 2361852424,
   2428436474, 2756734187, 3204031479, 3329325298]

/-- The initial eight state words. -/
def stateInit : List Nat :=
  [1779033703, 3144134277, 1013904242, 2773480762,
   1359893119, 2600822924, 528734635, 1541459225]

/-- FIPS 180-4 padding: a 0x80 byte, zero fill to 56 mod 64, and the
bit length as eight big-endian bytes. -/
def padMessage (msg : List Nat) : List Nat :=
  let n := msg.length
  let fill := (119 - n % 64) % 64
  let bits := 8 * n
  msg ++ (128 :: List.replicate fill 0) ++
    (List.range 8).map (fun i => (bits >>> (56 - 8 * i)) % 256)

/-- Big-endian packing of bytes into 32-bit words. -/
def beWords : List Nat → List Nat
  | x :: y :: z :: w :: rest =>
    (((x * 256 + y) * 256 + z) * 256 + w) :: beWords rest
  | _ => []

/-- Grouping of the word stream into 16-word blocks. -/
def blocks16 : List Nat → List (List Nat)
  | [] => []
  | a0 :: a1 :: a2 :: a3 :: a4 :: a5 :: a6 :: a7 ::
    a8 :: a9 :: a10 :: a11 :: a12 :: a13 :: a14 :: a15 :: rest =>
    [a0, a1, a2, a3, a4, a5, a6, a7, a8, a9, a10, a11, a12, a13, a14, a15] ::
      blocks16 rest
  | short => [short]

/-- The message schedule: `n` extension steps over an initial block. -/
def schedule (w : List Nat) : Nat → List Nat
  | 0 => w
  | n + 1 =>
    let prev := schedule w n
    let geti := fun i => prev.getD i 0
    let j := prev.length
    let p := geti (j - 15)
    let q := geti (j - 2)
    let sa := Nat.xor (rotW p 7) (Nat.xor (rotW p 18) (p >>> 3))
    let sb := Nat.xor (rotW q 17) (Nat.xor (rotW q 19) (q >>> 10))
    prev ++ [addW (addW (geti (j - 16)) (geti (j - 7))) (addW sa sb)]

/-- One step of the compression loop on the eight state words. -/
def compressStep (st : List Nat) (kw : Nat × Nat) : List Nat :=
  match st with
  | [a, b, c, d, e, f, g, h] =>
    let big1 := Nat.xor (rotW e 6) (Nat.xor (rotW e 11) (rotW e 25))
    let choose := Nat.xor (Nat.land e f) (Nat.land g (4294967295 - e))
    let big0 := Nat.xor (rotW a 2) (Nat.xor (rotW a 13) (rotW a 22))
    let major :=
      Nat.xor (Nat.land a b) (Nat.xor (Nat.land a c) (Nat.land b c))
    let acc1 := addW h (addW big1 (addW choose (addW kw.1 kw.2)))
    let acc2 := addW big0 major
    [addW acc1 acc2, a, b, c, addW d acc1, e, f, g]
  | bad => bad

/-- One block: 64 compression steps, then feed-forward into the state. -/
def compressBlock (h : List Nat) (block : List Nat) : List Nat :=
  let fin := (roundK.zip (schedule block 48)).foldl compressStep h
  List.zipWith addW h fin

/-- The digest of a byte list as eight 32-bit state words. -/
def digestWords (msg : List Nat) : List Nat :=
  (blocks16 (beWords (padMessage msg))).foldl compressBlock stateInit

/-- One lowercase hexadecimal digit. -/
def hexDigit (n : Nat) : Char :=
  if n < 10 then Char.ofNat (48 + n) else if n < 16 then Char.ofNat (87 + n) else '0'

/-- A 32-bit word as 8 lowercase hex characters. -/
def wordToHex (w : Nat) : Str :=
  [hexDigit (w / 268435456 % 16), hexDigit (w / 16777216 % 16),
   hexDigit (w / 1048576 % 16), hexDigit (w / 65536 % 16),
   hexDigit (w / 4096 % 16), hexDigit (w / 256 % 16),
   hexDigit (w / 16 % 16), hexDigit (w % 16)]

/-- `generateHash` from `src/core/hash-tracker.ts`: SHA-256 of the UTF-8
bytes of the content, as a lowercase hex string. -/
def generateHash (content : Str) : Str :=
  (digestWords (utf8Encode content)).flatMap wordToHex

/-- A lowercase hexadecimal character (the character class `[a-f0-9]` of
the hash-annotation regular expression in `src/core/injector.ts`). -/
def isLowerHexChar (c : Char) : Bool :=
  ('0' ≤ c && c ≤ '9') || ('a' ≤ c && c ≤ 'f')

/-! ## Storage keys, batching and orphans (`src/core/s3-upload.ts`,
`src/commands/cleanup.ts`) -/

/-- The part of `S3Config` that the pure key logic reads: `pathPrefix`
(empty string models a missing/falsy value, matched by `||`) and
`publicUrl`. -/
structure S3KeyConfig where
  pathPrefixCfg : Str
  publicUrl : Str
deriving DecidableEq, Repr

/-- The slug derivation shared by both `generateKey` implementations:
`filePath.replace(/\.mdx$/, '').split('/').slice(-2).join('-').toLowerCase()`. -/
def slugOf (filePath : Str) : Str :=
  let noExt :=
    if (ofStr ".mdx").isSuffixOf filePath then filePath.take (filePath.length - 4)
    else filePath
  let segs := splitOnChar '/' noExt
  jsLower (joinWithChar '-' (segs.drop (segs.length - 2)))

/-- `generateKey` (branch-free variant in `src/core/s3-upload.ts`):
`${prefix}/${slug}/${voiceId}.mp3` with `prefix = pathPrefix || 'audio'`. -/
def generateKey (cfg : S3KeyConfig) (filePath voiceId : Str) : Str :=
  let pref := if cfg.pathPrefixCfg = [] then ofStr "audio" else cfg.pathPrefixCfg
  pref ++ ofStr "/" ++ slugOf filePath ++ ofStr "/" ++ voiceId ++ ofStr ".mp3"

/-- `generateKey` (branch-namespaced variant):
`${prefix}/${branch}/${slug}/${voiceId}.mp3`. -/
def generateKeyBranch (cfg : S3KeyConfig) (branch filePath voiceId : Str) : Str :=
  let pref := if cfg.pathPrefixCfg = [] then ofStr "audio" else cfg.pathPrefixCfg
  pref ++ ofStr "/" ++ branch ++ ofStr "/" ++ slugOf filePath ++ ofStr "/" ++
    voiceId ++ ofStr ".mp3"

/-- `deleteMultiple` batching from `src/core/s3-upload.ts`: the key lists of
the bulk `DeleteObjectsCommand` requests issued for `keys` (batch size
1000, no request for an empty list). -/
def deleteBatches (keys : List Str) : List (List Str) :=
  if h : keys = [] then [] else
    keys.take 1000 :: deleteBatches (keys.drop 1000)
termination_by keys.length
decreasing_by
  simp only [List.length_drop]
  exact Nat.sub_lt (List.length_pos.mpr h) (by decide)

/-- The orphan filter of `cleanupCommand`
(`allS3Keys.filter((key) => !expectedKeys.has(key))`). -/
def orphanedKeys (allS3Keys expectedKeys : List Str) : List Str :=
  allS3Keys.filter (fun k => ¬ expectedKeys.contains k)

/-- `extractKeyFromUrl` from `src/core/s3-upload.ts`: strip the public base
URL (plus one slash); otherwise take the URL's path without the leading
slash; otherwise return the input unchanged.  The `new URL(url)` fallback
is modelled as: the text after the first `/` that follows the `://` scheme
separator (parse failure when no `://` is present). -/
def extractKeyFromUrl (url baseUrlRaw : Str) : Str :=
  let baseUrl :=
    if (ofStr "/").isSuffixOf baseUrlRaw then baseUrlRaw.take (baseUrlRaw.length - 1)
    else baseUrlRaw
  if baseUrl.isPrefixOf url then
    url.drop (baseUrl.length + 1)
  else
    let afterScheme :=
      (url.tails.filter (fun t => (ofStr "://").isPrefixOf t)).head?
    match afterScheme with
    | some t => ((t.drop 3).dropWhile (fun c => c ≠ '/')).drop 1
    | none => url

/-! ## String post-processing (`extractCleanText` lines 65-75 of
`src/core/extractor.ts`)

Each global regex replacement is realized as a state-machine transducer
with JavaScript `replace(/.../g)` semantics: leftmost non-overlapping
matches found in the input, scanning resuming after each match. -/

/-- The escaped-punctuation class of the unescape rewrite
(`/\\([*_`~\[\](){}#+\-.!|])/g` -> `$1`). -/
def escSet : Str :=
  ['*', '_', Char.ofNat 96, '~', '[', ']', '(', ')', lbChar, rbChar,
   '#', '+', '-', '.', '!', '|']

/-- Rewrite 1: remove a backslash before an escaped punctuation character. -/
def unescapeMd : Str → Str
  | [] => []
  | [c] => [c]
  | c :: d :: r =>
    if c = '\\' && escSet.contains d then d :: unescapeMd r
    else c :: unescapeMd (d :: r)

/-- Rewrite 2 (`/[:,]\s*,/g` -> `,`).  The state holds the pending trigger
character and the buffered whitespace read since it. -/
def cleanOrphan : Option (Char × Str) → Str → Str
  | none, [] => []
  | some (t, buf), [] => t :: buf
  | none, c :: r =>
    if c = ':' || c = ',' then cleanOrphan (some (c, [])) r
    else c :: cleanOrphan none r
  | some (t, buf), c :: r =>
    if isWsChar c then cleanOrphan (some (t, buf.concat c)) r
    else if c = ',' then ',' :: cleanOrphan none r
    else if c = ':' then (t :: buf) ++ cleanOrphan (some (c, [])) r
    else (t :: buf) ++ (c :: cleanOrphan none r)

/-- States of the `/,(\s*,)+/g` transducer. -/
inductive RepState where
  | n0
  | one (buf : Str)
  | many (buf : Str)

/-- Rewrite 3 (`/,(\s*,)+/g` -> `,`). -/
def cleanRepeats : RepState → Str → Str
  | .n0, [] => []
  | .one buf, [] => ',' :: buf
  | .many buf, [] => ',' :: buf
  | .n0, c :: r =>
    if c = ',' then cleanRepeats (.one []) r else c :: cleanRepeats .n0 r
  | .one buf, c :: r =>
    if isWsChar c then cleanRepeats (.one (buf.concat c)) r
    else if c = ',' then cleanRepeats (.many []) r
    else (',' :: buf) ++ (c :: cleanRepeats .n0 r)
  | .many buf, c :: r =>
    if isWsChar c then cleanRepeats (.many (buf.concat c)) r
    else if c = ',' then cleanRepeats (.many []) r
    else (',' :: buf) ++ (c :: cleanRepeats .n0 r)

/-- States of the `/:\s*,+\s*/g` transducer. -/
inductive ColState where
  | n0
  | ws (buf : Str)
  | commas
  | trail

/-- Rewrite 4 (`/:\s*,+\s*/g` -> `: `). -/
def cleanColon : ColState → Str → Str
  | .n0, [] => []
  | .ws buf, [] => ':' :: buf
  | .commas, [] => [':', ' ']
  | .trail, [] => [':', ' ']
  | .n0, c :: r =>
    if c = ':' then cleanColon (.ws []) r else c :: cleanColon .n0 r
  | .ws buf, c :: r =>
    if isWsChar c then cleanColon (.ws (buf.concat c)) r
    else if c = ',' then cleanColon .commas r
    else if c = ':' then (':' :: buf) ++ cleanColon (.ws []) r
    else (':' :: buf) ++ (c :: cleanColon .n0 r)
  | .commas, c :: r =>
    if c = ',' then cleanColon .commas r
    else if isWsChar c then cleanColon .trail r
    else if c = ':' then [':', ' '] ++ cleanColon (.ws []) r
    else [':', ' '] ++ (c :: cleanColon .n0 r)
  | .trail, c :: r =>
    if isWsChar c then cleanColon .trail r
    else if c = ':' then [':', ' '] ++ cleanColon (.ws []) r
    else [':', ' '] ++ (c :: cleanColon .n0 r)

/-- Rewrite 5 (`/:\s*\./g` -> `.`): a colon, optional whitespace and a
period collapse to just the period. -/
def cleanColonDot : Option Str → Str → Str
  | none, [] => []
  | some buf, [] => ':' :: buf
  | none, c :: r =>
    if c = ':' then cleanColonDot (some []) r else c :: cleanColonDot none r
  | some buf, c :: r =>
    if isWsChar c then cleanColonDot (some (buf.concat c)) r
    else if c = '.' then '.' :: cleanColonDot none r
    else if c = ':' then (':' :: buf) ++ cleanColonDot (some []) r
    else (':' :: buf) ++ (c :: cleanColonDot none r)

/-- Rewrite 6 (`/\n{3,}/g` -> `\n\n`): each maximal run of `n >= 3`
newlines becomes exactly two.  The counter is the number of newlines
already emitted in the current run. -/
def collapseNlGo : Nat → Str → Str
  | _, [] => []
  | k, c :: r =>
    if c = nlChar then
      if k < 2 then c :: collapseNlGo (k + 1) r else collapseNlGo (k + 1) r
    else c :: collapseNlGo 0 r

/-- The complete post-processing stage of `extractCleanText`
(rewrites 1-6 followed by `trim()`). -/
def postProcess (s : Str) : Str :=
  jsTrim (collapseNlGo 0 (cleanColonDot none (cleanColon .n0
    (cleanRepeats .n0 (cleanOrphan none (unescapeMd s))))))

/-- No run of three consecutive newlines occurs in the string. -/
def NoTripleNl (s : Str) : Prop := ¬ [nlChar, nlChar, nlChar] <:+: s

/-- The string has no leading or trailing JS whitespace. -/
def IsTrimmed (s : Str) : Prop := jsTrim s = s

/-! ## Voice payload serialization and parsing

`injectAudioComponent` serializes the voice list with
`JSON.stringify(voices, null, 2)` and re-indents every line after the
first by two spaces; `extractExistingAudioData` reads it back with
`JSON.parse`.  The parser below is a whitespace-insensitive JSON reader
for arrays of flat objects with string values (the only shape the voices
attribute carries; other JSON shapes are modelled as a parse failure). -/

/-- A voice descriptor (`{ id, name, url }` in `src/types/index.ts`). -/
structure Voice where
  vid : Str
  vname : Str
  vurl : Str
deriving DecidableEq, Repr

/-- JSON string escaping as performed by `JSON.stringify`. -/
def jsonEscapeChar (c : Char) : Str :=
  if c = '"' then ['\\', '"']
  else if c = '\\' then ['\\', '\\']
  else if c = nlChar then ['\\', 'n']
  else if c = Char.ofNat 9 then ['\\', 't']
  else if c = Char.ofNat 13 then ['\\', 'r']
  else if c = Char.ofNat 8 then ['\\', 'b']
  else if c = Char.ofNat 12 then ['\\', 'f']
  else if c.toNat < 32 then
    ['\\', 'u', '0', '0', hexDigit (c.toNat / 16), hexDigit (c.toNat % 16)]
  else [c]

/-- JSON-escape a string body. -/
def jsonEscape (s : Str) : Str := s.flatMap jsonEscapeChar

/-- One voice object as printed by `JSON.stringify(voices, null, 2)`
(two-space base indentation inside the array). -/
def jsonVoiceObj (v : Voice) : Str :=
  ofStr "  \x7b\n    \"id\": \"" ++ jsonEscape v.vid ++
  ofStr "\",\n    \"name\": \"" ++ jsonEscape v.vname ++
  ofStr "\",\n    \"url\": \"" ++ jsonEscape v.vurl ++
  ofStr "\"\n  \x7d"

/-- Concatenate with a string separator. -/
def joinWithStr (sep : Str) (ls : List Str) : Str := (ls.intersperse sep).flatten

/-- `JSON.stringify(voices, null, 2)`. -/
def jsonStringifyVoices (vs : List Voice) : Str :=
  match vs with
  | [] => ofStr "[]"
  | _ =>
    ofStr "[\n" ++ joinWithStr (ofStr ",\n") (vs.map jsonVoiceObj) ++ ofStr "\n]"

/-- The re-indentation applied to the stringified payload in
`injectAudioComponent`: every line after the first is prefixed with two
spaces. -/
def reindent2 (s : Str) : Str :=
  joinNl ((splitNl s).mapIdx (fun i l => if i = 0 then l else ofStr "  " ++ l))

/-- Tokens of the JSON reader: a string literal or a structural symbol. -/
inductive JTok where
  | str (s : Str)
  | sym (c : Char)
  | bad
deriving DecidableEq, Repr

/-- Tokenizer states (outside a string / inside / after a backslash /
inside a `\uXXXX` escape). -/
inductive JTokMode where
  | out
  | inStr (buf : Str)
  | inEsc (buf : Str)
  | inU (buf : Str) (k : Nat) (hex : Nat)
deriving DecidableEq, Repr

/-- Numeric value of one hex digit (0 for non-hex input). -/
def hexVal (c : Char) : Nat :=
  if '0' ≤ c && c ≤ '9' then c.toNat - 48
  else if 'a' ≤ c && c ≤ 'f' then c.toNat - 87
  else if 'A' ≤ c && c ≤ 'F' then c.toNat - 55
  else 0

/-- One tokenizer step. -/
def jTokStep : JTokMode × List JTok → Char → JTokMode × List JTok
  | (.out, acc), c =>
    if c = '"' then (.inStr [], acc)
    else if isWsChar c then (.out, acc)
    else if c = '[' || c = ']' || c = lbChar || c = rbChar || c = ',' || c = ':' then
      (.out, acc ++ [.sym c])
    else (.out, acc ++ [.bad])
  | (.inStr buf, acc), c =>
    if c = '"' then (.out, acc ++ [.str buf])
    else if c = '\\' then (.inEsc buf, acc)
    else (.inStr (buf.concat c), acc)
  | (.inEsc buf, acc), c =>
    if c = 'n' then (.inStr (buf.concat nlChar), acc)
    else if c = 't' then (.inStr (buf.concat (Char.ofNat 9)), acc)
    else if c = 'r' then (.inStr (buf.concat (Char.ofNat 13)), acc)
    else if c = 'b' then (.inStr (buf.concat (Char.ofNat 8)), acc)
    else if c = 'f' then (.inStr (buf.concat (Char.ofNat 12)), acc)
    else if c = 'u' then (.inU buf 0 0, acc)
    else (.inStr (buf.concat c), acc)
  | (.inU buf k hex, acc), c =>
    if k = 3 then (.inStr (buf.concat (Char.ofNat (hex * 16 + hexVal c))), acc)
    else (.inU buf (k + 1) (hex * 16 + hexVal c), acc)

/-- Tokenize a JSON text; fails on an unterminated string literal. -/
def jTokenize (s : Str) : Option (List JTok) :=
  match s.foldl jTokStep (.out, []) with
  | (.out, acc) => some acc
  | _ => none

/-- States of the token-level reader for `[ { "k": "v", ... }, ... ]`. -/
inductive JParseMode where
  | start
  | arrOpen
  | objOpen (cur : Voice)
  | afterKey (cur : Voice) (key : Str)
  | afterColon (cur : Voice) (key : Str)
  | afterVal (cur : Voice)
  | afterObj
  | done
  | failed
deriving DecidableEq, Repr

/-- Record a key/value pair on the in-progress voice (last value wins,
like property assignment; unknown keys are ignored). -/
def setVoiceField (cur : Voice) (key val : Str) : Voice :=
  if key = ofStr "id" then { cur with vid := val }
  else if key = ofStr "name" then { cur with vname := val }
  else if key = ofStr "url" then { cur with vurl := val }
  else cur

/-- One step of the token-level reader. -/
def jParseStep : JParseMode × List Voice → JTok → JParseMode × List Voice
  | (.start, acc), t =>
    if t = .sym '[' then (.arrOpen, acc) else (.failed, acc)
  | (.arrOpen, acc), t =>
    if t = .sym ']' then (.done, acc)
    else if t = .sym lbChar then (.objOpen ⟨[], [], []⟩, acc)
    else (.failed, acc)
  | (.objOpen cur, acc), t =>
    match t with
    | .str k => (.afterKey cur k, acc)
    | .sym c => if c = rbChar then (.afterObj, acc ++ [cur]) else (.failed, acc)
    | _ => (.failed, acc)
  | (.afterKey cur k, acc), t =>
    if t = .sym ':' then (.afterColon cur k, acc) else (.failed, acc)
  | (.afterColon cur k, acc), t =>
    match t with
    | .str v => (.afterVal (setVoiceField cur k v), acc)
    | _ => (.failed, acc)
  | (.afterVal cur, acc), t =>
    if t = .sym ',' then (.objOpen cur, acc)
    else if t = .sym rbChar then (.afterObj, acc ++ [cur]) else (.failed, acc)
  | (.afterObj, acc), t =>
    if t = .sym ',' then (.arrOpen, acc)
    else if t = .sym ']' then (.done, acc) else (.failed, acc)
  | (.done, acc), _ => (.failed, acc)
  | (.failed, acc), _ => (.failed, acc)

/-- Model of `JSON.parse` applied to a voices attribute payload: accepts a
JSON array of flat objects with string values. -/
def parseVoicesJson (s : Str) : Option (List Voice) :=
  match jTokenize s with
  | none => none
  | some toks =>
    match toks.foldl jParseStep (.start, []) with
    | (.done, acc) => some acc
    | _ => none


/-! ## Document parser model

The tool parses MDX with the remark/micromark library stack
(`parseMDX` in `src/core/injector.ts`).  Modelled from the spec: the
Document Parser (spec section 4.1) builds a structural tree recognizing
front matter, import/export statements, embedded-expression braces,
component tags, code blocks, headings and paragraphs, with line-range
positions per node.  The model below is a line-oriented block scanner
with exactly those node kinds; like the real MDX parser it rejects
unterminated expressions and unterminated component tags, and it treats
an unclosed code fence as running to the end of the file.  Inline
constructs (emphasis, links) are not modelled separately: a paragraph
node carries its raw text. -/

/-- Parse failures (the real remark-mdx parser throws on these). -/
inductive PErr where
  | unclosedExpr
  | unclosedJsx
deriving DecidableEq, Repr

/-- Decidable equality for `Except`, used to evaluate pipeline results on
concrete inputs. -/
instance {e a : Type} [DecidableEq e] [DecidableEq a] : DecidableEq (Except e a) :=
  fun x y =>
    match x, y with
    | .ok u, .ok v =>
      if h : u = v then isTrue (by rw [h]) else isFalse (by simp [h])
    | .error u, .error v =>
      if h : u = v then isTrue (by rw [h]) else isFalse (by simp [h])
    | .ok _, .error _ => isFalse (by simp)
    | .error _, .ok _ => isFalse (by simp)

/-- Structural nodes with 1-indexed start/end line positions. -/
inductive MdxNode where
  | yamlN (startL endL : Nat)
  | esmN (text : Str) (startL endL : Nat)
  | exprN (value : Str) (startL endL : Nat)
  | jsxN (text : Str) (startL endL : Nat)
  | headingN (text : Str) (startL endL : Nat)
  | paraN (text : Str) (startL endL : Nat)
  | codeN (text : Str) (startL endL : Nat)
  | brkN (startL endL : Nat)
deriving DecidableEq, Repr

/-- A blank line (whitespace only). -/
def isBlankLine (l : Str) : Bool := jsTrim l = []

/-- A fenced-code delimiter line. -/
def isFenceLine (l : Str) : Bool := (ofStr "```").isPrefixOf l

/-- An import/export (ESM) statement line. -/
def isEsmLine (l : Str) : Bool :=
  (ofStr "import ").isPrefixOf l || (ofStr "export ").isPrefixOf l

/-- A line opening an embedded expression. -/
def isExprLine (l : Str) : Bool :=
  match l with
  | c :: _ => c = lbChar
  | [] => false

/-- An ASCII uppercase letter. -/
def isUpperChar (c : Char) : Bool := 'A' ≤ c && c ≤ 'Z'

/-- A line opening a component (JSX) tag. -/
def isJsxLine (l : Str) : Bool :=
  match l with
  | c :: d :: _ => c = '<' && isUpperChar d
  | _ => false

/-- A heading line. -/
def isHeadingLine (l : Str) : Bool :=
  match l with
  | c :: _ => c = '#'
  | [] => false

/-- A thematic-break line (the `---` form). -/
def isBrkLine (l : Str) : Bool := jsTrim l = ofStr "---"

/-- A line that ends a component-tag block (contains a self-closing `/>`
or a closing tag). -/
def jsxCloses (l : Str) : Bool :=
  containsStr l (ofStr "/>") || containsStr l (ofStr "</")

/-- Count occurrences of a character. -/
def countChar (c : Char) (l : Str) : Nat := (l.filter (· = c)).length

/-- Text of a heading node (strip the `#` markers, as the plain-text
rendering of a heading). -/
def headText (l : Str) : Str := jsTrim (l.dropWhile (· = '#'))

/-- Collect the text inside braces at nesting depth `d`, dropping the
matching closing brace. -/
def takeBraced (d : Nat) : Str → Str
  | [] => []
  | c :: r =>
    if c = lbChar then c :: takeBraced (d + 1) r
    else if c = rbChar then (if d = 1 then [] else c :: takeBraced (d - 1) r)
    else c :: takeBraced d r

/-- The value of an expression node: the text between the outer braces. -/
def exprInner (s : Str) : Str :=
  match s.dropWhile (· ≠ lbChar) with
  | [] => []
  | _ :: r => takeBraced 1 r

/-- Parser modes (the construct currently being consumed). -/
inductive PMode where
  | top
  | inPara (buf : List Str) (startL : Nat)
  | inFence (buf : List Str) (startL : Nat)
  | inExpr (buf : List Str) (depth : Nat) (startL : Nat)
  | inJsx (buf : List Str) (startL : Nat)
deriving DecidableEq, Repr

/-- Parser state: mode, accumulated nodes, next 1-indexed line number. -/
structure PState where
  mode : PMode
  acc : List MdxNode
  lineNo : Nat
deriving DecidableEq, Repr

/-- A line that terminates a paragraph (blank line or the start of any
block construct; block constructs interrupt paragraphs in this model). -/
def paraBreaks (l : Str) : Bool :=
  isBlankLine l || isFenceLine l || isEsmLine l || isExprLine l ||
  isJsxLine l || isHeadingLine l || isBrkLine l

/-- Process one line in `top` mode (also used after flushing a
paragraph). -/
def stepTop (acc : List MdxNode) (n : Nat) (l : Str) : PState :=
  if isBlankLine l then ⟨.top, acc, n + 1⟩
  else if isFenceLine l then ⟨.inFence [] n, acc, n + 1⟩
  else if isEsmLine l then ⟨.top, acc ++ [.esmN l n n], n + 1⟩
  else if isExprLine l then
    let opens := countChar lbChar l
    let closes := countChar rbChar l
    if closes ≥ opens then ⟨.top, acc ++ [.exprN (exprInner l) n n], n + 1⟩
    else ⟨.inExpr [l] (opens - closes) n, acc, n + 1⟩
  else if isJsxLine l then
    if jsxCloses l then ⟨.top, acc ++ [.jsxN l n n], n + 1⟩
    else ⟨.inJsx [l] n, acc, n + 1⟩
  else if isHeadingLine l then ⟨.top, acc ++ [.headingN (headText l) n n], n + 1⟩
  else if isBrkLine l then ⟨.top, acc ++ [.brkN n n], n + 1⟩
  else ⟨.inPara [l] n, acc, n + 1⟩

/-- One parser step. -/
def pStep (st : PState) (l : Str) : PState :=
  match st.mode with
  | .top => stepTop st.acc st.lineNo l
  | .inPara buf s =>
    if paraBreaks l then
      stepTop (st.acc ++ [.paraN (joinNl buf) s (st.lineNo - 1)]) st.lineNo l
    else ⟨.inPara (buf ++ [l]) s, st.acc, st.lineNo + 1⟩
  | .inFence buf s =>
    if isFenceLine l then
      ⟨.top, st.acc ++ [.codeN (joinNl buf) s st.lineNo], st.lineNo + 1⟩
    else ⟨.inFence (buf ++ [l]) s, st.acc, st.lineNo + 1⟩
  | .inExpr buf d s =>
    let tot := d + countChar lbChar l
    let closes := countChar rbChar l
    if closes ≥ tot then
      ⟨.top, st.acc ++ [.exprN (exprInner (joinNl (buf ++ [l]))) s st.lineNo],
        st.lineNo + 1⟩
    else ⟨.inExpr (buf ++ [l]) (tot - closes) s, st.acc, st.lineNo + 1⟩
  | .inJsx buf s =>
    if jsxCloses l then
      ⟨.top, st.acc ++ [.jsxN (joinNl (buf ++ [l])) s st.lineNo], st.lineNo + 1⟩
    else ⟨.inJsx (buf ++ [l]) s, st.acc, st.lineNo + 1⟩

/-- Close the final construct at end of input.  Unterminated expressions
and component tags are parse errors (as in remark-mdx); an unterminated
fence runs to the end of the file. -/
def pFinalize (st : PState) : Except PErr (List MdxNode) :=
  match st.mode with
  | .top => .ok st.acc
  | .inPara buf s => .ok (st.acc ++ [.paraN (joinNl buf) s (st.lineNo - 1)])
  | .inFence buf s => .ok (st.acc ++ [.codeN (joinNl buf) s (st.lineNo - 1)])
  | .inExpr _ _ _ => .error .unclosedExpr
  | .inJsx _ _ => .error .unclosedJsx

/-- Parse a list of lines starting at the given 1-indexed line number. -/
def parseFrom (ls : List Str) (startLine : Nat) : Except PErr (List MdxNode) :=
  pFinalize (ls.foldl pStep ⟨.top, [], startLine⟩)

/-- Parse a full document given as lines: recognize YAML front matter
delimited by `---` lines at the very top, then scan the body. -/
def parseLines (ls : List Str) : Except PErr (List MdxNode) :=
  match ls with
  | l0 :: rest =>
    if l0 = ofStr "---" then
      match rest.findIdx? (fun l => l = ofStr "---") with
      | some k =>
        (parseFrom (rest.drop (k + 1)) (k + 3)).map
          (fun ns => MdxNode.yamlN 1 (k + 2) :: ns)
      | none => parseFrom ls 1
    else parseFrom ls 1
  | [] => parseFrom [] 1

/-- Parse a document string (model of `parseMDX`). -/
def parseMDXDoc (s : Str) : Except PErr (List MdxNode) := parseLines (splitNl s)

/-- Front-matter stripping via gray-matter (`matter(mdxContent).content`):
the text after the closing `---` line, or the whole text when no front
matter is present. -/
def matterContent (s : Str) : Str :=
  match splitNl s with
  | l0 :: rest =>
    if l0 = ofStr "---" then
      match rest.findIdx? (fun l => l = ofStr "---") with
      | some k => joinNl (rest.drop (k + 1))
      | none => s
    else s
  | [] => s

/-! ## Narration-text extractor (`extractCleanText` in
`src/core/extractor.ts`)

The remark pipeline strips front matter (gray-matter), parses, removes
the import/export statements (`remark-mdx-remove-esm`), JSX elements
and expressions (`remarkRemoveJSX`), unlinks links/images, converts to
plain text (`strip-markdown`) and stringifies.  Modelled from the spec:
code blocks are excluded from the canonical text (spec sections 4.2/8)
and the remaining text blocks are emitted in document order separated by
blank lines, which is the plain-text rendering convention of
`remark-stringify` after `strip-markdown`. -/

/-- Whether a node survives the `remarkMdxRemoveEsm` and `remarkRemoveJSX`
passes (import/export statements, JSX elements and expressions are
dropped). -/
def keepAfterRemoval (n : MdxNode) : Bool :=
  match n with
  | .esmN _ _ _ => false
  | .exprN _ _ _ => false
  | .jsxN _ _ _ => false
  | _ => true

/-- Plain-text contribution of a node after `strip-markdown`. -/
def nodeText (n : MdxNode) : Option Str :=
  match n with
  | .headingN t _ _ => some t
  | .paraN t _ _ => some t
  | _ => none

/-- Stringify the surviving nodes: text blocks separated by blank lines. -/
def stringifyNodes (ns : List MdxNode) : Str :=
  joinWithStr [nlChar, nlChar] (ns.filterMap nodeText)

/-- `extractCleanText`: strip front matter, parse, remove non-narratable
nodes, stringify, post-process.  Fails exactly when the parser fails
(the real pipeline rejects malformed MDX). -/
def extractCleanText (s : Str) : Except PErr Str :=
  (parseLines (splitNl (matterContent s))).map
    (fun ns => postProcess (stringifyNodes (ns.filter keepAfterRemoval)))

/-! ## Narration-block locator (`extractExistingAudioData`) -/

/-- The tag name of a component node (the identifier after `<`). -/
def jsxTag (txt : Str) : Str :=
  (txt.drop 1).takeWhile (fun c =>
    c.isAlpha || c.isDigit || c = '_' || c = '$' || c = '.')

/-- Attribute values as they appear on a parsed component tag: a string
literal or an expression in braces. -/
inductive AttrVal where
  | litA (s : Str)
  | exprA (s : Str)
deriving DecidableEq, Repr

/-- Find the first occurrence of `pat` and return the text after it. -/
def findAfter (pat : Str) : Str → Option Str
  | [] => if pat = [] then some [] else none
  | c :: r =>
    if pat.isPrefixOf (c :: r) then some ((c :: r).drop pat.length)
    else findAfter pat r

/-- The `voices` attribute of a component tag: the value after the first
`voices=` (a quoted literal or a brace-matched expression; a bare
attribute has no value). -/
def voicesAttrOf (txt : Str) : Option AttrVal :=
  match findAfter (ofStr "voices=") txt with
  | none => none
  | some rest =>
    match rest with
    | [] => none
    | c :: r =>
      if c = '"' then some (.litA (r.takeWhile (· ≠ '"')))
      else if c = lbChar then some (.exprA (takeBraced 1 r))
      else none

/-- Try to match the hash-annotation regular expression
`/\/\*\s*speak-mintlify-hash:\s*([a-f0-9]+)\s*\*\//` at the start of the
text; on success return the captured hex digits. -/
def hashAt (t : Str) : Option Str :=
  if (ofStr "/*").isPrefixOf t then
    let t1 := (t.drop 2).dropWhile isWsChar
    let pat := ofStr "speak-mintlify-hash:"
    if pat.isPrefixOf t1 then
      let t2 := (t1.drop pat.length).dropWhile isWsChar
      let hex := t2.takeWhile isLowerHexChar
      if hex = [] then none
      else if (ofStr "*/").isPrefixOf ((t2.drop hex.length).dropWhile isWsChar)
      then some hex else none
    else none
  else none

/-- First match of the hash-annotation pattern anywhere in the text
(JavaScript `value.match(...)`). -/
def findHashMatch : Str → Option Str
  | [] => none
  | c :: r =>
    match hashAt (c :: r) with
    | some h => some h
    | none => findHashMatch r

/-- The result record of `extractExistingAudioData`. -/
structure ExtractedData where
  hashv : Option Str
  voiceIds : List Str
  voices : List Voice
deriving DecidableEq, Repr

/-- One step of the `walkTree` traversal: update the found hash on an
expression node matching the annotation pattern, and the found voices on
a component node named `cn` whose `voices` attribute parses as JSON (a
later match overwrites an earlier one; an unparseable or absent value is
ignored; an empty string literal is falsy and skipped). -/
def walkStep (cn : Str) (st : Option Str × List Voice) (n : MdxNode) :
    Option Str × List Voice :=
  match n with
  | .exprN v _ _ =>
    match findHashMatch v with
    | some h => (some h, st.2)
    | none => st
  | .jsxN txt _ _ =>
    if jsxTag txt = cn then
      match voicesAttrOf txt with
      | some av =>
        if av = .litA [] then st
        else
          let js := match av with | .litA s => s | .exprA e => e
          match parseVoicesJson js with
          | some vs => (st.1, vs)
          | none => st
      | none => st
    else st
  | _ => st

/-- `extractExistingAudioData`: parse and walk the tree; return the found
hash and voices when a non-empty voices list was found, `null` (`none`)
otherwise. -/
def extractExistingAudioData (content cn : Str) :
    Except PErr (Option ExtractedData) :=
  (parseLines (splitNl content)).map (fun ns =>
    let st := ns.foldl (walkStep cn) (none, [])
    if st.2.length > 0 then some ⟨st.1, st.2.map Voice.vid, st.2⟩ else none)

/-! ## Insertion points and injection (`findInsertionPoints`,
`injectAudioComponent`) -/

/-- `hasAudioComponent`: the regex `<${componentName}[^>]*` tests whether
`<` followed by the component name occurs anywhere. -/
def hasAudioComponent (content cn : Str) : Bool :=
  containsStr content (ofStr "<" ++ cn)

/-- `findInsertionPoints`: walk the tree recording the front-matter end
line, the maximal import/export end line, and the first content line
(heading, paragraph or component element); the import position is the
last import end (else front-matter end, else 0) and the component
position is the line before the first content (else the import
position).  The front-matter end line fold (`frontmatterEndLine`). -/
def fmStep (a : Nat) (n : MdxNode) : Nat :=
  match n with | .yamlN _ e => e | _ => a

/-- The front-matter fold. -/
def fmEndOf (ns : List MdxNode) : Nat := ns.foldl fmStep 0

/-- One step of the `lastImportEndLine` fold. -/
def liStep (a : Nat) (n : MdxNode) : Nat :=
  match n with | .esmN _ _ e => max a e | _ => a

/-- The maximal end line over the import/export nodes (`lastImportEndLine`). -/
def lastImportEndOf (ns : List MdxNode) : Nat := ns.foldl liStep 0

/-- One step of the `firstContentLine` fold (first assignment wins
because of the `!firstContentLine` guard). -/
def fcStep (a : Nat) (n : MdxNode) : Nat :=
  if a = 0 then
    match n with
    | .headingN _ sL _ => sL
    | .paraN _ sL _ => sL
    | .jsxN _ sL _ => sL
    | _ => 0
  else a

/-- The first content line in walk order (`firstContentLine`). -/
def firstContentOf (ns : List MdxNode) : Nat := ns.foldl fcStep 0

/-- The pure position computation of `findInsertionPoints`. -/
def insertionPointsOf (ns : List MdxNode) : Nat × Nat :=
  let importPos := if lastImportEndOf ns > 0 then lastImportEndOf ns else fmEndOf ns
  let componentPos :=
    if firstContentOf ns > 0 then firstContentOf ns - 1 else importPos
  (importPos, componentPos)

/-- `findInsertionPoints` as in the source: parse, then compute. -/
def findInsertionPoints (s : Str) : Except PErr (Nat × Nat) :=
  (parseLines (splitNl s)).map insertionPointsOf

/-- The scan of the relocation branch of `injectAudioComponent`: walk the
lines tracking the last `import `-led line, the last line mentioning the
hash annotation, and the component tag's start; stop at the first line
containing `/>` once the component start was seen.  Returns
(lastImportLine, hashLine, componentStart, componentEnd). -/
def relocScanGo (cn : Str) :
    List Str → Nat → Option Nat → Option Nat → Option Nat →
    Option Nat × Option Nat × Option Nat × Option Nat
  | [], _, li, hl, cs => (li, hl, cs, none)
  | l :: r, i, li, hl, cs =>
    let lt := jsTrim l
    let li' := if (ofStr "import ").isPrefixOf lt then some i else li
    let hl' := if containsStr lt (ofStr "speak-mintlify-hash:") then some i else hl
    let cs' := if containsStr l (ofStr "<" ++ cn) then some i else cs
    if cs'.isSome && containsStr l (ofStr "/>") then (li', hl', cs', some i)
    else relocScanGo cn r (i + 1) li' hl' cs'

/-- The hash-annotation comment line written by the injector. -/
def hashCommentLine (hash : Str) : Str :=
  ofStr "\x7b/* speak-mintlify-hash: " ++ hash ++ ofStr " */\x7d"

/-- The component tag written by the injector (with the re-indented
stringified voices payload). -/
def componentCodeOf (cn : Str) (voices : List Voice) : Str :=
  ofStr "<" ++ cn ++ ofStr " voices=" ++ [lbChar] ++
    reindent2 (jsonStringifyVoices voices) ++ [rbChar] ++ ofStr " />"

/-- The import statement written by the injector. -/
def importStatementOf (cn cimp : Str) : Str :=
  ofStr "import \x7b " ++ cn ++ ofStr " \x7d from '" ++ cimp ++ ofStr "';"

/-- The fresh-insertion line splices of `injectAudioComponent`: insert
the import statement (unless already present), a blank separator, the
hash annotation and the component tag at the computed positions. -/
def injectFreshLines (lines : List Str) (hasImport : Bool)
    (importStatement hashComment componentCode : Str) (ip : Nat × Nat) :
    List Str :=
  let importPos := ip.1
  let componentPos := ip.2
  let lines1 :=
    if hasImport then lines else listSplice lines importPos 0 [importStatement]
  let adjusted := if hasImport then componentPos else componentPos + 1
  let needBefore :=
    if adjusted = 0 then true
    else match lines1.get? (adjusted - 1) with
      | some l => jsTrim l != []
      | none => true
  let lines2 := if needBefore then listSplice lines1 adjusted 0 [[]] else lines1
  let lines3 := listSplice lines2 adjusted 0 [hashComment]
  let lines4 := listSplice lines3 (adjusted + 1) 0 [componentCode]
  let needAfter :=
    match lines4.get? (adjusted + 2) with
    | some l => jsTrim l != []
    | none => true
  if needAfter then listSplice lines4 (adjusted + 2) 0 [[]] else lines4

/-- `injectAudioComponent` (line-splice logic of `src/core/injector.ts`):
if the component already occurs, remove the found annotation/tag span and
re-insert after the last import line; otherwise insert the import (when
missing), a blank separator, the annotation and the component tag at the
positions computed by `findInsertionPoints`. -/
def injectAudioComponent (mdx : Str) (voices : List Voice) (hash : Str)
    (componentImport componentName : Str) : Except PErr Str :=
  let lines := splitNl mdx
  let importStatement := importStatementOf componentName componentImport
  let hasImport := lines.any (fun l =>
    containsStr l (ofStr "import \x7b " ++ componentName ++ ofStr " \x7d"))
  let hashComment := hashCommentLine hash
  let componentCode := componentCodeOf componentName voices
  let reloc? : Option Str :=
    if hasAudioComponent mdx componentName then
      match relocScanGo componentName lines 0 none none none with
      | (li, hl, some cs, some ce) =>
        let lines1 :=
          match hl with
          | some hLine =>
            if hLine < cs then listSplice lines hLine (ce - hLine + 1) []
            else listSplice lines cs (ce - cs + 1) []
          | none => listSplice lines cs (ce - cs + 1) []
        let insertPos := match li with | some i => i + 1 | none => 0
        some (joinNl (listSplice lines1 insertPos 0 [[], hashComment, componentCode]))
      | _ => none
    else none
  match reloc? with
  | some out => .ok out
  | none =>
    (findInsertionPoints mdx).map (fun ip =>
      joinNl (injectFreshLines lines hasImport importStatement hashComment
        componentCode ip))

/-! ## Per-file decision logic of the generate command
(`src/commands/generate.ts`) -/

/-- The per-document outcome classes reported by the generate command. -/
inductive GenOutcome where
  | noText
  | unchanged
  | regenerated
deriving DecidableEq, Repr

/-- The unchanged check of `generateCommand`:
`existingData.hash === hash && existingData.voiceIds.length ===
config.voiceIds.length && config.voiceIds.every(id =>
existingData.voiceIds.includes(id))`. -/
def skipUnchangedCheck (ed : ExtractedData) (digest : Str)
    (cfgIds : List Str) : Bool :=
  ed.hashv == some digest &&
  ed.voiceIds.length == cfgIds.length &&
  cfgIds.all (fun i => ed.voiceIds.contains i)

/-- The voice array built for regeneration:
`config.voiceIds.map((id, idx) => ({ id, name: config.voiceNames[idx] ||
`Voice ${idx+1}`, url: audioUrls.get(id) || '' }))`; `urlOf` models the
upload-result lookup. -/
def mkVoices (cfgIds cfgNames : List Str) (urlOf : Str → Str) : List Voice :=
  cfgIds.mapIdx (fun idx id =>
    let nm := cfgNames.getD idx []
    ⟨id, (if nm = [] then ofStr "Voice " ++ ofStr (toString (idx + 1)) else nm),
      urlOf id⟩)

/-- One document's pass through `generateCommand`: extract, check for
empty text, hash, locate the existing block, skip when unchanged,
otherwise synthesize/upload (modelled by `urlOf`) and inject.  Returns
the outcome and the new file content (`none` when the file is not
written). -/
def generateStep (content : Str) (cfgIds cfgNames : List Str)
    (urlOf : Str → Str) (componentImport componentName : Str) :
    Except PErr (GenOutcome × Option Str) :=
  match extractCleanText content with
  | .error e => .error e
  | .ok ct =>
    if jsTrim ct = [] then .ok (.noText, none)
    else
      match extractExistingAudioData content componentName with
      | .error e => .error e
      | .ok (some ed) =>
        if skipUnchangedCheck ed (generateHash ct) cfgIds then
          .ok (.unchanged, none)
        else
          match injectAudioComponent content (mkVoices cfgIds cfgNames urlOf)
              (generateHash ct) componentImport componentName with
          | .error e => .error e
          | .ok out => .ok (.regenerated, some out)
      | .ok none =>
        match injectAudioComponent content (mkVoices cfgIds cfgNames urlOf)
            (generateHash ct) componentImport componentName with
        | .error e => .error e
        | .ok out => .ok (.regenerated, some out)

/-! ## Orphan reconciliation (`cleanupCommand`) -/

/-- The reference scan of `cleanupCommand`: for every document with a
located narration block, the storage keys of its non-empty voice URLs. -/
def scanExpectedKeys (docs : List Str) (cn s3PublicUrl : Str) :
    Except PErr (List Str) :=
  docs.foldlM (fun acc content => do
    let ed? ← extractExistingAudioData content cn
    match ed? with
    | some ed =>
      if ed.voices.length > 0 then
        return acc ++ (ed.voices.filterMap (fun v =>
          if v.vurl ≠ [] then some (extractKeyFromUrl v.vurl s3PublicUrl)
          else none))
      else return acc
    | none => return acc) []

/-- The orphan set computed by `cleanupCommand`: all storage keys under
the prefix minus the referenced keys. -/
def cleanupOrphanSet (docs : List Str) (cn s3PublicUrl : Str)
    (allS3Keys : List Str) : Except PErr (List Str) :=
  (scanExpectedKeys docs cn s3PublicUrl).map (orphanedKeys allS3Keys)

/-! ## Claim-side definitions and helper lemmas -/

/-- Claim-side slug (amended C9 wording): drop the `.mdx` extension, take
the last two path segments, join with `-`, lowercase. -/
def specSlugMdx (p : Str) : Str :=
  let stem :=
    if (ofStr ".mdx").isSuffixOf p then p.take (p.length - 4) else p
  jsLower (joinWithChar '-' (((splitOnChar '/' stem).reverse.take 2).reverse))

/-- Claim-side extension dropping as the claim states it ("dropping the
file extension"): remove the trailing `.ext` of the final path segment,
whatever the extension. -/
def dropPathExt (p : Str) : Str :=
  match p.reverse.dropWhile (fun c => c ≠ '.' && c ≠ '/') with
  | '.' :: rest => rest.reverse
  | _ => p

/-- Claim-side storage key with generic extension dropping (the claim as
stated in C9). -/
def specKeyAnyExt (cfg : S3KeyConfig) (p v : Str) : Str :=
  let pref := if cfg.pathPrefixCfg = [] then ofStr "audio" else cfg.pathPrefixCfg
  let segs := splitOnChar '/' (dropPathExt p)
  pref ++ ofStr "/" ++ jsLower (joinWithChar '-' (segs.drop (segs.length - 2))) ++
    ofStr "/" ++ v ++ ofStr ".mp3"

/-- The default component name. -/
def cnDef : Str := ofStr "AudioTranscript"

/-- The default component import path. -/
def cimpDef : Str := ofStr "/snippets/audio-transcript.jsx"

/-- Example document for the cleanup claim: a narration block referencing
two storage keys. -/
def exC7Doc : Str :=
  ofStr "\x7b/* speak-mintlify-hash: ab12 */\x7d\n<AudioTranscript voices=\x7b[\n  \x7b\n    \"id\": \"v1\",\n    \"name\": \"A\",\n    \"url\": \"https://cdn.x/audio/d-b/v1.mp3\"\n  \x7d,\n  \x7b\n    \"id\": \"v2\",\n    \"name\": \"B\",\n    \"url\": \"https://cdn.x/audio/d-c/v1.mp3\"\n  \x7d\n]\x7d />\n"

/-- Example document for the injection-layout claim: front matter, one
unrelated import, a heading and a paragraph, no narration component. -/
def exC6Doc : Str :=
  ofStr "---\nt: x\n---\nimport \x7b Other \x7d from 'o';\n\n## Hi\nBody."

/-- The parse of `exC6Doc`. -/
def exC6Ns : List MdxNode :=
  [.yamlN 1 3, .esmN (ofStr "import \x7b Other \x7d from 'o';") 4 4,
   .headingN (ofStr "Hi") 6 6, .paraN (ofStr "Body.") 7 7]

/-- Example voice list for the injection-layout claim. -/
def exC6Voices : List Voice :=
  [⟨ofStr "v1", ofStr "Voice 1", ofStr "https://cdn.x/audio/d/v1.mp3"⟩]

/-- The parser fold over a list of lines. -/
def pFold (ls : List Str) (st : PState) : PState := ls.foldl pStep st

/-- Shift the line positions of a node by `k`. -/
def shiftNode (k : Nat) : MdxNode → MdxNode
  | .yamlN s e => .yamlN (s + k) (e + k)
  | .esmN t s e => .esmN t (s + k) (e + k)
  | .exprN v s e => .exprN v (s + k) (e + k)
  | .jsxN t s e => .jsxN t (s + k) (e + k)
  | .headingN t s e => .headingN t (s + k) (e + k)
  | .paraN t s e => .paraN t (s + k) (e + k)
  | .codeN t s e => .codeN t (s + k) (e + k)
  | .brkN s e => .brkN (s + k) (e + k)

/-- Shift the recorded start line of an open parser mode by `k`. -/
def shiftMode (k : Nat) : PMode → PMode
  | .top => .top
  | .inPara buf s => .inPara buf (s + k)
  | .inFence buf s => .inFence buf (s + k)
  | .inExpr buf d s => .inExpr buf d (s + k)
  | .inJsx buf s => .inJsx buf (s + k)

/-- A node that leaves the walk state of `extractExistingAudioData`
untouched: no hash-annotation match and no component named `cn` with a
usable `voices` attribute. -/
def nodeIdle (cn : Str) (n : MdxNode) : Bool :=
  match n with
  | .exprN v _ _ => (findHashMatch v).isNone
  | .jsxN txt _ _ =>
    !(jsxTag txt == cn &&
      (match voicesAttrOf txt with
       | some av =>
         !(av == .litA []) &&
         (parseVoicesJson
           (match av with | .litA s => s | .exprA e => e)).isSome
       | none => false))
  | _ => true

/-- A character that round-trips through the JSON serializer, the brace
matcher and the line scanner without interference: not a quote, backslash,
angle bracket, brace or control character. -/
def cleanFieldChar (c : Char) : Bool :=
  !(c = '"' || c = '\\' || c = '<' || c = '>' || c = lbChar || c = rbChar ||
    decide (c.toNat < 32))

/-- A voice whose three fields are clean. -/
def cleanVoice (v : Voice) : Bool :=
  v.vid.all cleanFieldChar && v.vname.all cleanFieldChar &&
  v.vurl.all cleanFieldChar

/-- Insert a two-space indent after every newline (the effect of the
payload re-indentation in `injectAudioComponent`). -/
def indentAfterNl (s : Str) : Str :=
  s.flatMap (fun c => if c = nlChar then [nlChar, ' ', ' '] else [c])

/-- The number of leading lines consumed as front matter by the parser
(0 when there is none). -/
def fmSkip (ls : List Str) : Nat :=
  match ls with
  | l0 :: rest =>
    if l0 = ofStr "---" then
      match rest.findIdx? (fun l => l = ofStr "---") with
      | some k => k + 2
      | none => 0
    else 0
  | [] => 0

/-- The mode reached after one parser step from an empty accumulator. -/
def pModeStep (m : PMode) (n : Nat) (l : Str) : PMode :=
  (pStep ⟨m, [], n⟩ l).mode

/-- The nodes emitted by one parser step. -/
def pDelta (m : PMode) (n : Nat) (l : Str) : List MdxNode :=
  (pStep ⟨m, [], n⟩ l).acc

/-- The token list produced for one serialized voice object. -/
def objToks (v : Voice) : List JTok :=
  [.sym lbChar, .str (ofStr "id"), .sym ':', .str v.vid, .sym ',',
   .str (ofStr "name"), .sym ':', .str v.vname, .sym ',',
   .str (ofStr "url"), .sym ':', .str v.vurl, .sym rbChar]

/-- The comma-joined token lists of the serialized voice objects. -/
def objsToks : List Voice → List JTok
  | [] => []
  | [v] => objToks v
  | v :: w :: vs => objToks v ++ .sym ',' :: objsToks (w :: vs)

/-- The nodes appended by `pFinalize` for a given final mode and line. -/
def pFinDelta (M : PMode) (N : Nat) : Except PErr (List MdxNode) :=
  match M with
  | .top => .ok []
  | .inPara buf s => .ok [.paraN (joinNl buf) s (N - 1)]
  | .inFence buf s => .ok [.codeN (joinNl buf) s (N - 1)]
  | .inExpr _ _ _ => .error .unclosedExpr
  | .inJsx _ _ => .error .unclosedJsx

/-- Claim-side description for C10: what a single node contributes to the
found-voices state — `some vs` when the node is a component named `cn`
whose `voices` attribute has a truthy value that parses as JSON. -/
def nodeVoicesYield (cn : Str) (n : MdxNode) : Option (List Voice) :=
  match n with
  | .jsxN txt _ _ =>
    if jsxTag txt = cn then
      match voicesAttrOf txt with
      | some av =>
        if av = .litA [] then none
        else parseVoicesJson (match av with | .litA s => s | .exprA e => e)
      | none => none
    else none
  | _ => none

/-- The post-processing pipeline exactly as the claim enumerates it
(refinement comparison definition, following the spec's words): unescape,
collapse `:`/`,` plus stray commas, collapse colon-plus-commas to `: `,
collapse newline runs, trim — without the code's extra colon-period
rewrite. -/
def postProcessSpec (s : Str) : Str :=
  jsTrim (collapseNlGo 0 (cleanColon .n0
    (cleanRepeats .n0 (cleanOrphan none (unescapeMd s)))))

/-- Example document for C1's counterexample: a document whose narration
block is locatable and whose recorded fingerprint equals the fingerprint
of its (empty) extracted text. -/
def exC1Doc : Str :=
  ofStr "import \x7b AudioTranscript \x7d from '/snippets/audio-transcript.jsx';\n\n\x7b/* speak-mintlify-hash: e3b0c44298fc1c149afbf4c8996fb92427ae41e4649b934ca495991b7852b855 */\x7d\n<AudioTranscript voices=\x7b[\n  \x7b\n    \"id\": \"v1\",\n    \"name\": \"Alice\",\n    \"url\": \"u\"\n  \x7d\n]\x7d />\n"

/-- The voices recorded in `exC1Doc`. -/
def exC1Voices : List Voice := [⟨ofStr "v1", ofStr "Alice", ofStr "u"⟩]

/-- Example document for C1's witness: prose plus a narration block whose
recorded fingerprint is the SHA-256 of the extracted text `Hello`. -/
def exC1WDoc : Str :=
  ofStr "Hello\n\n\x7b/* speak-mintlify-hash: 185f8db32271fe25f561a6fc938b2e264306ec304eda518007d1764826381969 */\x7d\n<AudioTranscript voices=\x7b[\n  \x7b\n    \"id\": \"v1\",\n    \"name\": \"Alice\",\n    \"url\": \"u\"\n  \x7d\n]\x7d />\n"

/-- The start line of a node. -/
def nodeStartL : MdxNode → Nat
  | .yamlN s _ => s
  | .esmN _ s _ => s
  | .exprN _ s _ => s
  | .jsxN _ s _ => s
  | .headingN _ s _ => s
  | .paraN _ s _ => s
  | .codeN _ s _ => s
  | .brkN s _ => s

/-- The end line of a node. -/
def nodeEndL : MdxNode → Nat
  | .yamlN _ e => e
  | .esmN _ _ e => e
  | .exprN _ _ e => e
  | .jsxN _ _ e => e
  | .headingN _ _ e => e
  | .paraN _ _ e => e
  | .codeN _ _ e => e
  | .brkN _ e => e

/-- The end lines of the import/export nodes, in document order
(claim side of C6). -/
def esmEnds (ns : List MdxNode) : List Nat :=
  ns.filterMap (fun n => match n with | .esmN _ _ e => some e | _ => none)

/-- The end lines of the front-matter nodes (claim side of C6). -/
def yamlEnds (ns : List MdxNode) : List Nat :=
  ns.filterMap (fun n => match n with | .yamlN _ e => some e | _ => none)

/-- The start lines of the content nodes — headings, paragraphs and
component elements — in document order (claim side of C6). -/
def contentStarts (ns : List MdxNode) : List Nat :=
  ns.filterMap (fun n =>
    match n with
    | .headingN _ s _ => some s
    | .paraN _ s _ => some s
    | .jsxN _ s _ => some s
    | _ => none)

/-- Claim side of C6: the import insertion line is the maximal
esm-node (import/export) end line if any import exists, else the
front-matter end line if present, else line 0. -/
def specImportPos (ns : List MdxNode) : Nat :=
  match esmEnds ns with
  | [] => (yamlEnds ns).getLast?.getD 0
  | es => es.foldl max 0

/-- Claim side of C6: the component insertion line is the line before
the first content node, defaulting to the import line if no content node
is found. -/
def specComponentPos (ns : List MdxNode) : Nat :=
  match contentStarts ns with
  | [] => specImportPos ns
  | c :: _ => c - 1

/-- Positions recorded in a well-formed parser state are positive and
open constructs start strictly before the current line. -/
def stOk (st : PState) : Prop :=
  1 ≤ st.lineNo ∧
  (match st.mode with
   | .top => True
   | .inPara _ s => 1 ≤ s ∧ s < st.lineNo
   | .inFence _ s => 1 ≤ s ∧ s < st.lineNo
   | .inExpr _ _ s => 1 ≤ s ∧ s < st.lineNo
   | .inJsx _ s => 1 ≤ s ∧ s < st.lineNo) ∧
  ∀ n ∈ st.acc, 1 ≤ nodeStartL n ∧ 1 ≤ nodeEndL n

def exC2Doc : Str :=
  ofStr "Hello\n\n\x7b/* speak-mintlify-hash: aaaa */\x7d"

def exC2Out : Str :=
  match injectAudioComponent exC2Doc exC1Voices (ofStr "bbbb") cimpDef cnDef with
  | .ok o => o
  | .error _ => []

def exC2WDoc : Str := ofStr "Hello"

def exC2WNs : List MdxNode := [.paraN (ofStr "Hello") 1 1]

def exC3Doc : Str := ofStr "Hello\nWorld\n\nimport x from 'y';"

def exC3Out : Str :=
  match generateStep exC3Doc [ofStr "v1"] [ofStr "Alice"] (fun _ => ofStr "u")
      cimpDef cnDef with
  | .ok (_, some o) => o
  | _ => []

theorem deleteBatches_nil : deleteBatches [] = [] := by
  unfold deleteBatches; simp

theorem deleteBatches_cons (keys : List Str) (h : keys ≠ []) :
    deleteBatches keys = keys.take 1000 :: deleteBatches (keys.drop 1000) := by
  rw [deleteBatches]; simp [h]

theorem deleteBatches_spec_aux (n : Nat) :
    ∀ keys : List Str, keys.length ≤ n →
      (deleteBatches keys).flatten = keys ∧
      ((deleteBatches keys).all fun b =>
        decide (b.length ≤ 1000) && !b.isEmpty) = true := by
  induction n with
  | zero =>
    intro keys h
    have : keys = [] := List.eq_nil_of_length_eq_zero (Nat.le_zero.mp h)
    subst this; simp [deleteBatches_nil]
  | succ n ih =>
    intro keys h
    by_cases hk : keys = []
    · subst hk; simp [deleteBatches_nil]
    · rw [deleteBatches_cons keys hk]
      have hlen : (keys.drop 1000).length ≤ n := by
        have hpos : 0 < keys.length := List.length_pos.mpr hk
        simp only [List.length_drop]
        omega
      obtain ⟨h1, h2⟩ := ih (keys.drop 1000) hlen
      refine ⟨by simp [h1], ?_⟩
      simp only [List.all_cons, h2, Bool.and_true]
      have htk : (keys.take 1000).length ≤ 1000 := by
        simp [List.length_take]
      have hne : (keys.take 1000).isEmpty = false := by
        cases keys with
        | nil => exact absurd rfl hk
        | cons a l => simp [List.take]
      simp [htk, hne]

theorem rev_take_rev (l : List α) (n : Nat) :
    (l.reverse.take n).reverse = l.drop (l.length - n) := by
  rw [List.reverse_take]; simp

theorem slugOf_eq_spec (p : Str) : slugOf p = specSlugMdx p := by
  unfold slugOf specSlugMdx
  simp only [rev_take_rev]

/-! ## Claim theorems -/

/-- C8: `deleteMultiple` partitions its key list into consecutive batches
of at most 1000 keys, one bulk request per batch, so every input key is
requested exactly once (the concatenation of the batches is the input, in
order), no batch is empty or exceeds the backend limit, and an empty key
list issues no requests. -/
theorem deleteMultiple_chunking (keys : List Str) :
    (deleteBatches keys).flatten = keys ∧
    ((deleteBatches keys).all fun b =>
      decide (b.length ≤ 1000) && !b.isEmpty) = true ∧
    deleteBatches ([] : List Str) = [] := by
  obtain ⟨h1, h2⟩ := deleteBatches_spec_aux keys.length keys (Nat.le_refl _)
  exact ⟨h1, h2, deleteBatches_nil⟩

/-- C9 counterexample: for the path `guide/intro.md` the code keeps the
`.md` extension (only `.mdx` is stripped), so the generated key differs
from the claimed layout with the file extension dropped. -/
theorem generateKey_extension_counterexample :
    generateKey ⟨[], []⟩ (ofStr "guide/intro.md") (ofStr "v") =
      ofStr "audio/guide-intro.md/v.mp3" ∧
    specKeyAnyExt ⟨[], []⟩ (ofStr "guide/intro.md") (ofStr "v") =
      ofStr "audio/guide-intro/v.mp3" ∧
    generateKey ⟨[], []⟩ (ofStr "guide/intro.md") (ofStr "v") ≠
      specKeyAnyExt ⟨[], []⟩ (ofStr "guide/intro.md") (ofStr "v") := by
  refine ⟨by decide, by decide, by decide⟩

/-- C9 (amended): the generated storage key is
`<pathPrefix>/<slug>/<voiceId>.mp3` with default prefix `audio`, where
the slug drops the `.mdx` extension (other extensions are kept), takes
the last two path segments, joins them with `-` and lowercases; the
branch-namespaced variant inserts `<branch>/` between the prefix and the
slug. -/
theorem generateKey_layout (cfg : S3KeyConfig) (p v branch : Str) :
    generateKey cfg p v =
      (if cfg.pathPrefixCfg = [] then ofStr "audio" else cfg.pathPrefixCfg) ++
        ofStr "/" ++ specSlugMdx p ++ ofStr "/" ++ v ++ ofStr ".mp3" ∧
    generateKeyBranch cfg branch p v =
      (if cfg.pathPrefixCfg = [] then ofStr "audio" else cfg.pathPrefixCfg) ++
        ofStr "/" ++ branch ++ ofStr "/" ++ specSlugMdx p ++ ofStr "/" ++ v ++
        ofStr ".mp3" := by
  unfold generateKey generateKeyBranch
  rw [slugOf_eq_spec]
  exact ⟨rfl, rfl⟩

/-- C7: the orphan set computed by the cleanup command is exactly the
storage listing minus the keys referenced across the scanned documents,
and deleting the orphans and re-running yields the empty orphan set. -/
theorem cleanup_orphan_set (docs : List Str) (cn pub : Str)
    (allKeys exp : List Str) (h : scanExpectedKeys docs cn pub = .ok exp) :
    cleanupOrphanSet docs cn pub allKeys = .ok (orphanedKeys allKeys exp) ∧
    (orphanedKeys allKeys exp).toFinset = allKeys.toFinset \ exp.toFinset ∧
    orphanedKeys
      (allKeys.filter (fun k => (orphanedKeys allKeys exp).contains k = false))
      exp = [] := by
  refine ⟨by simp [cleanupOrphanSet, h, Except.map], ?_, ?_⟩
  · ext k
    simp only [orphanedKeys, List.mem_toFinset, List.mem_filter,
      Finset.mem_sdiff, decide_eq_true_eq]
    constructor
    · rintro ⟨ha, hb⟩
      exact ⟨ha, fun hm => hb (List.elem_eq_true_of_mem hm)⟩
    · rintro ⟨ha, hb⟩
      exact ⟨ha, fun hm => hb (List.mem_of_elem_eq_true hm)⟩
  · rw [List.eq_nil_iff_forall_not_mem]
    intro k hk
    rw [orphanedKeys, List.mem_filter] at hk
    obtain ⟨hk1, hk2⟩ := hk
    rw [List.mem_filter] at hk1
    obtain ⟨hkall, hnotorph⟩ := hk1
    have horph : k ∈ orphanedKeys allKeys exp := by
      rw [orphanedKeys, List.mem_filter]
      exact ⟨hkall, hk2⟩
    have hc : (orphanedKeys allKeys exp).contains k = true :=
      List.elem_eq_true_of_mem horph
    simp only [decide_eq_true_eq] at hnotorph
    rw [hnotorph] at hc
    cases hc

/-- C7 witness: with storage keys `{a,b,c}` and a document referencing
`{b,c}`, the cleanup command's orphan set is `{a}` and, after removing
the orphans, re-running yields the empty orphan set. -/
theorem cleanup_orphan_set_witness :
    scanExpectedKeys [exC7Doc] cnDef (ofStr "https://cdn.x") =
      .ok [ofStr "audio/d-b/v1.mp3", ofStr "audio/d-c/v1.mp3"] ∧
    (cleanupOrphanSet [exC7Doc] cnDef (ofStr "https://cdn.x")
        [ofStr "audio/d-a/v1.mp3", ofStr "audio/d-b/v1.mp3",
          ofStr "audio/d-c/v1.mp3"] =
      .ok (orphanedKeys
        [ofStr "audio/d-a/v1.mp3", ofStr "audio/d-b/v1.mp3",
          ofStr "audio/d-c/v1.mp3"]
        [ofStr "audio/d-b/v1.mp3", ofStr "audio/d-c/v1.mp3"]) ∧
      (orphanedKeys
        [ofStr "audio/d-a/v1.mp3", ofStr "audio/d-b/v1.mp3",
          ofStr "audio/d-c/v1.mp3"]
        [ofStr "audio/d-b/v1.mp3", ofStr "audio/d-c/v1.mp3"]).toFinset =
        [ofStr "audio/d-a/v1.mp3", ofStr "audio/d-b/v1.mp3",
          ofStr "audio/d-c/v1.mp3"].toFinset \
        [ofStr "audio/d-b/v1.mp3", ofStr "audio/d-c/v1.mp3"].toFinset ∧
      orphanedKeys
        ([ofStr "audio/d-a/v1.mp3", ofStr "audio/d-b/v1.mp3",
          ofStr "audio/d-c/v1.mp3"].filter (fun k =>
            (orphanedKeys
              [ofStr "audio/d-a/v1.mp3", ofStr "audio/d-b/v1.mp3",
                ofStr "audio/d-c/v1.mp3"]
              [ofStr "audio/d-b/v1.mp3", ofStr "audio/d-c/v1.mp3"]).contains k
              = false))
        [ofStr "audio/d-b/v1.mp3", ofStr "audio/d-c/v1.mp3"] = []) :=
  ⟨by decide,
    cleanup_orphan_set [exC7Doc] cnDef (ofStr "https://cdn.x")
      [ofStr "audio/d-a/v1.mp3", ofStr "audio/d-b/v1.mp3",
        ofStr "audio/d-c/v1.mp3"]
      [ofStr "audio/d-b/v1.mp3", ofStr "audio/d-c/v1.mp3"] (by decide)⟩

theorem walkStep_voices (cn : Str) (st : Option Str × List Voice)
    (n : MdxNode) :
    (walkStep cn st n).2 =
      match nodeVoicesYield cn n with
      | some vs => vs
      | none => st.2 := by
  cases n with
  | exprN v s e =>
    simp only [walkStep, nodeVoicesYield]
    cases findHashMatch v <;> rfl
  | jsxN txt s e =>
    simp only [walkStep, nodeVoicesYield]
    by_cases htag : jsxTag txt = cn
    · rw [if_pos htag, if_pos htag]
      cases hav : voicesAttrOf txt with
      | none => rfl
      | some av =>
        cases av with
        | litA sl =>
          by_cases hlit : sl = []
          · simp [hlit]
          · cases hpv : parseVoicesJson sl with
            | none => simp [hlit, hpv]
            | some vs => simp [hlit, hpv]
        | exprA ee =>
          cases hpv : parseVoicesJson ee with
          | none => simp [hpv]
          | some vs => simp [hpv]
    · simp [htag]
  | yamlN s e => rfl
  | esmN t s e => rfl
  | headingN t s e => rfl
  | paraN t s e => rfl
  | codeN t s e => rfl
  | brkN s e => rfl

theorem walk_voices_nil (cn : Str) (ns : List MdxNode) :
    ∀ st : Option Str × List Voice,
      (∀ n ∈ ns, ∀ vs, nodeVoicesYield cn n = some vs → vs = []) →
      st.2 = [] → (ns.foldl (walkStep cn) st).2 = [] := by
  induction ns with
  | nil => intro st _ h2; simpa using h2
  | cons n rest ih =>
    intro st hno h2
    simp only [List.foldl_cons]
    refine ih (walkStep cn st n) (fun m hm => hno m (by simp [hm])) ?_
    rw [walkStep_voices]
    cases hy : nodeVoicesYield cn n with
    | none => exact h2
    | some vs => exact hno n (by simp) vs hy

/-- C10: `extractExistingAudioData` returns `null` whenever no component
carrying a non-empty, JSON-parseable voices attribute is present in the
parsed document, regardless of any hash annotation. -/
theorem extractExisting_null_without_voices (content cn : Str)
    (ns : List MdxNode) (hp : parseLines (splitNl content) = .ok ns)
    (hno : ∀ n ∈ ns, ∀ vs, nodeVoicesYield cn n = some vs → vs = []) :
    extractExistingAudioData content cn = .ok none := by
  unfold extractExistingAudioData
  rw [hp]
  have h := walk_voices_nil cn ns (none, []) hno rfl
  simp [Except.map, h]

/-- C10 witness: a document containing only a hash annotation (and one
whose component carries an empty voices array) yields `null`, so the
recorded fingerprint alone is ignored. -/
theorem extractExisting_null_without_voices_witness :
    parseLines (splitNl (ofStr "\x7b/* speak-mintlify-hash: abcd */\x7d\n")) =
      .ok [.exprN (ofStr "/* speak-mintlify-hash: abcd */") 1 1] ∧
    extractExistingAudioData (ofStr "\x7b/* speak-mintlify-hash: abcd */\x7d\n")
      cnDef = .ok none ∧
    extractExistingAudioData
      (ofStr "\x7b/* speak-mintlify-hash: abcd */\x7d\n<AudioTranscript voices=\x7b[]\x7d />\n")
      cnDef = .ok none :=
  ⟨by decide,
    extractExisting_null_without_voices _ cnDef
      [.exprN (ofStr "/* speak-mintlify-hash: abcd */") 1 1] (by decide)
      (by decide),
    by decide⟩

theorem collapseNlGo_nl_lt (r : Str) (k : Nat) (hk : k < 2) :
    collapseNlGo k (nlChar :: r) = nlChar :: collapseNlGo (k + 1) r := by
  simp [collapseNlGo, hk]

theorem collapseNlGo_nl_ge (r : Str) (k : Nat) (hk : ¬ k < 2) :
    collapseNlGo k (nlChar :: r) = collapseNlGo (k + 1) r := by
  simp [collapseNlGo, hk]

theorem collapseNlGo_other (r : Str) (k : Nat) (c : Char) (hc : c ≠ nlChar) :
    collapseNlGo k (c :: r) = c :: collapseNlGo 0 r := by
  simp [collapseNlGo, hc]

theorem countLeadingNl_collapse (s : Str) :
    ∀ k, ((collapseNlGo k s).takeWhile (· = nlChar)).length ≤ 2 - k := by
  induction s with
  | nil => intro k; simp [collapseNlGo]
  | cons c r ih =>
    intro k
    by_cases hc : c = nlChar
    · subst hc
      by_cases hk : k < 2
      · rw [collapseNlGo_nl_lt r k hk]
        have := ih (k + 1)
        simp [List.takeWhile_cons]
        omega
      · rw [collapseNlGo_nl_ge r k hk]
        have := ih (k + 1)
        omega
    · rw [collapseNlGo_other r k c hc]
      simp [List.takeWhile_cons, hc]

theorem noTriple_collapse (s : Str) :
    ∀ k, ¬ [nlChar, nlChar, nlChar] <:+: collapseNlGo k s := by
  induction s with
  | nil => intro k h; simp [collapseNlGo] at h
  | cons c r ih =>
    intro k h
    by_cases hc : c = nlChar
    · subst hc
      by_cases hk : k < 2
      · rw [collapseNlGo_nl_lt r k hk] at h
        rcases List.infix_cons_iff.mp h with hpre | htail
        · obtain ⟨t, ht⟩ := hpre
          have h2 : nlChar :: nlChar :: t = collapseNlGo (k + 1) r := by
            simpa using congrArg List.tail ht
          have hcount := countLeadingNl_collapse r (k + 1)
          rw [← h2] at hcount
          simp [List.takeWhile_cons] at hcount
          omega
        · exact ih (k + 1) htail
      · rw [collapseNlGo_nl_ge r k hk] at h
        exact ih (k + 1) h
    · rw [collapseNlGo_other r k c hc] at h
      rcases List.infix_cons_iff.mp h with hpre | htail
      · obtain ⟨t, ht⟩ := hpre
        have : nlChar = c := by
          have := congrArg List.head? ht
          simpa using this
        exact hc this.symm
      · exact ih 0 htail

theorem dropWhile_head_false (p : Char → Bool) (l : Str) :
    ∀ a, (l.dropWhile p).head? = some a → p a = false := by
  induction l with
  | nil => intro a h; simp at h
  | cons c r ih =>
    intro a h
    by_cases hc : p c
    · rw [List.dropWhile_cons_of_pos hc] at h
      exact ih a h
    · rw [List.dropWhile_cons_of_neg hc] at h
      simp at h
      rw [← h]
      exact Bool.of_not_eq_true hc

theorem dropWhile_is_suffix (p : Char → Bool) (l : Str) :
    ∃ u, u ++ l.dropWhile p = l :=
  ⟨l.takeWhile p, List.takeWhile_append_dropWhile p l⟩

theorem dropWhile_fix (p : Char → Bool) (l : Str)
    (h : ∀ a, l.head? = some a → p a = false) : l.dropWhile p = l := by
  cases l with
  | nil => rfl
  | cons c r =>
    rw [List.dropWhile_cons_of_neg]
    rw [h c (by simp)]
    simp

theorem jsTrim_infix_self (s : Str) : jsTrim s <:+: s := by
  unfold jsTrim
  obtain ⟨u, hu⟩ := dropWhile_is_suffix isWsChar s
  obtain ⟨w, hw⟩ := dropWhile_is_suffix isWsChar (s.dropWhile isWsChar).reverse
  refine ⟨u, w.reverse, ?_⟩
  have := congrArg List.reverse hw
  simp at this
  rw [List.append_assoc, this, hu]

theorem jsTrim_front_head (s : Str) :
    ∀ a, (jsTrim s).head? = some a → isWsChar a = false := by
  intro a ha
  obtain ⟨w, hw⟩ := dropWhile_is_suffix isWsChar (s.dropWhile isWsChar).reverse
  have hpre : ∃ t, jsTrim s ++ t = s.dropWhile isWsChar := by
    refine ⟨w.reverse, ?_⟩
    have := congrArg List.reverse hw
    simpa [jsTrim] using this
  obtain ⟨t, ht⟩ := hpre
  have hne : jsTrim s ≠ [] := by
    intro h0
    rw [h0] at ha
    simp at ha
  have hhead : (s.dropWhile isWsChar).head? = some a := by
    rw [← ht]
    cases hjs : jsTrim s with
    | nil => exact absurd hjs hne
    | cons x xs =>
      rw [hjs] at ha
      simp at ha
      simp [ha]
  exact dropWhile_head_false isWsChar s a hhead

theorem jsTrim_back_head (s : Str) :
    ∀ a, (jsTrim s).reverse.head? = some a → isWsChar a = false := by
  intro a ha
  have hrev : (jsTrim s).reverse =
      (s.dropWhile isWsChar).reverse.dropWhile isWsChar := by
    simp [jsTrim]
  rw [hrev] at ha
  exact dropWhile_head_false isWsChar (s.dropWhile isWsChar).reverse a ha

theorem jsTrim_trimmed (s : Str) : jsTrim (jsTrim s) = jsTrim s := by
  have h1 : (jsTrim s).dropWhile isWsChar = jsTrim s :=
    dropWhile_fix isWsChar (jsTrim s) (jsTrim_front_head s)
  have h2 : (jsTrim s).reverse.dropWhile isWsChar = (jsTrim s).reverse :=
    dropWhile_fix isWsChar (jsTrim s).reverse (jsTrim_back_head s)
  show ((((jsTrim s).dropWhile isWsChar).reverse.dropWhile isWsChar).reverse) =
    jsTrim s
  rw [h1, h2]
  simp

/-- C5 counterexample: the claimed rewrite set does not include the
code's `/:\s*\./g -> .` rule, so on input `a:.` the code yields `a.`
while the claimed pipeline leaves `a:.` unchanged. -/
theorem postProcess_spec_counterexample :
    postProcess (ofStr "a:.") = ofStr "a." ∧
    postProcessSpec (ofStr "a:.") = ofStr "a:." ∧
    postProcess (ofStr "a:.") ≠ postProcessSpec (ofStr "a:.") := by
  refine ⟨by decide, by decide, by decide⟩

/-- C5 (amended): the post-processing stage applies, in order, the
unescape rewrite, the orphaned-comma rewrites, the colon-comma rewrite,
the colon-period rewrite, the newline-run collapse and a final trim; as
a consequence, for every input the returned text contains no run of
three or more consecutive newlines and no leading or trailing
whitespace. -/
theorem postProcess_normalized (s : Str) :
    postProcess s =
      jsTrim (collapseNlGo 0 (cleanColonDot none (cleanColon .n0
        (cleanRepeats .n0 (cleanOrphan none (unescapeMd s)))))) ∧
    NoTripleNl (postProcess s) ∧ IsTrimmed (postProcess s) := by
  refine ⟨rfl, ?_, ?_⟩
  · unfold NoTripleNl postProcess
    intro h
    exact noTriple_collapse _ 0 (h.trans (jsTrim_infix_self _))
  · unfold IsTrimmed postProcess
    exact jsTrim_trimmed _

/-- C4 counterexample: extraction of the empty document succeeds with the
empty string (refuting "returns a ... non-empty string"), and extraction
of an unterminated component tag or expression fails with a parse error
(remark-mdx rejects malformed MDX), refuting "never throws on any input
string". -/
theorem extractCleanText_counterexample :
    extractCleanText [] = .ok [] ∧
    extractCleanText (ofStr "<Foo") = .error .unclosedJsx ∧
    extractCleanText (ofStr "\x7b") = .error .unclosedExpr := by
  refine ⟨by decide, by decide, by decide⟩

/-- C4 (amended): on every input whose MDX parse succeeds, extraction
returns without error, and the result — possibly empty — is normalized:
trimmed, with no run of three or more consecutive newlines. -/
theorem extractCleanText_total_on_parse (s : Str) (ns : List MdxNode)
    (hp : parseLines (splitNl (matterContent s)) = .ok ns) :
    ∃ t, extractCleanText s = .ok t ∧ IsTrimmed t ∧ NoTripleNl t := by
  refine ⟨postProcess (stringifyNodes (ns.filter keepAfterRemoval)), ?_, ?_, ?_⟩
  · unfold extractCleanText
    rw [hp]
    rfl
  · exact jsTrim_trimmed _
  · intro h
    exact noTriple_collapse _ 0 (h.trans (jsTrim_infix_self _))

/-- C4 witness: a concrete parseable document on which the amended claim
is instantiated. -/
theorem extractCleanText_total_on_parse_witness :
    parseLines (splitNl (matterContent (ofStr "## Hi\n"))) =
      .ok [.headingN (ofStr "Hi") 1 1] ∧
    ∃ t, extractCleanText (ofStr "## Hi\n") = .ok t ∧ IsTrimmed t ∧
      NoTripleNl t :=
  ⟨by decide,
    extractCleanText_total_on_parse (ofStr "## Hi\n")
      [.headingN (ofStr "Hi") 1 1] (by decide)⟩

theorem skipUnchangedCheck_iff (ed : ExtractedData) (d : Str)
    (ids : List Str) :
    skipUnchangedCheck ed d ids = true ↔
      ed.hashv = some d ∧ ed.voiceIds.length = ids.length ∧
        ∀ i ∈ ids, i ∈ ed.voiceIds := by
  unfold skipUnchangedCheck
  simp only [Bool.and_eq_true, beq_iff_eq, List.all_eq_true]
  constructor
  · rintro ⟨⟨ha, hb⟩, hc⟩
    exact ⟨ha, hb, fun i hi => List.mem_of_elem_eq_true (hc i hi)⟩
  · rintro ⟨ha, hb, hc⟩
    exact ⟨⟨ha, hb⟩, fun i hi => List.elem_eq_true_of_mem (hc i hi)⟩

/-- C1 counterexample: for `exC1Doc` the narration block is located, the
fingerprint of the freshly extracted (empty) text equals the recorded
fingerprint and the voice sets agree, yet the pipeline's outcome is
"no extractable text", not "content unchanged" — the claimed equivalence
omits the non-empty-text gate that runs first. -/
theorem generate_skip_counterexample :
    generateHash [] =
      ofStr "e3b0c44298fc1c149afbf4c8996fb92427ae41e4649b934ca495991b7852b855" ∧
    extractCleanText exC1Doc = .ok [] ∧
    extractExistingAudioData exC1Doc cnDef = .ok (some
      ⟨some (ofStr "e3b0c44298fc1c149afbf4c8996fb92427ae41e4649b934ca495991b7852b855"),
        [ofStr "v1"], exC1Voices⟩) ∧
    skipUnchangedCheck
      ⟨some (ofStr "e3b0c44298fc1c149afbf4c8996fb92427ae41e4649b934ca495991b7852b855"),
        [ofStr "v1"], exC1Voices⟩
      (generateHash []) [ofStr "v1"] = true ∧
    generateStep exC1Doc [ofStr "v1"] [ofStr "Alice"] (fun _ => ofStr "u")
      cimpDef cnDef = .ok (.noText, none) := by
  refine ⟨by decide, by decide, by decide, by decide, by decide⟩

/-- C1 (amended): for a document whose narration block is located, the
generate pipeline reports "content unchanged" if and only if the
extracted text is non-empty AND the fresh fingerprint equals the recorded
one AND the requested voice-id list matches the recorded one in
cardinality and membership; when any of these fails, the document is not
skipped as unchanged. -/
theorem generate_skip_iff (content : Str) (cfgIds cfgNames : List Str)
    (urlOf : Str → Str) (ci cn : Str) (ct : Str) (ed : ExtractedData)
    (h1 : extractCleanText content = .ok ct)
    (h2 : extractExistingAudioData content cn = .ok (some ed)) :
    generateStep content cfgIds cfgNames urlOf ci cn =
      .ok (.unchanged, none) ↔
    (jsTrim ct ≠ [] ∧ ed.hashv = some (generateHash ct) ∧
      ed.voiceIds.length = cfgIds.length ∧ ∀ i ∈ cfgIds, i ∈ ed.voiceIds) := by
  unfold generateStep
  rw [h1, h2]
  dsimp only
  by_cases hct : jsTrim ct = []
  · rw [if_pos hct]
    simp [hct]
  · rw [if_neg hct]
    by_cases hskip : skipUnchangedCheck ed (generateHash ct) cfgIds = true
    · rw [if_pos hskip]
      rw [skipUnchangedCheck_iff] at hskip
      simp only [true_iff, eq_self_iff_true, iff_true]
      exact ⟨hct, hskip.1, hskip.2.1, hskip.2.2⟩
    · rw [if_neg hskip]
      rw [skipUnchangedCheck_iff] at hskip
      constructor
      · intro h
        exfalso
        cases hinj : injectAudioComponent content
            (mkVoices cfgIds cfgNames urlOf) (generateHash ct) ci cn with
        | ok out => rw [hinj] at h; simp at h
        | error e => rw [hinj] at h; simp at h
      · intro h
        exact absurd ⟨h.2.1, h.2.2.1, h.2.2.2⟩ hskip

/-- C1 witness: on `exC1WDoc` the hypotheses of the amended claim hold
concretely and the equivalence is instantiated; the right-hand side holds
(non-empty text, matching fingerprint, matching voice set), so the
document is classified "content unchanged". -/
theorem generate_skip_iff_witness :
    extractCleanText exC1WDoc = .ok (ofStr "Hello") ∧
    extractExistingAudioData exC1WDoc cnDef = .ok (some
      ⟨some (ofStr "185f8db32271fe25f561a6fc938b2e264306ec304eda518007d1764826381969"),
        [ofStr "v1"], exC1Voices⟩) ∧
    (generateStep exC1WDoc [ofStr "v1"] [ofStr "Alice"] (fun _ => ofStr "u")
        cimpDef cnDef = .ok (.unchanged, none) ↔
      (jsTrim (ofStr "Hello") ≠ [] ∧
        (some (ofStr "185f8db32271fe25f561a6fc938b2e264306ec304eda518007d1764826381969") :
            Option Str) = some (generateHash (ofStr "Hello")) ∧
        ([ofStr "v1"] : List Str).length = ([ofStr "v1"] : List Str).length ∧
        ∀ i ∈ ([ofStr "v1"] : List Str), i ∈ ([ofStr "v1"] : List Str))) :=
  ⟨by decide, by decide,
    generate_skip_iff exC1WDoc [ofStr "v1"] [ofStr "Alice"]
      (fun _ => ofStr "u") cimpDef cnDef (ofStr "Hello")
      ⟨some (ofStr "185f8db32271fe25f561a6fc938b2e264306ec304eda518007d1764826381969"),
        [ofStr "v1"], exC1Voices⟩
      (by decide) (by decide)⟩

theorem stOk_mk (m : PMode) (acc : List MdxNode) (ln : Nat)
    (h1 : 1 ≤ ln)
    (h2 : match m with
          | .top => True
          | .inPara _ s => 1 ≤ s ∧ s < ln
          | .inFence _ s => 1 ≤ s ∧ s < ln
          | .inExpr _ _ s => 1 ≤ s ∧ s < ln
          | .inJsx _ s => 1 ≤ s ∧ s < ln)
    (h3 : ∀ n ∈ acc, 1 ≤ nodeStartL n ∧ 1 ≤ nodeEndL n) :
    stOk ⟨m, acc, ln⟩ :=
  ⟨h1, h2, h3⟩

theorem mem_append_ok (acc : List MdxNode) (nd : MdxNode)
    (hacc : ∀ m ∈ acc, 1 ≤ nodeStartL m ∧ 1 ≤ nodeEndL m)
    (hnd : 1 ≤ nodeStartL nd ∧ 1 ≤ nodeEndL nd) :
    ∀ m ∈ acc ++ [nd], 1 ≤ nodeStartL m ∧ 1 ≤ nodeEndL m := by
  intro m hm
  rcases List.mem_append.mp hm with hm | hm
  · exact hacc m hm
  · rw [List.mem_singleton] at hm
    subst hm
    exact hnd

theorem stepTop_ok (acc : List MdxNode) (n : Nat) (l : Str)
    (hn : 1 ≤ n) (hacc : ∀ m ∈ acc, 1 ≤ nodeStartL m ∧ 1 ≤ nodeEndL m) :
    stOk (stepTop acc n l) := by
  unfold stepTop
  by_cases hb1 : isBlankLine l = true
  · rw [if_pos hb1]
    exact stOk_mk _ _ _ (by omega) trivial hacc
  rw [if_neg hb1]
  by_cases hb2 : isFenceLine l = true
  · rw [if_pos hb2]
    exact stOk_mk _ _ _ (by omega) ⟨hn, by omega⟩ hacc
  rw [if_neg hb2]
  by_cases hb3 : isEsmLine l = true
  · rw [if_pos hb3]
    exact stOk_mk _ _ _ (by omega) trivial (mem_append_ok acc _ hacc ⟨hn, hn⟩)
  rw [if_neg hb3]
  by_cases hb4 : isExprLine l = true
  · rw [if_pos hb4]
    dsimp only
    by_cases hcl : countChar rbChar l ≥ countChar lbChar l
    · rw [if_pos hcl]
      exact stOk_mk _ _ _ (by omega) trivial (mem_append_ok acc _ hacc ⟨hn, hn⟩)
    · rw [if_neg hcl]
      exact stOk_mk _ _ _ (by omega) ⟨hn, by omega⟩ hacc
  rw [if_neg hb4]
  by_cases hb5 : isJsxLine l = true
  · rw [if_pos hb5]
    by_cases hcl : jsxCloses l = true
    · rw [if_pos hcl]
      exact stOk_mk _ _ _ (by omega) trivial (mem_append_ok acc _ hacc ⟨hn, hn⟩)
    · rw [if_neg hcl]
      exact stOk_mk _ _ _ (by omega) ⟨hn, by omega⟩ hacc
  rw [if_neg hb5]
  by_cases hb6 : isHeadingLine l = true
  · rw [if_pos hb6]
    exact stOk_mk _ _ _ (by omega) trivial (mem_append_ok acc _ hacc ⟨hn, hn⟩)
  rw [if_neg hb6]
  by_cases hb7 : isBrkLine l = true
  · rw [if_pos hb7]
    exact stOk_mk _ _ _ (by omega) trivial (mem_append_ok acc _ hacc ⟨hn, hn⟩)
  rw [if_neg hb7]
  exact stOk_mk _ _ _ (by omega) ⟨hn, by omega⟩ hacc

theorem pStep_ok (st : PState) (l : Str) (h : stOk st) : stOk (pStep st l) := by
  obtain ⟨h1, h2, h3⟩ := h
  cases hm : st.mode with
  | top =>
    unfold pStep
    rw [hm]
    dsimp only
    exact stepTop_ok st.acc st.lineNo l h1 h3
  | inPara buf s =>
    rw [hm] at h2
    dsimp only at h2
    unfold pStep
    rw [hm]
    dsimp only
    by_cases hb : paraBreaks l = true
    · rw [if_pos hb]
      refine stepTop_ok _ st.lineNo l h1 ?_
      intro m hmem
      simp only [List.mem_append, List.mem_singleton] at hmem
      rcases hmem with hmem | hmem
      · exact h3 m hmem
      · subst hmem
        exact ⟨h2.1, by simp only [nodeEndL]; omega⟩
    · rw [if_neg hb]
      exact stOk_mk _ _ _ (by omega) ⟨h2.1, by omega⟩ h3
  | inFence buf s =>
    rw [hm] at h2
    dsimp only at h2
    unfold pStep
    rw [hm]
    dsimp only
    by_cases hb : isFenceLine l = true
    · rw [if_pos hb]
      refine stOk_mk _ _ _ (by omega) trivial ?_
      intro m hmem
      simp only [List.mem_append, List.mem_singleton] at hmem
      rcases hmem with hmem | hmem
      · exact h3 m hmem
      · subst hmem; exact ⟨h2.1, by simp only [nodeEndL]; omega⟩
    · rw [if_neg hb]
      exact stOk_mk _ _ _ (by omega) ⟨h2.1, by omega⟩ h3
  | inExpr buf d s =>
    rw [hm] at h2
    dsimp only at h2
    unfold pStep
    rw [hm]
    dsimp only
    by_cases hb : countChar rbChar l ≥ d + countChar lbChar l
    · rw [if_pos hb]
      refine stOk_mk _ _ _ (by omega) trivial ?_
      intro m hmem
      simp only [List.mem_append, List.mem_singleton] at hmem
      rcases hmem with hmem | hmem
      · exact h3 m hmem
      · subst hmem; exact ⟨h2.1, by simp only [nodeEndL]; omega⟩
    · rw [if_neg hb]
      exact stOk_mk _ _ _ (by omega) ⟨h2.1, by omega⟩ h3
  | inJsx buf s =>
    rw [hm] at h2
    dsimp only at h2
    unfold pStep
    rw [hm]
    dsimp only
    by_cases hb : jsxCloses l = true
    · rw [if_pos hb]
      refine stOk_mk _ _ _ (by omega) trivial ?_
      intro m hmem
      simp only [List.mem_append, List.mem_singleton] at hmem
      rcases hmem with hmem | hmem
      · exact h3 m hmem
      · subst hmem; exact ⟨h2.1, by simp only [nodeEndL]; omega⟩
    · rw [if_neg hb]
      exact stOk_mk _ _ _ (by omega) ⟨h2.1, by omega⟩ h3

theorem foldl_pStep_ok (ls : List Str) :
    ∀ st, stOk st → stOk (ls.foldl pStep st) := by
  induction ls with
  | nil => intro st h; exact h
  | cons l rest ih => intro st h; exact ih (pStep st l) (pStep_ok st l h)

theorem parseFrom_pos (ls : List Str) (k : Nat) (hk : 1 ≤ k)
    (ns : List MdxNode) (h : parseFrom ls k = .ok ns) :
    ∀ n ∈ ns, 1 ≤ nodeStartL n ∧ 1 ≤ nodeEndL n := by
  have hst : stOk (ls.foldl pStep ⟨.top, [], k⟩) :=
    foldl_pStep_ok ls _ ⟨hk, trivial, by simp⟩
  unfold parseFrom at h
  obtain ⟨hl1, hl2, hl3⟩ := hst
  unfold pFinalize at h
  cases hmode : (ls.foldl pStep ⟨.top, [], k⟩).mode with
  | top =>
    rw [hmode] at h
    simp at h
    subst h
    exact hl3
  | inPara buf s =>
    rw [hmode] at h
    simp at h
    subst h
    rw [hmode] at hl2
    intro n hn
    simp only [List.mem_append, List.mem_singleton] at hn
    rcases hn with hn | hn
    · exact hl3 n hn
    · subst hn; exact ⟨hl2.1, by simp only [nodeEndL]; omega⟩
  | inFence buf s =>
    rw [hmode] at h
    simp at h
    subst h
    rw [hmode] at hl2
    intro n hn
    simp only [List.mem_append, List.mem_singleton] at hn
    rcases hn with hn | hn
    · exact hl3 n hn
    · subst hn; exact ⟨hl2.1, by simp only [nodeEndL]; omega⟩
  | inExpr buf d s => rw [hmode] at h; simp at h
  | inJsx buf s => rw [hmode] at h; simp at h

theorem parseLines_pos (ls : List Str) (ns : List MdxNode)
    (h : parseLines ls = .ok ns) :
    ∀ n ∈ ns, 1 ≤ nodeStartL n ∧ 1 ≤ nodeEndL n := by
  unfold parseLines at h
  cases ls with
  | nil => exact parseFrom_pos [] 1 (by omega) ns h
  | cons l0 rest =>
    dsimp only at h
    by_cases h0 : l0 = ofStr "---"
    · rw [if_pos h0] at h
      cases hidx : rest.findIdx? (fun l => l = ofStr "---") with
      | none => rw [hidx] at h; exact parseFrom_pos _ 1 (by omega) ns h
      | some k =>
        rw [hidx] at h
        dsimp only at h
        cases hpf : parseFrom (rest.drop (k + 1)) (k + 3) with
        | error e => rw [hpf] at h; simp [Except.map] at h
        | ok ms =>
          rw [hpf] at h
          simp [Except.map] at h
          subst h
          intro n hn
          simp only [List.mem_cons] at hn
          rcases hn with hn | hn
          · subst hn; exact ⟨by simp [nodeStartL], by simp [nodeEndL]⟩
          · exact parseFrom_pos _ (k + 3) (by omega) ms hpf n hn
    · rw [if_neg h0] at h
      exact parseFrom_pos _ 1 (by omega) ns h

theorem lastImportEndOf_aux (ns : List MdxNode) :
    ∀ a : Nat, ns.foldl liStep a = (esmEnds ns).foldl max a := by
  induction ns with
  | nil => intro a; rfl
  | cons n rest ih =>
    intro a
    cases n <;>
      simp only [esmEnds, List.filterMap_cons, List.foldl_cons, liStep] <;>
      exact ih _

theorem lastImportEndOf_eq (ns : List MdxNode) :
    lastImportEndOf ns = (esmEnds ns).foldl max 0 :=
  lastImportEndOf_aux ns 0

theorem getLastD_cons (e : Nat) (l : List Nat) (a : Nat) :
    ((e :: l).getLast?).getD a = (l.getLast?).getD e := by
  cases l with
  | nil => rfl
  | cons x xs =>
    rw [List.getLast?_cons_cons]
    cases hgl : (x :: xs).getLast? with
    | none => exact absurd hgl (by simp)
    | some y => rfl

theorem fmEndOf_aux (ns : List MdxNode) :
    ∀ a : Nat, ns.foldl fmStep a = ((yamlEnds ns).getLast?).getD a := by
  induction ns with
  | nil => intro a; rfl
  | cons n rest ih =>
    intro a
    cases n <;>
      simp only [yamlEnds, List.filterMap_cons, List.foldl_cons, fmStep]
    case yamlN s e =>
      rw [ih e]
      exact (getLastD_cons e (yamlEnds rest) a).symm
    all_goals exact ih a

theorem fmEndOf_eq (ns : List MdxNode) :
    fmEndOf ns = ((yamlEnds ns).getLast?).getD 0 :=
  fmEndOf_aux ns 0

theorem firstContentOf_stay (ns : List MdxNode) :
    ∀ a : Nat, a ≠ 0 → ns.foldl fcStep a = a := by
  induction ns with
  | nil => intro a _; rfl
  | cons n rest ih =>
    intro a ha
    simp only [List.foldl_cons, fcStep, if_neg ha]
    exact ih a ha

theorem firstContentOf_eq (ns : List MdxNode)
    (hpos : ∀ n ∈ ns, 1 ≤ nodeStartL n ∧ 1 ≤ nodeEndL n) :
    firstContentOf ns = ((contentStarts ns).head?).getD 0 := by
  induction ns with
  | nil => rfl
  | cons n rest ih =>
    have hpos' : ∀ m ∈ rest, 1 ≤ nodeStartL m ∧ 1 ≤ nodeEndL m :=
      fun m hm => hpos m (List.mem_cons_of_mem n hm)
    cases n with
    | headingN t sL eL =>
      have hs : sL ≠ 0 := by
        have := (hpos _ (List.mem_cons_self _ _)).1
        simp [nodeStartL] at this
        omega
      simp only [firstContentOf, List.foldl_cons]
      rw [show fcStep 0 (MdxNode.headingN t sL eL) = sL from rfl]
      rw [firstContentOf_stay rest sL hs]
      rfl
    | paraN t sL eL =>
      have hs : sL ≠ 0 := by
        have := (hpos _ (List.mem_cons_self _ _)).1
        simp [nodeStartL] at this
        omega
      simp only [firstContentOf, List.foldl_cons]
      rw [show fcStep 0 (MdxNode.paraN t sL eL) = sL from rfl]
      rw [firstContentOf_stay rest sL hs]
      rfl
    | jsxN t sL eL =>
      have hs : sL ≠ 0 := by
        have := (hpos _ (List.mem_cons_self _ _)).1
        simp [nodeStartL] at this
        omega
      simp only [firstContentOf, List.foldl_cons]
      rw [show fcStep 0 (MdxNode.jsxN t sL eL) = sL from rfl]
      rw [firstContentOf_stay rest sL hs]
      rfl
    | yamlN s e =>
      simp only [firstContentOf, List.foldl_cons]
      rw [show fcStep 0 (MdxNode.yamlN s e) = 0 from rfl]
      exact ih hpos'
    | esmN t s e =>
      simp only [firstContentOf, List.foldl_cons]
      rw [show fcStep 0 (MdxNode.esmN t s e) = 0 from rfl]
      exact ih hpos'
    | exprN v s e =>
      simp only [firstContentOf, List.foldl_cons]
      rw [show fcStep 0 (MdxNode.exprN v s e) = 0 from rfl]
      exact ih hpos'
    | codeN t s e =>
      simp only [firstContentOf, List.foldl_cons]
      rw [show fcStep 0 (MdxNode.codeN t s e) = 0 from rfl]
      exact ih hpos'
    | brkN s e =>
      simp only [firstContentOf, List.foldl_cons]
      rw [show fcStep 0 (MdxNode.brkN s e) = 0 from rfl]
      exact ih hpos'

theorem foldl_max_pos (l : List Nat) (hl : ∀ x ∈ l, 1 ≤ x) :
    (l.foldl max 0 > 0) ↔ l ≠ [] := by
  cases l with
  | nil => simp
  | cons x xs =>
    simp only [List.foldl_cons, ne_eq, reduceCtorEq,
      not_false_iff, iff_true]
    have hx : 1 ≤ x := hl x (List.mem_cons_self _ _)
    have : ∀ (a : Nat) (ys : List Nat), a ≤ ys.foldl max a := by
      intro a ys
      induction ys generalizing a with
      | nil => exact Nat.le_refl a
      | cons y ys ihy => exact Nat.le_trans (Nat.le_max_left a y) (ihy _)
    have h2 := this (max 0 x) xs
    omega

theorem mem_esmEnds_le (ns : List MdxNode)
    (hpos : ∀ n ∈ ns, 1 ≤ nodeStartL n ∧ 1 ≤ nodeEndL n) :
    ∀ x ∈ esmEnds ns, 1 ≤ x := by
  intro x hx
  simp only [esmEnds, List.mem_filterMap] at hx
  obtain ⟨n, hn, hm⟩ := hx
  cases n <;> simp at hm
  case esmN t s e =>
    have := (hpos _ hn).2
    simp only [nodeEndL] at this
    omega

theorem mem_contentStarts_le (ns : List MdxNode)
    (hpos : ∀ n ∈ ns, 1 ≤ nodeStartL n ∧ 1 ≤ nodeEndL n) :
    ∀ x ∈ contentStarts ns, 1 ≤ x := by
  intro x hx
  simp only [contentStarts, List.mem_filterMap] at hx
  obtain ⟨n, hn, hm⟩ := hx
  cases n <;> simp at hm
  case headingN t s e =>
    have := (hpos _ hn).1
    simp only [nodeStartL] at this
    omega
  case paraN t s e =>
    have := (hpos _ hn).1
    simp only [nodeStartL] at this
    omega
  case jsxN t s e =>
    have := (hpos _ hn).1
    simp only [nodeStartL] at this
    omega

theorem insertionPointsOf_spec (ns : List MdxNode)
    (hpos : ∀ n ∈ ns, 1 ≤ nodeStartL n ∧ 1 ≤ nodeEndL n) :
    insertionPointsOf ns = (specImportPos ns, specComponentPos ns) := by
  have hli := lastImportEndOf_eq ns
  have hfm := fmEndOf_eq ns
  have hfc := firstContentOf_eq ns hpos
  have himp :
      (if lastImportEndOf ns > 0 then lastImportEndOf ns else fmEndOf ns) =
        specImportPos ns := by
    cases hes : esmEnds ns with
    | nil =>
      have h0 : lastImportEndOf ns = 0 := by rw [hli, hes]; rfl
      rw [if_neg (by omega), hfm]
      unfold specImportPos
      rw [hes]
    | cons e es =>
      have h1 : lastImportEndOf ns > 0 := by
        rw [hli]
        rw [foldl_max_pos (esmEnds ns) (mem_esmEnds_le ns hpos), hes]
        simp
      rw [if_pos h1, hli]
      unfold specImportPos
      rw [hes]
  simp only [insertionPointsOf]
  rw [himp]
  cases hcs : contentStarts ns with
  | nil =>
    have h0 : firstContentOf ns = 0 := by rw [hfc, hcs]; rfl
    rw [h0]
    unfold specComponentPos
    rw [hcs]
    norm_num
  | cons c cs =>
    have h1 : firstContentOf ns = c := by rw [hfc, hcs]; rfl
    have hc1 : 1 ≤ c :=
      mem_contentStarts_le ns hpos c (by rw [hcs]; exact List.mem_cons_self _ _)
    rw [h1]
    unfold specComponentPos
    rw [hcs]
    rw [if_pos (by omega)]

theorem count_splice0 (a : Str) (l : List Str) (i : Nat) (xs : List Str) :
    List.count a (listSplice l i 0 xs) = List.count a l + List.count a xs := by
  simp only [listSplice, Nat.add_zero, List.count_append]
  conv_rhs => rw [← List.take_append_drop i l]
  simp only [List.count_append]
  omega

theorem count_ite_splice_blank (b : Bool) (l : List Str) (i : Nat) (imp : Str)
    (h1 : imp ≠ []) :
    List.count imp (if b then listSplice l i 0 [[]] else l) =
      List.count imp l := by
  cases b
  · simp
  · simp [count_splice0, List.count_cons, h1]

theorem importStatementOf_cons (cn cimp : Str) :
    importStatementOf cn cimp =
      'i' :: (ofStr "mport \x7b " ++ cn ++ ofStr " \x7d from '" ++ cimp ++
        ofStr "';") := rfl

theorem hashCommentLine_cons (hash : Str) :
    hashCommentLine hash =
      lbChar :: (ofStr "/* speak-mintlify-hash: " ++
        (hash ++ ofStr " */\x7d")) := rfl

theorem componentCodeOf_cons (cn : Str) (voices : List Voice) :
    componentCodeOf cn voices =
      '<' :: (cn ++ ofStr " voices=" ++ [lbChar] ++
        reindent2 (jsonStringifyVoices voices) ++ [rbChar] ++ ofStr " />") :=
  rfl

theorem importStatementOf_ne_nil (cn cimp : Str) :
    importStatementOf cn cimp ≠ [] := by
  rw [importStatementOf_cons]; simp

theorem importStatementOf_ne_hash (cn cimp hash : Str) :
    importStatementOf cn cimp ≠ hashCommentLine hash := by
  rw [importStatementOf_cons, hashCommentLine_cons]
  intro h
  injection h with h1 _
  exact absurd h1 (by decide)

theorem importStatementOf_ne_comp (cn cimp cn' : Str) (voices : List Voice) :
    importStatementOf cn cimp ≠ componentCodeOf cn' voices := by
  rw [importStatementOf_cons, componentCodeOf_cons]
  intro h
  injection h with h1 _
  exact absurd h1 (by decide)

theorem injectFreshLines_import_count (lines : List Str) (hasImport : Bool)
    (imp hc cc : Str) (ip : Nat × Nat)
    (h1 : imp ≠ []) (h2 : imp ≠ hc) (h3 : imp ≠ cc) :
    List.count imp (injectFreshLines lines hasImport imp hc cc ip) =
      List.count imp lines + (if hasImport then 0 else 1) := by
  have ehc : List.count imp [hc] = 0 := by
    simp [List.count_cons, Ne.symm h2]
  have ecc : List.count imp [cc] = 0 := by
    simp [List.count_cons, Ne.symm h3]
  cases hasImport with
  | false =>
    simp only [injectFreshLines, Bool.false_eq_true, if_false]
    rw [count_ite_splice_blank _ _ _ _ h1, count_splice0, count_splice0,
      count_ite_splice_blank _ _ _ _ h1, count_splice0]
    simp [ehc, ecc]
  | true =>
    simp only [injectFreshLines, if_true]
    rw [count_ite_splice_blank _ _ _ _ h1, count_splice0, count_splice0,
      count_ite_splice_blank _ _ _ _ h1]
    simp [ehc, ecc]

/-- C6: when no narration component is present, injection inserts at the
positions the claim describes — the import line is the last import/export
end line if any import exists, else the front-matter end line, else 0;
the component line is the line before the first content node, defaulting
to the import line — and the import statement is added exactly once when
no import of the component name occurs in the document and never when one
does. -/
theorem inject_fresh_layout (s : Str) (ns : List MdxNode)
    (voices : List Voice) (hash cimp cn : Str)
    (hp : parseLines (splitNl s) = .ok ns)
    (hno : hasAudioComponent s cn = false) :
    findInsertionPoints s = .ok (specImportPos ns, specComponentPos ns) ∧
    injectAudioComponent s voices hash cimp cn =
      .ok (joinNl (injectFreshLines (splitNl s)
        ((splitNl s).any (fun l =>
          containsStr l (ofStr "import \x7b " ++ cn ++ ofStr " \x7d")))
        (importStatementOf cn cimp) (hashCommentLine hash)
        (componentCodeOf cn voices)
        (specImportPos ns, specComponentPos ns))) ∧
    List.count (importStatementOf cn cimp)
        (injectFreshLines (splitNl s)
          ((splitNl s).any (fun l =>
            containsStr l (ofStr "import \x7b " ++ cn ++ ofStr " \x7d")))
          (importStatementOf cn cimp) (hashCommentLine hash)
          (componentCodeOf cn voices)
          (specImportPos ns, specComponentPos ns)) =
      List.count (importStatementOf cn cimp) (splitNl s) +
        (if (splitNl s).any (fun l =>
            containsStr l (ofStr "import \x7b " ++ cn ++ ofStr " \x7d"))
         then 0 else 1) := by
  have hfip : findInsertionPoints s =
      .ok (specImportPos ns, specComponentPos ns) := by
    unfold findInsertionPoints
    rw [hp]
    simp only [Except.map]
    rw [insertionPointsOf_spec ns (parseLines_pos _ _ hp)]
  refine ⟨hfip, ?_, ?_⟩
  · unfold injectAudioComponent
    rw [hno]
    simp only [Bool.false_eq_true, if_false]
    rw [hfip]
    simp only [Except.map]
  · exact injectFreshLines_import_count _ _ _ _ _ _
      (importStatementOf_ne_nil cn cimp)
      (importStatementOf_ne_hash cn cimp hash)
      (importStatementOf_ne_comp cn cimp cn voices)

theorem inject_fresh_layout_witness :
    (parseLines (splitNl exC6Doc) = .ok exC6Ns ∧
     hasAudioComponent exC6Doc cnDef = false) ∧
    (findInsertionPoints exC6Doc = .ok (4, 5) ∧
     injectAudioComponent exC6Doc exC6Voices (ofStr "ab") cimpDef cnDef =
       .ok (joinNl (injectFreshLines (splitNl exC6Doc) false
         (importStatementOf cnDef cimpDef) (hashCommentLine (ofStr "ab"))
         (componentCodeOf cnDef exC6Voices) (4, 5))) ∧
     List.count (importStatementOf cnDef cimpDef)
         (injectFreshLines (splitNl exC6Doc) false
           (importStatementOf cnDef cimpDef) (hashCommentLine (ofStr "ab"))
           (componentCodeOf cnDef exC6Voices) (4, 5)) =
       List.count (importStatementOf cnDef cimpDef) (splitNl exC6Doc) + 1) := by
  have hp : parseLines (splitNl exC6Doc) = .ok exC6Ns := by decide
  have hno : hasAudioComponent exC6Doc cnDef = false := by decide
  have h := inject_fresh_layout exC6Doc exC6Ns exC6Voices (ofStr "ab")
    cimpDef cnDef hp hno
  have hip : specImportPos exC6Ns = 4 := by decide
  have hcp : specComponentPos exC6Ns = 5 := by decide
  have hai : ((splitNl exC6Doc).any (fun l =>
      containsStr l (ofStr "import \x7b " ++ cnDef ++ ofStr " \x7d"))) =
        false := by decide
  rw [hip, hcp, hai] at h
  simp only [Bool.false_eq_true, if_false] at h
  exact ⟨⟨hp, hno⟩, h⟩

theorem splitNl_cons (c : Char) (r : Str) :
    splitNl (c :: r) =
      match splitNl r with
      | [] => [[c]]
      | h :: t => if c = nlChar then [] :: h :: t else (c :: h) :: t := rfl

theorem splitNl_ne_nil (s : Str) : splitNl s ≠ [] := by
  cases s with
  | nil => simp [splitNl]
  | cons c r =>
    rw [splitNl_cons]
    cases splitNl r with
    | nil => simp
    | cons h t =>
      by_cases hc : c = nlChar <;> simp [hc]

theorem splitNl_append_nl (x y : Str) :
    splitNl (x ++ nlChar :: y) = splitNl x ++ splitNl y := by
  induction x with
  | nil =>
    rw [List.nil_append, splitNl_cons]
    cases hy : splitNl y with
    | nil => exact absurd hy (splitNl_ne_nil y)
    | cons h t => simp [splitNl]
  | cons c r ih =>
    rw [List.cons_append, splitNl_cons, splitNl_cons, ih]
    cases hr0 : splitNl r with
    | nil => exact absurd hr0 (splitNl_ne_nil _)
    | cons h0 t0 =>
      by_cases hc : c = nlChar <;> simp [hc]

theorem joinNl_nil : joinNl [] = [] := rfl

theorem joinNl_single (a : Str) : joinNl [a] = a := by
  simp [joinNl]

theorem joinNl_cons₂ (a b : Str) (t : List Str) :
    joinNl (a :: b :: t) = a ++ nlChar :: joinNl (b :: t) := by
  simp [joinNl, List.intersperse]

theorem joinNl_splitNl (s : Str) : joinNl (splitNl s) = s := by
  induction s with
  | nil => rfl
  | cons c r ih =>
    rw [splitNl_cons]
    cases hr : splitNl r with
    | nil => exact absurd hr (splitNl_ne_nil r)
    | cons h t =>
      rw [hr] at ih
      show joinNl (if c = nlChar then [] :: h :: t else (c :: h) :: t) = c :: r
      by_cases hc : c = nlChar
      · rw [if_pos hc, joinNl_cons₂, ih, hc]
        rfl
      · rw [if_neg hc]
        cases t with
        | nil =>
          rw [joinNl_single] at ih ⊢
          rw [ih]
        | cons b t' =>
          rw [joinNl_cons₂]
          show c :: (h ++ nlChar :: joinNl (b :: t')) = c :: r
          rw [← joinNl_cons₂, ih]

theorem splitNl_joinNl_flat (l : Str) (ls : List Str) :
    splitNl (joinNl (l :: ls)) = (l :: ls).flatMap splitNl := by
  induction ls generalizing l with
  | nil => simp [joinNl_single]
  | cons b t ih =>
    rw [joinNl_cons₂, splitNl_append_nl, ih b]
    simp

theorem splitNl_nlfree (l : Str) (h : ∀ c ∈ l, c ≠ nlChar) :
    splitNl l = [l] := by
  induction l with
  | nil => rfl
  | cons c r ih =>
    rw [splitNl_cons, ih (fun c hc => h c (List.mem_cons_of_mem _ hc))]
    show (if c = nlChar then [] :: r :: [] else (c :: r) :: []) = [c :: r]
    rw [if_neg (h c (List.mem_cons_self _ _))]

theorem splitNl_head_prefix (s : Str) (h : Str) (t : List Str)
    (he : splitNl s = h :: t) : h <+: s := by
  induction s generalizing h t with
  | nil =>
    simp [splitNl] at he
    rw [he.1]
  | cons c r ih =>
    rw [splitNl_cons] at he
    cases hr : splitNl r with
    | nil => exact absurd hr (splitNl_ne_nil r)
    | cons h0 t0 =>
      rw [hr] at he
      dsimp only at he
      by_cases hc : c = nlChar
      · rw [if_pos hc] at he
        obtain ⟨h1, _⟩ := List.cons.inj he
        rw [← h1]
        exact List.nil_prefix
      · rw [if_neg hc] at he
        obtain ⟨h1, _⟩ := List.cons.inj he
        rw [← h1]
        exact (List.cons_prefix_cons).mpr ⟨rfl, ih h0 t0 hr⟩

theorem mem_splitNl_infix_whole (s l : Str) (h : l ∈ splitNl s) : l <:+: s := by
  induction s with
  | nil =>
    simp [splitNl] at h
    rw [h]
  | cons c r ih =>
    rw [splitNl_cons] at h
    cases hr : splitNl r with
    | nil => exact absurd hr (splitNl_ne_nil r)
    | cons h0 t0 =>
      rw [hr] at h
      dsimp only at h
      by_cases hc : c = nlChar
      · rw [if_pos hc] at h
        rcases List.mem_cons.mp h with h1 | h1
        · rw [h1]; exact List.nil_infix
        · exact (ih (hr ▸ h1)).trans (List.infix_cons (List.infix_refl r))
      · rw [if_neg hc] at h
        rcases List.mem_cons.mp h with h1 | h1
        · rw [h1]
          exact ((List.cons_prefix_cons).mpr
            ⟨rfl, splitNl_head_prefix r h0 t0 hr⟩).isInfix
        · have : h0 :: t0 = splitNl r := hr.symm
          have hm : l ∈ splitNl r := by rw [← this]; exact List.mem_cons_of_mem _ h1
          exact (ih hm).trans (List.infix_cons (List.infix_refl r))

theorem containsStr_infix_iff (s p : Str) :
    containsStr s p = true ↔ p <:+: s := by
  constructor
  · intro h
    simp only [containsStr, List.any_eq_true] at h
    obtain ⟨t, ht, hp⟩ := h
    exact List.infix_iff_prefix_suffix.mpr
      ⟨t, List.isPrefixOf_iff_prefix.mp hp, (List.mem_tails _ _).mp ht⟩
  · intro h
    obtain ⟨t, hpt, hts⟩ := List.infix_iff_prefix_suffix.mp h
    simp only [containsStr, List.any_eq_true]
    exact ⟨t, (List.mem_tails _ _).mpr hts, List.isPrefixOf_iff_prefix.mpr hpt⟩

theorem containsStr_mono (s l p : Str) (hinf : l <:+: s)
    (h : containsStr l p = true) : containsStr s p = true :=
  (containsStr_infix_iff s p).mpr
    (((containsStr_infix_iff l p).mp h).trans hinf)

theorem indentAfterNl_cons (c : Char) (r : Str) :
    indentAfterNl (c :: r) =
      (if c = nlChar then [nlChar, ' ', ' '] else [c]) ++ indentAfterNl r := by
  simp only [indentAfterNl, List.flatMap_cons]

theorem indentAfterNl_append (a b : Str) :
    indentAfterNl (a ++ b) = indentAfterNl a ++ indentAfterNl b := by
  simp [indentAfterNl]

theorem indentAfterNl_nlfree (s : Str) (h : ∀ c ∈ s, c ≠ nlChar) :
    indentAfterNl s = s := by
  induction s with
  | nil => rfl
  | cons c r ih =>
    rw [indentAfterNl_cons, if_neg (h c (List.mem_cons_self _ _))]
    rw [ih (fun c hc => h c (List.mem_cons_of_mem _ hc))]
    rfl

theorem joinNl_map_indent (r : Str) :
    joinNl ((splitNl r).map (fun l => ofStr "  " ++ l)) =
      ofStr "  " ++ indentAfterNl r := by
  induction r with
  | nil => rfl
  | cons c r ih =>
    rw [splitNl_cons]
    cases hr : splitNl r with
    | nil => exact absurd hr (splitNl_ne_nil r)
    | cons h t =>
      rw [hr] at ih
      rw [indentAfterNl_cons]
      dsimp only
      by_cases hc : c = nlChar
      · rw [if_pos hc]
        show joinNl (ofStr "  " :: (ofStr "  " ++ h) :: t.map _) = _
        rw [joinNl_cons₂]
        rw [show ((ofStr "  " ++ h) :: t.map (fun l => ofStr "  " ++ l)) =
          (h :: t).map (fun l => ofStr "  " ++ l) from rfl]
        rw [ih]
        simp [hc, show ofStr "  " = [' ', ' '] from rfl]
      · rw [if_neg hc]
        show joinNl ((ofStr "  " ++ c :: h) :: t.map _) = _
        cases t with
        | nil =>
          simp only [List.map_nil, joinNl_single]
          simp only [List.map_cons, List.map_nil, joinNl_single] at ih
          have hh := List.append_cancel_left ih
          rw [hh]
          simp [hc]
        | cons b t2 =>
          simp only [List.map_cons] at ih ⊢
          rw [joinNl_cons₂] at ih ⊢
          rw [List.append_assoc] at ih
          have hh := List.append_cancel_left ih
          simp only [List.append_assoc, List.cons_append, List.nil_append,
            List.singleton_append]
          rw [hh]
          simp [hc] 

theorem splitNl_mem_nlfree (s : Str) (l : Str) (hm : l ∈ splitNl s) :
    ∀ c ∈ l, c ≠ nlChar := by
  induction s generalizing l with
  | nil =>
    simp [splitNl] at hm
    subst hm
    intro c hc
    exact absurd hc (List.not_mem_nil c)
  | cons c r ih =>
    rw [splitNl_cons] at hm
    cases hr : splitNl r with
    | nil => exact absurd hr (splitNl_ne_nil r)
    | cons h t =>
      rw [hr] at hm
      dsimp only at hm
      by_cases hc : c = nlChar
      · rw [if_pos hc] at hm
        rcases List.mem_cons.mp hm with h1 | h1
        · subst h1; intro c hc2; exact absurd hc2 (List.not_mem_nil c)
        · exact ih l (hr ▸ h1)
      · rw [if_neg hc] at hm
        rcases List.mem_cons.mp hm with h1 | h1
        · subst h1
          intro d hd
          rcases List.mem_cons.mp hd with h2 | h2
          · rw [h2]; exact hc
          · exact ih h (hr ▸ List.mem_cons_self h t) d h2
        · exact ih l (hr ▸ List.mem_cons_of_mem h h1)

theorem splitNl_joinNl_parts (ls : List Str)
    (h : ∀ l ∈ ls, ∀ c ∈ l, c ≠ nlChar) (hne : ls ≠ []) :
    splitNl (joinNl ls) = ls := by
  cases ls with
  | nil => exact absurd rfl hne
  | cons a t =>
    rw [splitNl_joinNl_flat]
    have flat_id : ∀ (u : List Str), (∀ l ∈ u, ∀ c ∈ l, c ≠ nlChar) →
        u.flatMap splitNl = u := by
      intro u hu
      induction u with
      | nil => rfl
      | cons x xs ihx =>
        rw [List.flatMap_cons, splitNl_nlfree x (hu x (List.mem_cons_self _ _)),
          ihx (fun l hl => hu l (List.mem_cons_of_mem _ hl))]
        rfl
    exact flat_id (a :: t) h

theorem mapIdx_const_indent (t : List Str) (f : Nat → Str → Str)
    (hf : ∀ i l, f i l = ofStr "  " ++ l) :
    List.mapIdx f t = t.map (fun l => ofStr "  " ++ l) := by
  induction t generalizing f with
  | nil => rfl
  | cons a l ih =>
    rw [List.mapIdx_cons, hf, ih (fun i => f (i + 1)) (fun i l => hf (i + 1) l),
      List.map_cons]

theorem reindent2_eq (s : Str) : reindent2 s = indentAfterNl s := by
  unfold reindent2
  cases hs : splitNl s with
  | nil => exact absurd hs (splitNl_ne_nil s)
  | cons h t =>
    rw [List.mapIdx_cons]
    rw [show (if (0 : Nat) = 0 then h else ofStr "  " ++ h) = h from rfl]
    rw [mapIdx_const_indent t _ (fun i l => by
      show (if i + 1 = 0 then l else ofStr "  " ++ l) = ofStr "  " ++ l
      rw [if_neg (Nat.succ_ne_zero i)])]
    have hmem : ∀ l ∈ h :: t, ∀ c ∈ l, c ≠ nlChar := by
      intro l hl
      exact splitNl_mem_nlfree s l (hs ▸ hl)
    have hsj : s = joinNl (h :: t) := by rw [← hs, joinNl_splitNl]
    cases t with
    | nil =>
      rw [joinNl_single] at hsj
      simp only [List.map_nil, joinNl_single]
      rw [hsj]
      exact (indentAfterNl_nlfree h (hmem h (List.mem_cons_self _ _))).symm
    | cons b t2 =>
      have hrs : splitNl (joinNl (b :: t2)) = b :: t2 :=
        splitNl_joinNl_parts (b :: t2)
          (fun l hl => hmem l (List.mem_cons_of_mem _ hl)) (by simp)
      have hmap := joinNl_map_indent (joinNl (b :: t2))
      rw [hrs] at hmap
      rw [List.map_cons, joinNl_cons₂, ← List.map_cons, hmap]
      rw [hsj, joinNl_cons₂, indentAfterNl_append, indentAfterNl_cons,
        if_pos rfl, indentAfterNl_nlfree h (hmem h (List.mem_cons_self _ _))]
      simp [show ofStr "  " = [' ', ' '] from rfl]

theorem stepTop_lineNo (acc : List MdxNode) (n : Nat) (l : Str) :
    (stepTop acc n l).lineNo = n + 1 := by
  unfold stepTop
  dsimp only
  split_ifs <;> rfl

theorem pStep_lineNo (st : PState) (l : Str) :
    (pStep st l).lineNo = st.lineNo + 1 := by
  obtain ⟨m, a, n⟩ := st
  cases m with
  | top => exact stepTop_lineNo a n l
  | inPara buf s =>
    simp only [pStep]
    split_ifs
    · exact stepTop_lineNo _ n l
    · rfl
  | inFence buf s =>
    simp only [pStep]
    split_ifs <;> rfl
  | inExpr buf d s =>
    simp only [pStep]
    split_ifs <;> rfl
  | inJsx buf s =>
    simp only [pStep]
    split_ifs <;> rfl

theorem stepTop_acc (acc : List MdxNode) (n : Nat) (l : Str) :
    stepTop acc n l =
      ⟨(stepTop [] n l).mode, acc ++ (stepTop [] n l).acc,
        (stepTop [] n l).lineNo⟩ := by
  unfold stepTop
  dsimp only
  split_ifs <;> simp

theorem pStep_split (m : PMode) (a : List MdxNode) (n : Nat) (l : Str) :
    pStep ⟨m, a, n⟩ l = ⟨pModeStep m n l, a ++ pDelta m n l, n + 1⟩ := by
  cases m with
  | top =>
    show stepTop a n l = ⟨(stepTop [] n l).mode, a ++ (stepTop [] n l).acc, n + 1⟩
    rw [stepTop_acc a n l, stepTop_lineNo]
  | inPara buf s =>
    simp only [pStep, pModeStep, pDelta]
    split_ifs with hb
    · rw [stepTop_acc, stepTop_lineNo]
      rw [stepTop_acc ([] ++ [MdxNode.paraN (joinNl buf) s (n - 1)]) n l]
      simp
    · simp
  | inFence buf s =>
    simp only [pStep, pModeStep, pDelta]
    split_ifs <;> simp
  | inExpr buf d s =>
    simp only [pStep, pModeStep, pDelta]
    split_ifs <;> simp
  | inJsx buf s =>
    simp only [pStep, pModeStep, pDelta]
    split_ifs <;> simp

theorem pFold_acc (ls : List Str) (m : PMode) (a : List MdxNode) (n : Nat) :
    pFold ls ⟨m, a, n⟩ =
      ⟨(pFold ls ⟨m, [], n⟩).mode, a ++ (pFold ls ⟨m, [], n⟩).acc,
        (pFold ls ⟨m, [], n⟩).lineNo⟩ := by
  induction ls generalizing m a n with
  | nil => simp [pFold]
  | cons l ls ih =>
    show pFold ls (pStep ⟨m, a, n⟩ l) =
      ⟨(pFold ls (pStep ⟨m, [], n⟩ l)).mode,
       a ++ (pFold ls (pStep ⟨m, [], n⟩ l)).acc,
       (pFold ls (pStep ⟨m, [], n⟩ l)).lineNo⟩
    rw [pStep_split m a n l, pStep_split m [] n l, List.nil_append]
    rw [ih (pModeStep m n l) (a ++ pDelta m n l) (n + 1),
      ih (pModeStep m n l) (pDelta m n l) (n + 1)]
    simp

theorem stepTop_shift (acc : List MdxNode) (n k : Nat) (l : Str) :
    stepTop acc (n + k) l =
      ⟨shiftMode k (stepTop [] n l).mode,
       acc ++ ((stepTop [] n l).acc).map (shiftNode k), n + k + 1⟩ := by
  unfold stepTop
  dsimp only
  split_ifs <;> simp [shiftMode, shiftNode]

theorem pStep_shift (m : PMode) (a : List MdxNode) (n k : Nat) (l : Str)
    (hn : 1 ≤ n) :
    pStep ⟨shiftMode k m, a, n + k⟩ l =
      ⟨shiftMode k (pModeStep m n l), a ++ (pDelta m n l).map (shiftNode k),
        n + k + 1⟩ := by
  cases m with
  | top =>
    show stepTop a (n + k) l = _
    rw [stepTop_shift]
    rfl
  | inPara buf s =>
    show pStep ⟨PMode.inPara buf (s + k), a, n + k⟩ l = _
    simp only [pStep, pModeStep, pDelta]
    split_ifs with hb
    · rw [stepTop_shift (a ++ [MdxNode.paraN (joinNl buf) (s + k) (n + k - 1)]) n k l]
      rw [stepTop_acc ([] ++ [MdxNode.paraN (joinNl buf) s (n - 1)]) n l]
      simp only [List.nil_append, List.map_append, List.map_cons, List.map_nil,
        shiftNode, List.append_assoc]
      rw [show n + k - 1 = n - 1 + k by omega]
    · simp [shiftMode]
  | inFence buf s =>
    show pStep ⟨PMode.inFence buf (s + k), a, n + k⟩ l = _
    simp only [pStep, pModeStep, pDelta]
    split_ifs <;> simp [shiftMode, shiftNode]
  | inExpr buf d s =>
    show pStep ⟨PMode.inExpr buf d (s + k), a, n + k⟩ l = _
    simp only [pStep, pModeStep, pDelta]
    split_ifs <;> simp [shiftMode, shiftNode]
  | inJsx buf s =>
    show pStep ⟨PMode.inJsx buf (s + k), a, n + k⟩ l = _
    simp only [pStep, pModeStep, pDelta]
    split_ifs <;> simp [shiftMode, shiftNode]

theorem pFold_shift (ls : List Str) (m : PMode) (a : List MdxNode) (n k : Nat)
    (hn : 1 ≤ n) :
    pFold ls ⟨shiftMode k m, a, n + k⟩ =
      ⟨shiftMode k (pFold ls ⟨m, [], n⟩).mode,
       a ++ ((pFold ls ⟨m, [], n⟩).acc).map (shiftNode k),
       (pFold ls ⟨m, [], n⟩).lineNo + k⟩ := by
  induction ls generalizing m a n with
  | nil => simp [pFold, pFold]
  | cons l ls ih =>
    show pFold ls (pStep ⟨shiftMode k m, a, n + k⟩ l) =
      ⟨shiftMode k (pFold ls (pStep ⟨m, [], n⟩ l)).mode,
       a ++ ((pFold ls (pStep ⟨m, [], n⟩ l)).acc).map (shiftNode k),
       (pFold ls (pStep ⟨m, [], n⟩ l)).lineNo + k⟩
    rw [pStep_shift m a n k l hn, pStep_split m [] n l, List.nil_append]
    rw [show n + k + 1 = n + 1 + k by omega]
    rw [ih (pModeStep m n l) (a ++ (pDelta m n l).map (shiftNode k)) (n + 1)
      (by omega)]
    rw [pFold_acc ls (pModeStep m n l) (pDelta m n l) (n + 1)]
    simp [List.map_append, List.append_assoc]

theorem stepTop_delta_ub (n : Nat) (l : Str) :
    ∀ x ∈ (stepTop [] n l).acc,
      nodeStartL x ≤ nodeEndL x ∧ nodeEndL x < n + 1 := by
  unfold stepTop
  dsimp only
  split_ifs <;> intro x hx <;>
    simp only [List.nil_append, List.mem_singleton, List.not_mem_nil] at hx <;>
    (subst hx; simp only [nodeStartL, nodeEndL]; omega)

theorem pDelta_ub (m : PMode) (n : Nat) (l : Str)
    (hm : match m with
          | .top => True
          | .inPara _ s => s < n
          | .inFence _ s => s < n
          | .inExpr _ _ s => s < n
          | .inJsx _ s => s < n) :
    ∀ x ∈ pDelta m n l,
      nodeStartL x ≤ nodeEndL x ∧ nodeEndL x < n + 1 := by
  cases m with
  | top => exact stepTop_delta_ub n l
  | inPara buf s =>
    intro x hx
    simp only [pDelta, pStep] at hx
    by_cases hb : paraBreaks l = true
    · rw [if_pos hb] at hx
      rw [stepTop_acc] at hx
      simp only [List.nil_append, List.mem_append, List.mem_singleton] at hx
      rcases hx with h | h
      · subst h; simp only [nodeStartL, nodeEndL]; omega
      · exact stepTop_delta_ub n l x h
    · rw [if_neg hb] at hx
      exact absurd hx (List.not_mem_nil x)
  | inFence buf s =>
    intro x hx
    simp only [pDelta, pStep] at hx
    by_cases hb : isFenceLine l = true
    · rw [if_pos hb] at hx
      simp only [List.nil_append, List.mem_singleton] at hx
      subst hx; simp only [nodeStartL, nodeEndL]; omega
    · rw [if_neg hb] at hx
      exact absurd hx (List.not_mem_nil x)
  | inExpr buf d s =>
    intro x hx
    simp only [pDelta, pStep] at hx
    by_cases hb : countChar rbChar l ≥ d + countChar lbChar l
    · rw [if_pos hb] at hx
      simp only [List.nil_append, List.mem_singleton] at hx
      subst hx; simp only [nodeStartL, nodeEndL]; omega
    · rw [if_neg hb] at hx
      exact absurd hx (List.not_mem_nil x)
  | inJsx buf s =>
    intro x hx
    simp only [pDelta, pStep] at hx
    by_cases hb : jsxCloses l = true
    · rw [if_pos hb] at hx
      simp only [List.nil_append, List.mem_singleton] at hx
      subst hx; simp only [nodeStartL, nodeEndL]; omega
    · rw [if_neg hb] at hx
      exact absurd hx (List.not_mem_nil x)

theorem pFold_ub (ls : List Str) (st : PState) (hok : stOk st)
    (hub : ∀ x ∈ st.acc, nodeStartL x ≤ nodeEndL x ∧ nodeEndL x < st.lineNo) :
    ∀ x ∈ (pFold ls st).acc,
      nodeStartL x ≤ nodeEndL x ∧ nodeEndL x < (pFold ls st).lineNo := by
  induction ls generalizing st with
  | nil => exact hub
  | cons l ls ih =>
    apply ih (pStep st l) (pStep_ok st l hok)
    obtain ⟨m, a, n⟩ := st
    rw [pStep_split]
    intro x hx
    rcases List.mem_append.mp hx with h | h
    · refine ⟨(hub x h).1, ?_⟩
      have := (hub x h).2
      simp only at this ⊢
      omega
    · refine (pDelta_ub m n l ?_ x h).imp id (fun h2 => ?_)
      · obtain ⟨_, hm, _⟩ := hok
        cases m with
        | top => trivial
        | inPara buf s => exact hm.2
        | inFence buf s => exact hm.2
        | inExpr buf d s => exact hm.2
        | inJsx buf s => exact hm.2
      · simpa using h2

theorem pFold_lineNo (ls : List Str) (st : PState) :
    (pFold ls st).lineNo = st.lineNo + ls.length := by
  induction ls generalizing st with
  | nil => rfl
  | cons l ls ih =>
    show (pFold ls (pStep st l)).lineNo = _
    rw [ih (pStep st l), pStep_lineNo]
    simp only [List.length_cons]
    omega

theorem pFinalize_shift (M : PMode) (A : List MdxNode) (N k : Nat)
    (hN : 1 ≤ N) :
    pFinalize ⟨shiftMode k M, A.map (shiftNode k), N + k⟩ =
      (pFinalize ⟨M, A, N⟩).map (fun ns => ns.map (shiftNode k)) := by
  cases M with
  | top => rfl
  | inPara buf s =>
    simp only [pFinalize, shiftMode, Except.map, List.map_append, List.map_cons,
      List.map_nil, shiftNode]
    rw [show N + k - 1 = N - 1 + k by omega]
  | inFence buf s =>
    simp only [pFinalize, shiftMode, Except.map, List.map_append, List.map_cons,
      List.map_nil, shiftNode]
    rw [show N + k - 1 = N - 1 + k by omega]
  | inExpr buf d s => rfl
  | inJsx buf s => rfl

theorem parseFrom_shift (ls : List Str) (k : Nat) :
    parseFrom ls (1 + k) =
      (parseFrom ls 1).map (fun ns => ns.map (shiftNode k)) := by
  unfold parseFrom
  have h := pFold_shift ls .top [] 1 k (le_refl 1)
  rw [show (⟨PMode.top, ([] : List MdxNode), 1 + k⟩ : PState) =
    ⟨shiftMode k .top, [], 1 + k⟩ from rfl]
  show pFinalize (pFold ls ⟨shiftMode k PMode.top, [], 1 + k⟩) = _
  rw [h, List.nil_append]
  have hN : 1 ≤ (pFold ls ⟨PMode.top, [], 1⟩).lineNo := by
    rw [pFold_lineNo]
    show 1 ≤ 1 + ls.length
    omega
  have := pFinalize_shift (pFold ls ⟨PMode.top, [], 1⟩).mode
    (pFold ls ⟨PMode.top, [], 1⟩).acc (pFold ls ⟨PMode.top, [], 1⟩).lineNo k hN
  rw [this]
  rfl

theorem parseFrom_bounds (ls : List Str) (k : Nat) (hk : 1 ≤ k)
    (ns : List MdxNode) (h : parseFrom ls k = .ok ns) :
    ∀ n ∈ ns, nodeStartL n ≤ nodeEndL n ∧ nodeEndL n ≤ k + ls.length - 1 := by
  have hst : stOk (ls.foldl pStep ⟨.top, [], k⟩) :=
    foldl_pStep_ok ls _ ⟨hk, trivial, by simp⟩
  have hub := pFold_ub ls ⟨.top, [], k⟩ ⟨hk, trivial, by simp⟩ (by simp)
  have hln : (List.foldl pStep ⟨PMode.top, [], k⟩ ls).lineNo = k + ls.length :=
    pFold_lineNo ls ⟨.top, [], k⟩
  unfold pFold at hub
  unfold parseFrom at h
  obtain ⟨hl1, hl2, hl3⟩ := hst
  rw [hln] at hub
  unfold pFinalize at h
  cases hmode : (ls.foldl pStep ⟨.top, [], k⟩).mode with
  | top =>
    rw [hmode] at h
    simp at h
    subst h
    intro n hn
    have := hub n hn
    omega
  | inPara buf s =>
    rw [hmode] at h
    simp at h
    subst h
    rw [hmode] at hl2
    dsimp only at hl2
    rw [hln] at hl2
    intro n hn
    simp only [List.mem_append, List.mem_singleton] at hn
    rcases hn with hn | hn
    · have := hub n hn
      omega
    · subst hn
      simp only [nodeStartL, nodeEndL]
      rw [hln]
      omega
  | inFence buf s =>
    rw [hmode] at h
    simp at h
    subst h
    rw [hmode] at hl2
    dsimp only at hl2
    rw [hln] at hl2
    intro n hn
    simp only [List.mem_append, List.mem_singleton] at hn
    rcases hn with hn | hn
    · have := hub n hn
      omega
    · subst hn
      simp only [nodeStartL, nodeEndL]
      rw [hln]
      omega
  | inExpr buf d s => rw [hmode] at h; simp at h
  | inJsx buf s => rw [hmode] at h; simp at h

theorem walkStep_shift (cn : Str) (st : Option Str × List Voice) (k : Nat)
    (n : MdxNode) : walkStep cn st (shiftNode k n) = walkStep cn st n := by
  cases n <;> rfl

theorem nodeText_shift (k : Nat) (n : MdxNode) :
    nodeText (shiftNode k n) = nodeText n := by
  cases n <;> rfl

theorem keepAfterRemoval_shift (k : Nat) (n : MdxNode) :
    keepAfterRemoval (shiftNode k n) = keepAfterRemoval n := by
  cases n <;> rfl

theorem nodeIdle_shift (cn : Str) (k : Nat) (n : MdxNode) :
    nodeIdle cn (shiftNode k n) = nodeIdle cn n := by
  cases n <;> rfl

theorem walkStep_idle (cn : Str) (st : Option Str × List Voice) (n : MdxNode)
    (h : nodeIdle cn n = true) : walkStep cn st n = st := by
  cases n with
  | exprN v s e =>
    simp only [nodeIdle, Option.isNone_iff_eq_none] at h
    simp only [walkStep, h]
  | jsxN txt s e =>
    simp only [walkStep]
    by_cases ht : jsxTag txt = cn
    · rw [if_pos ht]
      cases hav : voicesAttrOf txt with
      | none => rfl
      | some av =>
        by_cases he : av = .litA []
        · simp [he]
        · cases av with
          | litA sl =>
            cases hpv : parseVoicesJson sl with
            | some vs =>
              exfalso
              simp only [nodeIdle] at h
              rw [hav] at h
              simp [ht, hpv, he] at h
            | none => simp [he, hpv]
          | exprA se =>
            cases hpv : parseVoicesJson se with
            | some vs =>
              exfalso
              simp only [nodeIdle] at h
              rw [hav] at h
              simp [ht, hpv] at h
            | none => simp [he, hpv]
    · rw [if_neg ht]
  | yamlN s e => rfl
  | esmN t s e => rfl
  | headingN t s e => rfl
  | paraN t s e => rfl
  | codeN t s e => rfl
  | brkN s e => rfl

theorem walkFold_idle (cn : Str) (st : Option Str × List Voice)
    (ns : List MdxNode) (h : ∀ n ∈ ns, nodeIdle cn n = true) :
    ns.foldl (walkStep cn) st = st := by
  induction ns generalizing st with
  | nil => rfl
  | cons n rest ih =>
    rw [List.foldl_cons, walkStep_idle cn st n (h n (List.mem_cons_self _ _))]
    exact ih st (fun m hm => h m (List.mem_cons_of_mem _ hm))

theorem takeWhile_append_stop (p : Char → Bool) (a : Str) (b : Char) (r : Str)
    (ha : ∀ c ∈ a, p c = true) (hb : p b = false) :
    (a ++ b :: r).takeWhile p = a := by
  induction a with
  | nil => simp [List.takeWhile_cons, hb]
  | cons x xs ih =>
    rw [List.cons_append, List.takeWhile_cons, ha x (List.mem_cons_self _ _)]
    rw [ih (fun c hc => ha c (List.mem_cons_of_mem _ hc))]
    simp

theorem hex_not_ws (c : Char) (h : isLowerHexChar c = true) :
    isWsChar c = false := by
  by_contra hw
  rw [Bool.not_eq_false] at hw
  simp only [isWsChar, Bool.or_eq_true, decide_eq_true_eq] at hw
  rcases hw with ((((h1 | h1) | h1) | h1) | h1) | h1 <;>
    (subst h1; exact absurd h (by decide))

theorem findHashMatch_cons (c : Char) (r : Str) :
    findHashMatch (c :: r) =
      match hashAt (c :: r) with
      | some h => some h
      | none => findHashMatch r := rfl

theorem hashAt_comment (fp : Str) (hne : fp ≠ [])
    (hhex : ∀ c ∈ fp, isLowerHexChar c = true) :
    hashAt (ofStr "/* speak-mintlify-hash: " ++ (fp ++ ofStr " */")) =
      some fp := by
  obtain ⟨f0, fp', rfl⟩ : ∃ a b, fp = a :: b := by
    cases fp with
    | nil => exact absurd rfl hne
    | cons a b => exact ⟨a, b, rfl⟩
  unfold hashAt
  rw [if_pos (show (ofStr "/*").isPrefixOf
    (ofStr "/* speak-mintlify-hash: " ++ ((f0 :: fp') ++ ofStr " */")) = true
    from rfl)]
  dsimp only
  rw [show ((ofStr "/* speak-mintlify-hash: " ++
      ((f0 :: fp') ++ ofStr " */")).drop 2).dropWhile isWsChar =
    ofStr "speak-mintlify-hash: " ++ ((f0 :: fp') ++ ofStr " */") from rfl]
  rw [if_pos (show (ofStr "speak-mintlify-hash:").isPrefixOf
    (ofStr "speak-mintlify-hash: " ++ ((f0 :: fp') ++ ofStr " */")) = true
    from rfl)]
  rw [show ((ofStr "speak-mintlify-hash: " ++
      ((f0 :: fp') ++ ofStr " */")).drop
        (ofStr "speak-mintlify-hash:").length) =
    ' ' :: ((f0 :: fp') ++ ofStr " */") from rfl]
  rw [List.dropWhile_cons]
  rw [show isWsChar ' ' = true from rfl, if_pos rfl]
  rw [List.cons_append, List.dropWhile_cons,
    hex_not_ws f0 (hhex f0 (List.mem_cons_self f0 fp'))]
  simp only [Bool.false_eq_true, if_false]
  rw [show ofStr " */" = ' ' :: ofStr "*/" from rfl]
  rw [← List.cons_append]
  rw [takeWhile_append_stop isLowerHexChar (f0 :: fp') ' ' (ofStr "*/") hhex
    (by decide)]
  rw [if_neg (show ¬(f0 :: fp' = []) from by simp)]
  rw [List.drop_left]
  rw [show (((' ' : Char) :: ofStr "*/").dropWhile isWsChar) = ofStr "*/"
    from rfl]
  rw [if_pos (show (ofStr "*/").isPrefixOf (ofStr "*/") = true from by decide)]

theorem findHashMatch_comment (fp : Str) (hne : fp ≠ [])
    (hhex : ∀ c ∈ fp, isLowerHexChar c = true) :
    findHashMatch (ofStr "/* speak-mintlify-hash: " ++ (fp ++ ofStr " */")) =
      some fp := by
  rw [show ofStr "/* speak-mintlify-hash: " ++ (fp ++ ofStr " */") =
    '/' :: (ofStr "* speak-mintlify-hash: " ++ (fp ++ ofStr " */")) from rfl]
  rw [findHashMatch_cons]
  rw [show ('/' : Char) :: (ofStr "* speak-mintlify-hash: " ++
      (fp ++ ofStr " */")) =
    ofStr "/* speak-mintlify-hash: " ++ (fp ++ ofStr " */") from rfl]
  rw [hashAt_comment fp hne hhex]

theorem takeBraced_cons (d : Nat) (c : Char) (r : Str) :
    takeBraced d (c :: r) =
      if c = lbChar then c :: takeBraced (d + 1) r
      else if c = rbChar then (if d = 1 then [] else c :: takeBraced (d - 1) r)
      else c :: takeBraced d r := rfl

theorem takeBraced_bracefree (d : Nat) (a t : Str)
    (ha : ∀ c ∈ a, c ≠ lbChar ∧ c ≠ rbChar) :
    takeBraced d (a ++ t) = a ++ takeBraced d t := by
  induction a with
  | nil => rfl
  | cons x xs ih =>
    rw [List.cons_append, takeBraced_cons,
      if_neg (ha x (List.mem_cons_self _ _)).1,
      if_neg (ha x (List.mem_cons_self _ _)).2,
      ih (fun c hc => ha c (List.mem_cons_of_mem _ hc))]
    rfl

theorem cleanFieldChar_spec (c : Char) (h : cleanFieldChar c = true) :
    c ≠ '"' ∧ c ≠ '\\' ∧ c ≠ '<' ∧ c ≠ '>' ∧ c ≠ lbChar ∧ c ≠ rbChar ∧
    ¬(c.toNat < 32) := by
  simp only [cleanFieldChar, Bool.not_eq_true', Bool.or_eq_false_iff,
    decide_eq_false_iff_not] at h
  obtain ⟨⟨⟨⟨⟨⟨h1, h2⟩, h3⟩, h4⟩, h5⟩, h6⟩, h7⟩ := h
  exact ⟨h1, h2, h3, h4, h5, h6, h7⟩

theorem cleanFieldChar_ne_nl (c : Char) (h : cleanFieldChar c = true) :
    c ≠ nlChar := by
  intro he
  subst he
  exact absurd h (by decide)

theorem jsonEscapeChar_clean (c : Char) (h : cleanFieldChar c = true) :
    jsonEscapeChar c = [c] := by
  obtain ⟨h1, h2, _, _, _, _, h7⟩ := cleanFieldChar_spec c h
  have hnl : c ≠ nlChar := cleanFieldChar_ne_nl c h
  have ht : c ≠ Char.ofNat 9 := by intro he; subst he; exact h7 (by decide)
  have hr : c ≠ Char.ofNat 13 := by intro he; subst he; exact h7 (by decide)
  have hb : c ≠ Char.ofNat 8 := by intro he; subst he; exact h7 (by decide)
  have hf : c ≠ Char.ofNat 12 := by intro he; subst he; exact h7 (by decide)
  unfold jsonEscapeChar
  rw [if_neg h1, if_neg h2, if_neg hnl, if_neg ht, if_neg hr, if_neg hb,
    if_neg hf, if_neg h7]

theorem jsonEscape_clean (s : Str) (h : ∀ c ∈ s, cleanFieldChar c = true) :
    jsonEscape s = s := by
  induction s with
  | nil => rfl
  | cons c r ih =>
    show jsonEscapeChar c ++ jsonEscape r = c :: r
    rw [jsonEscapeChar_clean c (h c (List.mem_cons_self _ _)),
      ih (fun c hc => h c (List.mem_cons_of_mem _ hc))]
    rfl

theorem indentAfterNl_clean (s : Str) (h : ∀ c ∈ s, cleanFieldChar c = true) :
    indentAfterNl s = s :=
  indentAfterNl_nlfree s (fun c hc => cleanFieldChar_ne_nl c (h c hc))

theorem indObj_decomp (v : Voice) (hclean : cleanVoice v = true) :
    indentAfterNl (jsonVoiceObj v) =
      ofStr "  \x7b\n      \"id\": \"" ++
        (v.vid ++ (ofStr "\",\n      \"name\": \"" ++
          (v.vname ++ (ofStr "\",\n      \"url\": \"" ++
            (v.vurl ++ ofStr "\"\n    \x7d"))))) := by
  obtain ⟨hid, hname, hurl⟩ :
      (∀ c ∈ v.vid, cleanFieldChar c = true) ∧
      (∀ c ∈ v.vname, cleanFieldChar c = true) ∧
      (∀ c ∈ v.vurl, cleanFieldChar c = true) := by
    simp only [cleanVoice, Bool.and_eq_true, List.all_eq_true] at hclean
    exact ⟨hclean.1.1, hclean.1.2, hclean.2⟩
  unfold jsonVoiceObj
  rw [jsonEscape_clean _ hid, jsonEscape_clean _ hname, jsonEscape_clean _ hurl]
  simp only [indentAfterNl_append]
  rw [indentAfterNl_clean _ hid, indentAfterNl_clean _ hname,
    indentAfterNl_clean _ hurl]
  rw [show indentAfterNl (ofStr "  \x7b\n    \"id\": \"") =
    ofStr "  \x7b\n      \"id\": \"" from rfl]
  rw [show indentAfterNl (ofStr "\",\n    \"name\": \"") =
    ofStr "\",\n      \"name\": \"" from rfl]
  rw [show indentAfterNl (ofStr "\",\n    \"url\": \"") =
    ofStr "\",\n      \"url\": \"" from rfl]
  rw [show indentAfterNl (ofStr "\"\n  \x7d") = ofStr "\"\n    \x7d" from rfl]
  simp [List.append_assoc]

theorem cleanVoice_spec (v : Voice) (h : cleanVoice v = true) :
    (∀ c ∈ v.vid, cleanFieldChar c = true) ∧
    (∀ c ∈ v.vname, cleanFieldChar c = true) ∧
    (∀ c ∈ v.vurl, cleanFieldChar c = true) := by
  simp only [cleanVoice, Bool.and_eq_true, List.all_eq_true] at h
  exact ⟨h.1.1, h.1.2, h.2⟩

theorem jTokFold_str (s : Str) (buf : Str) (acc : List JTok)
    (h : ∀ c ∈ s, cleanFieldChar c = true) :
    s.foldl jTokStep (.inStr buf, acc) = (.inStr (buf ++ s), acc) := by
  induction s generalizing buf with
  | nil => simp
  | cons c r ih =>
    show r.foldl jTokStep (jTokStep (.inStr buf, acc) c) = _
    obtain ⟨h1, h2, _⟩ := cleanFieldChar_spec c (h c (List.mem_cons_self _ _))
    rw [show jTokStep (.inStr buf, acc) c = (.inStr (buf.concat c), acc) from by
      simp [jTokStep, h1, h2]]
    rw [ih (buf.concat c) (fun c hc => h c (List.mem_cons_of_mem _ hc))]
    simp

theorem tokA (acc : List JTok) :
    (ofStr "  \x7b\n      \"id\": \"").foldl jTokStep (.out, acc) =
      (.inStr [], ((acc ++ [.sym lbChar]) ++ [.str (ofStr "id")]) ++
        [.sym ':']) := rfl

theorem tokB (v : Str) (acc : List JTok) :
    (ofStr "\",\n      \"name\": \"").foldl jTokStep (.inStr v, acc) =
      (.inStr [], (((acc ++ [.str v]) ++ [.sym ',']) ++
        [.str (ofStr "name")]) ++ [.sym ':']) := rfl

theorem tokC (v : Str) (acc : List JTok) :
    (ofStr "\",\n      \"url\": \"").foldl jTokStep (.inStr v, acc) =
      (.inStr [], (((acc ++ [.str v]) ++ [.sym ',']) ++
        [.str (ofStr "url")]) ++ [.sym ':']) := rfl

theorem tokD (v : Str) (acc : List JTok) :
    (ofStr "\"\n    \x7d").foldl jTokStep (.inStr v, acc) =
      (.out, (acc ++ [.str v]) ++ [.sym rbChar]) := rfl

theorem tokOpen (acc : List JTok) :
    (ofStr "[\n  ").foldl jTokStep (.out, acc) = (.out, acc ++ [.sym '[']) :=
  rfl

theorem tokSep (acc : List JTok) :
    (ofStr ",\n  ").foldl jTokStep (.out, acc) = (.out, acc ++ [.sym ',']) :=
  rfl

theorem tokClose (acc : List JTok) :
    (ofStr "\n  ]").foldl jTokStep (.out, acc) = (.out, acc ++ [.sym ']']) :=
  rfl

theorem tokObj (v : Voice) (acc : List JTok) (hclean : cleanVoice v = true) :
    (indentAfterNl (jsonVoiceObj v)).foldl jTokStep (.out, acc) =
      (.out, acc ++ objToks v) := by
  obtain ⟨hid, hname, hurl⟩ := cleanVoice_spec v hclean
  rw [indObj_decomp v hclean]
  simp only [List.foldl_append]
  rw [tokA acc]
  rw [jTokFold_str v.vid [] _ hid, List.nil_append]
  rw [tokB v.vid _]
  rw [jTokFold_str v.vname [] _ hname, List.nil_append]
  rw [tokC v.vname _]
  rw [jTokFold_str v.vurl [] _ hurl, List.nil_append]
  rw [tokD v.vurl _]
  simp [objToks]

theorem joinWithStr_single (sep a : Str) : joinWithStr sep [a] = a := by
  simp [joinWithStr]

theorem joinWithStr_cons₂ (sep a b : Str) (t : List Str) :
    joinWithStr sep (a :: b :: t) = a ++ (sep ++ joinWithStr sep (b :: t)) := by
  simp [joinWithStr, List.intersperse]

theorem tokVoicesAux (v : Voice) (vs : List Voice) (acc : List JTok)
    (hclean : ∀ w ∈ v :: vs, cleanVoice w = true) :
    (indentAfterNl (joinWithStr (ofStr ",\n")
        ((v :: vs).map jsonVoiceObj))).foldl jTokStep (.out, acc) =
      (.out, acc ++ objsToks (v :: vs)) := by
  induction vs generalizing v acc with
  | nil =>
    rw [List.map_cons, List.map_nil, joinWithStr_single]
    exact tokObj v acc (hclean v (List.mem_cons_self _ _))
  | cons w vs ih =>
    rw [List.map_cons, List.map_cons, joinWithStr_cons₂, ← List.map_cons]
    rw [indentAfterNl_append, indentAfterNl_append]
    rw [show indentAfterNl (ofStr ",\n") = ofStr ",\n  " from rfl]
    simp only [List.foldl_append]
    rw [tokObj v acc (hclean v (List.mem_cons_self _ _))]
    rw [tokSep]
    rw [ih w _ (fun u hu => hclean u (List.mem_cons_of_mem _ hu))]
    rw [show objsToks (v :: w :: vs) =
      objToks v ++ .sym ',' :: objsToks (w :: vs) from rfl]
    simp

theorem jTokenize_voices (voices : List Voice) (hne : voices ≠ [])
    (hclean : ∀ w ∈ voices, cleanVoice w = true) :
    jTokenize (indentAfterNl (jsonStringifyVoices voices)) =
      some ([JTok.sym '['] ++ (objsToks voices ++ [JTok.sym ']'])) := by
  cases voices with
  | nil => exact absurd rfl hne
  | cons v vs =>
    unfold jsonStringifyVoices
    dsimp only
    rw [indentAfterNl_append, indentAfterNl_append]
    rw [show indentAfterNl (ofStr "[\n") = ofStr "[\n  " from rfl]
    rw [show indentAfterNl (ofStr "\n]") = ofStr "\n  ]" from rfl]
    unfold jTokenize
    simp only [List.foldl_append]
    rw [tokOpen, tokVoicesAux v vs _ hclean, tokClose]
    simp

theorem parseObjToks (v : Voice) (acc : List Voice) :
    (objToks v).foldl jParseStep (.arrOpen, acc) = (.afterObj, acc ++ [v]) :=
  rfl

theorem parseObjsToks (v : Voice) (vs : List Voice) (acc : List Voice) :
    (objsToks (v :: vs) ++ [JTok.sym ']']).foldl jParseStep (.arrOpen, acc) =
      (.done, acc ++ (v :: vs)) := by
  induction vs generalizing v acc with
  | nil =>
    rw [show objsToks [v] = objToks v from rfl]
    rw [List.foldl_append, parseObjToks]
    rfl
  | cons w vs ih =>
    rw [show objsToks (v :: w :: vs) =
      objToks v ++ .sym ',' :: objsToks (w :: vs) from rfl]
    rw [List.append_assoc, List.foldl_append, parseObjToks]
    show (objsToks (w :: vs) ++ [JTok.sym ']']).foldl jParseStep
      (jParseStep (.afterObj, acc ++ [v]) (JTok.sym ',')) = _
    rw [show jParseStep (.afterObj, acc ++ [v]) (JTok.sym ',') =
      (.arrOpen, acc ++ [v]) from rfl]
    rw [ih w (acc ++ [v])]
    simp

theorem parseVoicesJson_roundtrip (voices : List Voice) (hne : voices ≠ [])
    (hclean : ∀ w ∈ voices, cleanVoice w = true) :
    parseVoicesJson (reindent2 (jsonStringifyVoices voices)) = some voices := by
  rw [reindent2_eq]
  unfold parseVoicesJson
  rw [jTokenize_voices voices hne hclean]
  cases voices with
  | nil => exact absurd rfl hne
  | cons v vs =>
    dsimp only
    rw [List.singleton_append, List.foldl_cons]
    rw [show jParseStep (.start, ([] : List Voice)) (JTok.sym '[') =
      (.arrOpen, []) from rfl]
    rw [parseObjsToks v vs []]
    simp

theorem takeBraced_lb (d : Nat) (t : Str) :
    takeBraced d (lbChar :: t) = lbChar :: takeBraced (d + 1) t := by
  rw [takeBraced_cons, if_pos rfl]

theorem takeBraced_rb (d : Nat) (t : Str) (hd : d ≠ 1) :
    takeBraced d (rbChar :: t) = rbChar :: takeBraced (d - 1) t := by
  rw [takeBraced_cons, if_neg (by decide), if_pos rfl, if_neg hd]

theorem takeBraced_rb_one (t : Str) : takeBraced 1 (rbChar :: t) = [] := by
  rw [takeBraced_cons, if_neg (by decide), if_pos rfl, if_pos rfl]

theorem findAfter_cons (pat : Str) (c : Char) (r : Str) :
    findAfter pat (c :: r) =
      if pat.isPrefixOf (c :: r) then some ((c :: r).drop pat.length)
      else findAfter pat r := rfl

theorem mem_take_drop (x : Char) (l : Str) (i j : Nat)
    (h : x ∈ (l.drop i).take j) : x ∈ l.take (i + j) := by
  induction l generalizing i j with
  | nil => simp at h
  | cons a l ih =>
    cases i with
    | zero => simpa using h
    | succ i' =>
      rw [List.drop_succ_cons] at h
      rw [show i' + 1 + j = (i' + j) + 1 by omega, List.take_succ_cons]
      exact List.mem_cons_of_mem a (ih i' j h)

theorem findAfter_first (pat pre tail : Str) (hne : pat ≠ [])
    (hno : ∀ i, i < pre.length →
      pat.isPrefixOf ((pre ++ (pat ++ tail)).drop i) = false) :
    findAfter pat (pre ++ (pat ++ tail)) = some tail := by
  induction pre with
  | nil =>
    rw [List.nil_append]
    obtain ⟨p0, pr, rfl⟩ : ∃ a b, pat = a :: b := by
      cases pat with
      | nil => exact absurd rfl hne
      | cons a b => exact ⟨a, b, rfl⟩
    rw [List.cons_append, findAfter_cons, ← List.cons_append,
      if_pos (List.isPrefixOf_iff_prefix.mpr (List.prefix_append _ _))]
    rw [List.drop_left]
  | cons x xs ih =>
    rw [List.cons_append, findAfter_cons, ← List.cons_append]
    rw [if_neg (by
      rw [show ((x :: xs) ++ (pat ++ tail) : Str) =
        ((x :: xs) ++ (pat ++ tail)).drop 0 from rfl]
      rw [hno 0 (by simp)]
      simp)]
    exact ih (fun i hi => by
      have := hno (i + 1) (by simp only [List.length_cons]; omega)
      rw [List.cons_append, List.drop_succ_cons] at this
      exact this)

theorem no_eq_match (pre tail : Str) (hpre : ∀ c ∈ pre, c ≠ '=') :
    ∀ i, i < pre.length →
      (ofStr "voices=").isPrefixOf
        ((pre ++ (ofStr "voices=" ++ tail)).drop i) = false := by
  intro i hi
  by_contra hmatch
  rw [Bool.not_eq_false] at hmatch
  obtain ⟨t, ht⟩ := List.isPrefixOf_iff_prefix.mp hmatch
  have h7 : '=' ∈ ((pre ++ (ofStr "voices=" ++ tail)).drop i).take 7 := by
    rw [← ht]
    rw [show (7 : Nat) = (ofStr "voices=").length from rfl, List.take_left]
    decide
  have h8 := mem_take_drop '=' _ i 7 h7
  have htake : (pre ++ (ofStr "voices=" ++ tail)).take (i + 7) =
      ((pre ++ (ofStr "voices=" ++ tail)).take (pre.length + 6)).take (i + 7) := by
    rw [List.take_take]
    rw [show min (i + 7) (pre.length + 6) = i + 7 by omega]
  rw [htake] at h8
  have h9 := List.mem_of_mem_take h8
  rw [List.take_append] at h9
  rw [show (ofStr "voices=" ++ tail).take 6 = ofStr "voices" from by
    rw [List.take_append_of_le_length (by decide)]
    rfl] at h9
  rcases List.mem_append.mp h9 with h10 | h10
  · exact hpre '=' h10 rfl
  · exact absurd h10 (by decide)

theorem bracefree_of_clean (s : Str) (h : ∀ c ∈ s, cleanFieldChar c = true) :
    ∀ c ∈ s, c ≠ lbChar ∧ c ≠ rbChar := by
  intro c hc
  obtain ⟨_, _, _, _, h5, h6, _⟩ := cleanFieldChar_spec c (h c hc)
  exact ⟨h5, h6⟩

theorem takeBraced_indObj (v : Voice) (hclean : cleanVoice v = true) (t : Str) :
    takeBraced 1 (indentAfterNl (jsonVoiceObj v) ++ t) =
      indentAfterNl (jsonVoiceObj v) ++ takeBraced 1 t := by
  obtain ⟨hid, hname, hurl⟩ := cleanVoice_spec v hclean
  rw [indObj_decomp v hclean]
  rw [show ofStr "  \x7b\n      \"id\": \"" =
    ofStr "  " ++ (lbChar :: ofStr "\n      \"id\": \"") from rfl]
  rw [show ofStr "\"\n    \x7d" = ofStr "\"\n    " ++ [rbChar] from rfl]
  simp only [List.append_assoc, List.cons_append, List.nil_append]
  rw [takeBraced_bracefree 1 (ofStr "  ") _ (by decide)]
  rw [takeBraced_lb]
  rw [takeBraced_bracefree 2 (ofStr "\n      \"id\": \"") _ (by decide)]
  rw [takeBraced_bracefree 2 v.vid _ (bracefree_of_clean _ hid)]
  rw [takeBraced_bracefree 2 (ofStr "\",\n      \"name\": \"") _ (by decide)]
  rw [takeBraced_bracefree 2 v.vname _ (bracefree_of_clean _ hname)]
  rw [takeBraced_bracefree 2 (ofStr "\",\n      \"url\": \"") _ (by decide)]
  rw [takeBraced_bracefree 2 v.vurl _ (bracefree_of_clean _ hurl)]
  rw [takeBraced_bracefree 2 (ofStr "\"\n    ") _ (by decide)]
  rw [takeBraced_rb 2 t (by decide)]

theorem takeBraced_indObjs (v : Voice) (vs : List Voice)
    (hclean : ∀ w ∈ v :: vs, cleanVoice w = true) (t : Str) :
    takeBraced 1 (indentAfterNl (joinWithStr (ofStr ",\n")
        ((v :: vs).map jsonVoiceObj)) ++ t) =
      indentAfterNl (joinWithStr (ofStr ",\n")
        ((v :: vs).map jsonVoiceObj)) ++ takeBraced 1 t := by
  induction vs generalizing v t with
  | nil =>
    rw [List.map_cons, List.map_nil, joinWithStr_single]
    exact takeBraced_indObj v (hclean v (List.mem_cons_self _ _)) t
  | cons w vs ih =>
    rw [List.map_cons, List.map_cons, joinWithStr_cons₂, ← List.map_cons]
    rw [indentAfterNl_append, indentAfterNl_append]
    rw [show indentAfterNl (ofStr ",\n") = ofStr ",\n  " from rfl]
    simp only [List.append_assoc]
    rw [takeBraced_indObj v (hclean v (List.mem_cons_self _ _))]
    rw [takeBraced_bracefree 1 (ofStr ",\n  ") _ (by decide)]
    rw [ih w (fun u hu => hclean u (List.mem_cons_of_mem _ hu)) t]

theorem takeBraced_json (voices : List Voice) (hne : voices ≠ [])
    (hclean : ∀ w ∈ voices, cleanVoice w = true) (t : Str) :
    takeBraced 1 (reindent2 (jsonStringifyVoices voices) ++ t) =
      reindent2 (jsonStringifyVoices voices) ++ takeBraced 1 t := by
  cases voices with
  | nil => exact absurd rfl hne
  | cons v vs =>
    rw [reindent2_eq]
    unfold jsonStringifyVoices
    dsimp only
    rw [indentAfterNl_append, indentAfterNl_append]
    rw [show indentAfterNl (ofStr "[\n") = ofStr "[\n  " from rfl]
    rw [show indentAfterNl (ofStr "\n]") = ofStr "\n  ]" from rfl]
    simp only [List.append_assoc]
    rw [takeBraced_bracefree 1 (ofStr "[\n  ") _ (by decide)]
    rw [takeBraced_indObjs v vs hclean]
    rw [takeBraced_bracefree 1 (ofStr "\n  ]") _ (by decide)]

theorem jsxTag_component (cn : Str) (voices : List Voice)
    (hcn : ∀ c ∈ cn, (c.isAlpha || c.isDigit) = true) :
    jsxTag (componentCodeOf cn voices) = cn := by
  rw [componentCodeOf_cons]
  unfold jsxTag
  rw [List.drop_one, List.tail_cons]
  simp only [List.append_assoc]
  rw [show ofStr " voices=" = ' ' :: ofStr "voices=" from rfl]
  simp only [List.cons_append]
  rw [takeWhile_append_stop _ cn ' ' _ (by
    intro c hc
    rcases (Bool.or_eq_true _ _).mp (hcn c hc) with ha | hb
    · simp [ha]
    · simp [hb]) (by decide)]

theorem voicesAttrOf_component (cn : Str) (voices : List Voice)
    (hcn : ∀ c ∈ cn, (c.isAlpha || c.isDigit) = true)
    (hclean : ∀ w ∈ voices, cleanVoice w = true) (hne : voices ≠ []) :
    voicesAttrOf (componentCodeOf cn voices) =
      some (.exprA (reindent2 (jsonStringifyVoices voices))) := by
  have hdecomp : componentCodeOf cn voices =
      ('<' :: (cn ++ [' '])) ++ (ofStr "voices=" ++
        (lbChar :: (reindent2 (jsonStringifyVoices voices) ++
          (rbChar :: ofStr " />")))) := by
    rw [componentCodeOf_cons]
    rw [show ofStr " voices=" = ' ' :: ofStr "voices=" from rfl]
    simp [List.append_assoc, List.cons_append]
  unfold voicesAttrOf
  rw [hdecomp]
  rw [findAfter_first (ofStr "voices=") ('<' :: (cn ++ [' '])) _ (by decide)
    (no_eq_match _ _ (by
      intro c hc
      rcases List.mem_cons.mp hc with h | h
      · subst h; decide
      · rcases List.mem_append.mp h with h | h
        · intro he
          subst he
          exact absurd (hcn '=' h) (by decide)
        · rw [List.mem_singleton] at h
          subst h
          decide))]
  dsimp only
  rw [if_neg (by decide), if_pos rfl]
  rw [takeBraced_json voices hne hclean (rbChar :: ofStr " />")]
  rw [takeBraced_rb_one, List.append_nil]

theorem alnum_spec (c : Char) (h : (c.isAlpha || c.isDigit) = true) :
    c ≠ '<' ∧ c ≠ '>' ∧ c ≠ nlChar ∧ c ≠ lbChar ∧ c ≠ rbChar ∧ c ≠ '/' ∧
    isWsChar c = false := by
  refine ⟨?_, ?_, ?_, ?_, ?_, ?_, ?_⟩
  · intro he; subst he; exact absurd h (by decide)
  · intro he; subst he; exact absurd h (by decide)
  · intro he; subst he; exact absurd h (by decide)
  · intro he; subst he; exact absurd h (by decide)
  · intro he; subst he; exact absurd h (by decide)
  · intro he; subst he; exact absurd h (by decide)
  · by_contra hw
    rw [Bool.not_eq_false] at hw
    simp only [isWsChar, Bool.or_eq_true, decide_eq_true_eq] at hw
    rcases hw with ((((h1 | h1) | h1) | h1) | h1) | h1 <;>
      (subst h1; exact absurd h (by decide))

theorem hex_spec (c : Char) (h : isLowerHexChar c = true) :
    c ≠ lbChar ∧ c ≠ rbChar ∧ c ≠ nlChar ∧ c ≠ '<' ∧ c ≠ '>' := by
  refine ⟨?_, ?_, ?_, ?_, ?_⟩ <;>
    (intro he; subst he; exact absurd h (by decide))

theorem isPrefixOf_cons₂ (a b : Char) (as bs : List Char) :
    (a :: as).isPrefixOf (b :: bs) = (a == b && as.isPrefixOf bs) := rfl

theorem isBlankLine_cons_false (c : Char) (r : Str) (h : isWsChar c = false) :
    isBlankLine (c :: r) = false := by
  have hne : jsTrim (c :: r) ≠ [] := by
    unfold jsTrim
    rw [List.dropWhile_cons, h]
    simp only [Bool.false_eq_true, if_false]
    intro hcon
    rw [List.reverse_eq_nil_iff] at hcon
    have hall := List.dropWhile_eq_nil_iff.mp hcon
    have hc := hall c (by simp)
    rw [h] at hc
    exact Bool.false_ne_true hc
  simp only [isBlankLine]
  simpa using hne

theorem isFenceLine_cons_false (c : Char) (r : Str) (h : c ≠ '`') :
    isFenceLine (c :: r) = false := by
  unfold isFenceLine
  rw [show ofStr "```" = '`' :: ofStr "``" from rfl, isPrefixOf_cons₂]
  simp [Ne.symm h]

theorem isEsmLine_cons_false (c : Char) (r : Str) (hi : c ≠ 'i')
    (he : c ≠ 'e') : isEsmLine (c :: r) = false := by
  unfold isEsmLine
  rw [show ofStr "import " = 'i' :: ofStr "mport " from rfl,
    show ofStr "export " = 'e' :: ofStr "xport " from rfl,
    isPrefixOf_cons₂, isPrefixOf_cons₂]
  simp [Ne.symm hi, Ne.symm he]

theorem isExprLine_cons (c : Char) (r : Str) :
    isExprLine (c :: r) = decide (c = lbChar) := rfl

theorem stepTop_blank (acc : List MdxNode) (n : Nat) :
    stepTop acc n [] = ⟨.top, acc, n + 1⟩ := rfl

theorem stepTop_import (acc : List MdxNode) (n : Nat) (cn cimp : Str) :
    stepTop acc n (importStatementOf cn cimp) =
      ⟨.top, acc ++ [.esmN (importStatementOf cn cimp) n n], n + 1⟩ := by
  rw [importStatementOf_cons]
  unfold stepTop
  rw [isBlankLine_cons_false _ _ (by decide),
    isFenceLine_cons_false _ _ (by decide)]
  rw [show isEsmLine ('i' :: (ofStr "mport \x7b " ++ cn ++
    ofStr " \x7d from '" ++ cimp ++ ofStr "';")) = true from by
      unfold isEsmLine
      rw [show ofStr "import " = 'i' :: ofStr "mport " from rfl,
        isPrefixOf_cons₂]
      rw [show ofStr "mport \x7b " ++ cn ++ ofStr " \x7d from '" ++ cimp ++
        ofStr "';" = ofStr "mport " ++ (ofStr "\x7b " ++ cn ++
          ofStr " \x7d from '" ++ cimp ++ ofStr "';") from by
        rw [show ofStr "mport \x7b " =
          ofStr "mport " ++ ofStr "\x7b " from rfl]
        simp [List.append_assoc]]
      rw [show ((ofStr "mport ").isPrefixOf (ofStr "mport " ++
        (ofStr "\x7b " ++ cn ++ ofStr " \x7d from '" ++ cimp ++ ofStr "';")))
        = true from
        List.isPrefixOf_iff_prefix.mpr (List.prefix_append _ _)]
      simp]
  simp

theorem countChar_cons_self (c : Char) (l : Str) :
    countChar c (c :: l) = countChar c l + 1 := by
  simp [countChar, List.filter_cons]

theorem countChar_cons_ne (c x : Char) (l : Str) (h : x ≠ c) :
    countChar c (x :: l) = countChar c l := by
  simp [countChar, List.filter_cons, h]

theorem countChar_append (c : Char) (a b : Str) :
    countChar c (a ++ b) = countChar c a + countChar c b := by
  simp [countChar, List.filter_append]

theorem countChar_zero (c : Char) (l : Str) (h : ∀ x ∈ l, x ≠ c) :
    countChar c l = 0 := by
  induction l with
  | nil => rfl
  | cons x r ih =>
    rw [countChar_cons_ne c x r (h x (List.mem_cons_self _ _))]
    exact ih (fun y hy => h y (List.mem_cons_of_mem _ hy))

theorem exprInner_lb (X : Str) : exprInner (lbChar :: X) = takeBraced 1 X :=
  rfl

theorem takeBraced_hashInner (fp : Str)
    (hhex : ∀ c ∈ fp, isLowerHexChar c = true) :
    takeBraced 1 (ofStr "/* speak-mintlify-hash: " ++ (fp ++ ofStr " */\x7d")) =
      ofStr "/* speak-mintlify-hash: " ++ (fp ++ ofStr " */") := by
  rw [show ofStr " */\x7d" = ofStr " */" ++ [rbChar] from rfl]
  rw [takeBraced_bracefree 1 (ofStr "/* speak-mintlify-hash: ") _ (by decide)]
  rw [takeBraced_bracefree 1 fp _ (fun c hc =>
    ⟨(hex_spec c (hhex c hc)).1, (hex_spec c (hhex c hc)).2.1⟩)]
  rw [takeBraced_bracefree 1 (ofStr " */") _ (by decide)]
  rw [show takeBraced 1 [rbChar] = [] from takeBraced_rb_one []]
  simp

theorem stepTop_hashComment (acc : List MdxNode) (n : Nat) (fp : Str)
    (hhex : ∀ c ∈ fp, isLowerHexChar c = true) :
    stepTop acc n (hashCommentLine fp) =
      ⟨.top, acc ++ [.exprN (ofStr "/* speak-mintlify-hash: " ++
        (fp ++ ofStr " */")) n n], n + 1⟩ := by
  rw [hashCommentLine_cons]
  unfold stepTop
  rw [isBlankLine_cons_false _ _ (by decide),
    isFenceLine_cons_false _ _ (by decide),
    isEsmLine_cons_false _ _ (by decide) (by decide)]
  rw [isExprLine_cons]
  rw [show (decide (lbChar = lbChar)) = true from by simp]
  simp only [Bool.false_eq_true, if_false, if_true]
  have hcl : countChar lbChar (lbChar :: (ofStr "/* speak-mintlify-hash: " ++
      (fp ++ ofStr " */\x7d"))) = 1 := by
    rw [countChar_cons_self, countChar_append, countChar_append]
    rw [show countChar lbChar (ofStr "/* speak-mintlify-hash: ") = 0 from
      by decide]
    rw [show countChar lbChar (ofStr " */\x7d") = 0 from by decide]
    rw [countChar_zero lbChar fp (fun c hc => (hex_spec c (hhex c hc)).1)]
  have hcr : countChar rbChar (lbChar :: (ofStr "/* speak-mintlify-hash: " ++
      (fp ++ ofStr " */\x7d"))) = 1 := by
    rw [countChar_cons_ne _ _ _ (by decide), countChar_append, countChar_append]
    rw [show countChar rbChar (ofStr "/* speak-mintlify-hash: ") = 0 from
      by decide]
    rw [show countChar rbChar (ofStr " */\x7d") = 1 from by decide]
    rw [countChar_zero rbChar fp (fun c hc => (hex_spec c (hhex c hc)).2.1)]
  rw [hcl, hcr]
  rw [if_pos (le_refl 1)]
  rw [show exprInner (lbChar :: (ofStr "/* speak-mintlify-hash: " ++
      (fp ++ ofStr " */\x7d"))) =
    takeBraced 1 (ofStr "/* speak-mintlify-hash: " ++ (fp ++ ofStr " */\x7d"))
    from rfl]
  rw [takeBraced_hashInner fp hhex]

theorem walkStep_hashNode (cn fp : Str) (st : Option Str × List Voice)
    (s e : Nat) (hne : fp ≠ [])
    (hhex : ∀ c ∈ fp, isLowerHexChar c = true) :
    walkStep cn st (.exprN (ofStr "/* speak-mintlify-hash: " ++
      (fp ++ ofStr " */")) s e) = (some fp, st.2) := by
  simp only [walkStep]
  rw [findHashMatch_comment fp hne hhex]

theorem walkStep_component (cn : Str) (voices : List Voice)
    (st : Option Str × List Voice) (s e : Nat)
    (hcn : ∀ c ∈ cn, (c.isAlpha || c.isDigit) = true)
    (hclean : ∀ w ∈ voices, cleanVoice w = true) (hne : voices ≠ []) :
    walkStep cn st (.jsxN (componentCodeOf cn voices) s e) = (st.1, voices) := by
  simp only [walkStep]
  rw [jsxTag_component cn voices hcn, if_pos rfl]
  rw [voicesAttrOf_component cn voices hcn hclean hne]
  dsimp only
  rw [if_neg (by simp)]
  rw [parseVoicesJson_roundtrip voices hne hclean]

theorem jsxCloses_false_of_no_angle (l : Str)
    (h : ∀ c ∈ l, c ≠ '<' ∧ c ≠ '>') : jsxCloses l = false := by
  unfold jsxCloses
  have h1 : containsStr l (ofStr "/>") = false := by
    by_contra hx
    rw [Bool.not_eq_false] at hx
    have hinf := (containsStr_infix_iff _ _).mp hx
    exact (h '>' (hinf.subset (by decide))).2 rfl
  have h2 : containsStr l (ofStr "</") = false := by
    by_contra hx
    rw [Bool.not_eq_false] at hx
    have hinf := (containsStr_infix_iff _ _).mp hx
    exact (h '<' (hinf.subset (by decide))).1 rfl
  rw [h1, h2]
  rfl

theorem indObj_no_angle (v : Voice) (hclean : cleanVoice v = true) :
    ∀ c ∈ indentAfterNl (jsonVoiceObj v), c ≠ '<' ∧ c ≠ '>' := by
  obtain ⟨hid, hname, hurl⟩ := cleanVoice_spec v hclean
  rw [indObj_decomp v hclean]
  intro c hc
  simp only [List.mem_append] at hc
  rcases hc with h | h | h | h | h | h | h
  · exact ⟨by intro he; subst he; exact absurd h (by decide),
      by intro he; subst he; exact absurd h (by decide)⟩
  · obtain ⟨_, _, h3, h4, _⟩ := cleanFieldChar_spec c (hid c h)
    exact ⟨h3, h4⟩
  · exact ⟨by intro he; subst he; exact absurd h (by decide),
      by intro he; subst he; exact absurd h (by decide)⟩
  · obtain ⟨_, _, h3, h4, _⟩ := cleanFieldChar_spec c (hname c h)
    exact ⟨h3, h4⟩
  · exact ⟨by intro he; subst he; exact absurd h (by decide),
      by intro he; subst he; exact absurd h (by decide)⟩
  · obtain ⟨_, _, h3, h4, _⟩ := cleanFieldChar_spec c (hurl c h)
    exact ⟨h3, h4⟩
  · exact ⟨by intro he; subst he; exact absurd h (by decide),
      by intro he; subst he; exact absurd h (by decide)⟩

theorem indObjs_no_angle (v : Voice) (vs : List Voice)
    (hclean : ∀ w ∈ v :: vs, cleanVoice w = true) :
    ∀ c ∈ indentAfterNl (joinWithStr (ofStr ",\n")
      ((v :: vs).map jsonVoiceObj)), c ≠ '<' ∧ c ≠ '>' := by
  induction vs generalizing v with
  | nil =>
    rw [List.map_cons, List.map_nil, joinWithStr_single]
    exact indObj_no_angle v (hclean v (List.mem_cons_self _ _))
  | cons w vs ih =>
    rw [List.map_cons, List.map_cons, joinWithStr_cons₂, ← List.map_cons]
    rw [indentAfterNl_append, indentAfterNl_append]
    rw [show indentAfterNl (ofStr ",\n") = ofStr ",\n  " from rfl]
    intro c hc
    simp only [List.mem_append] at hc
    rcases hc with h | h | h
    · exact indObj_no_angle v (hclean v (List.mem_cons_self _ _)) c h
    · exact ⟨by intro he; subst he; exact absurd h (by decide),
        by intro he; subst he; exact absurd h (by decide)⟩
    · exact ih w (fun u hu => hclean u (List.mem_cons_of_mem _ hu)) c h

theorem pFold_inJsx_noClose (ms : List Str) (buf : List Str) (s : Nat)
    (acc : List MdxNode) (n : Nat) (h : ∀ m ∈ ms, jsxCloses m = false) :
    pFold ms ⟨.inJsx buf s, acc, n⟩ =
      ⟨.inJsx (buf ++ ms) s, acc, n + ms.length⟩ := by
  induction ms generalizing buf n with
  | nil => simp [pFold]
  | cons m ms ih =>
    show pFold ms (pStep ⟨.inJsx buf s, acc, n⟩ m) = _
    rw [show pStep ⟨.inJsx buf s, acc, n⟩ m =
      ⟨.inJsx (buf ++ [m]) s, acc, n + 1⟩ from by
        simp only [pStep]
        rw [h m (List.mem_cons_self _ _)]
        simp]
    rw [ih (buf ++ [m]) (n + 1) (fun x hx => h x (List.mem_cons_of_mem _ hx))]
    simp only [List.length_cons, List.append_assoc, List.singleton_append]
    rw [show n + 1 + ms.length = n + (ms.length + 1) by omega]

theorem pFold_append (a b : List Str) (st : PState) :
    pFold (a ++ b) st = pFold b (pFold a st) :=
  List.foldl_append _ _ _ _

theorem pFold_componentCode (u : Char) (cn' : Str) (voices : List Voice)
    (acc : List MdxNode) (n : Nat)
    (hup : isUpperChar u = true)
    (halnum : ∀ c ∈ u :: cn', (c.isAlpha || c.isDigit) = true)
    (hclean : ∀ w ∈ voices, cleanVoice w = true) (hne : voices ≠ []) :
    pFold (splitNl (componentCodeOf (u :: cn') voices)) ⟨.top, acc, n⟩ =
      ⟨.top, acc ++ [.jsxN (componentCodeOf (u :: cn') voices) n
        (n + (splitNl (componentCodeOf (u :: cn') voices)).length - 1)],
       n + (splitNl (componentCodeOf (u :: cn') voices)).length⟩ := by
  obtain ⟨v, vs, rfl⟩ : ∃ a b, voices = a :: b := by
    cases voices with
    | nil => exact absurd rfl hne
    | cons a b => exact ⟨a, b, rfl⟩
  have hR : reindent2 (jsonStringifyVoices (v :: vs)) =
      ('[' :: nlChar :: ofStr "  ") ++
        (indentAfterNl (joinWithStr (ofStr ",\n")
          ((v :: vs).map jsonVoiceObj)) ++ (nlChar :: ofStr "  ]")) := by
    rw [reindent2_eq]
    unfold jsonStringifyVoices
    dsimp only
    rw [indentAfterNl_append, indentAfterNl_append]
    rw [show indentAfterNl (ofStr "[\n") = ofStr "[\n  " from rfl]
    rw [show indentAfterNl (ofStr "\n]") = ofStr "\n  ]" from rfl]
    rw [show ofStr "[\n  " = '[' :: nlChar :: ofStr "  " from rfl]
    rw [show ofStr "\n  ]" = nlChar :: ofStr "  ]" from rfl]
    simp [List.append_assoc]
  have hcc : componentCodeOf (u :: cn') (v :: vs) =
      ('<' :: ((u :: cn') ++ (ofStr " voices=" ++ [lbChar, '[']))) ++
        (nlChar :: (ofStr "  " ++
          (indentAfterNl (joinWithStr (ofStr ",\n")
            ((v :: vs).map jsonVoiceObj)) ++
              (nlChar :: (ofStr "  ]" ++ (rbChar :: ofStr " />")))))) := by
    rw [componentCodeOf_cons, hR]
    simp [List.append_assoc, List.cons_append]
  have hmidfree : ∀ c ∈ ofStr "  " ++
      indentAfterNl (joinWithStr (ofStr ",\n") ((v :: vs).map jsonVoiceObj)),
      c ≠ '<' ∧ c ≠ '>' := by
    intro c hc
    rcases List.mem_append.mp hc with h | h
    · exact ⟨by intro he; subst he; exact absurd h (by decide),
        by intro he; subst he; exact absurd h (by decide)⟩
    · exact indObjs_no_angle v vs hclean c h
  have hsplit : splitNl (componentCodeOf (u :: cn') (v :: vs)) =
      ('<' :: ((u :: cn') ++ (ofStr " voices=" ++ [lbChar, '[']))) ::
        (splitNl (ofStr "  " ++
          indentAfterNl (joinWithStr (ofStr ",\n")
            ((v :: vs).map jsonVoiceObj))) ++ [ofStr "  ]\x7d />"]) := by
    rw [hcc]
    rw [splitNl_append_nl]
    rw [splitNl_nlfree ('<' :: ((u :: cn') ++
      (ofStr " voices=" ++ [lbChar, '[']))) ?_]
    · rw [show (ofStr "  " ++
        (indentAfterNl (joinWithStr (ofStr ",\n")
          ((v :: vs).map jsonVoiceObj)) ++
            (nlChar :: (ofStr "  ]" ++ (rbChar :: ofStr " />"))))) =
        (ofStr "  " ++ indentAfterNl (joinWithStr (ofStr ",\n")
          ((v :: vs).map jsonVoiceObj))) ++
            (nlChar :: (ofStr "  ]" ++ (rbChar :: ofStr " />"))) from by
        simp [List.append_assoc]]
      rw [splitNl_append_nl]
      rw [show splitNl (ofStr "  ]" ++ (rbChar :: ofStr " />")) =
        [ofStr "  ]\x7d />"] from by decide]
      simp
    · intro c hc
      rcases List.mem_cons.mp hc with h | h
      · subst h; decide
      · rcases List.mem_append.mp h with h | h
        · exact (alnum_spec c (halnum c h)).2.2.1
        · rcases List.mem_append.mp h with h | h
          · intro he
            subst he
            exact absurd h (by decide)
          · intro he
            subst he
            exact absurd h (by decide)
  have hmidclose : ∀ m ∈ splitNl (ofStr "  " ++
      indentAfterNl (joinWithStr (ofStr ",\n")
        ((v :: vs).map jsonVoiceObj))), jsxCloses m = false :=
    fun m hm => jsxCloses_false_of_no_angle m (fun c hc =>
      hmidfree c ((mem_splitNl_infix_whole _ m hm).subset hc))
  have hstepP0 : pStep ⟨.top, acc, n⟩
      ('<' :: ((u :: cn') ++ (ofStr " voices=" ++ [lbChar, '[']))) =
      ⟨.inJsx ['<' :: ((u :: cn') ++ (ofStr " voices=" ++ [lbChar, '[']))] n,
        acc, n + 1⟩ := by
    have hP0c1 : containsStr ('<' :: ((u :: cn') ++
        (ofStr " voices=" ++ [lbChar, '[']))) (ofStr "/>") = false := by
      by_contra hx
      rw [Bool.not_eq_false] at hx
      have hinf := (containsStr_infix_iff _ _).mp hx
      have hm : '>' ∈ '<' :: ((u :: cn') ++
          (ofStr " voices=" ++ [lbChar, '['])) := hinf.subset (by decide)
      rcases List.mem_cons.mp hm with h | h
      · exact absurd h.symm (by decide)
      · rcases List.mem_append.mp h with h | h
        · exact (alnum_spec '>' (halnum '>' h)).2.1 rfl
        · rcases List.mem_append.mp h with h | h
          · exact absurd h (by decide)
          · exact absurd h (by decide)
    have hP0c2 : containsStr ('<' :: ((u :: cn') ++
        (ofStr " voices=" ++ [lbChar, '[']))) (ofStr "</") = false := by
      by_contra hx
      rw [Bool.not_eq_false] at hx
      have hinf := (containsStr_infix_iff _ _).mp hx
      rcases List.infix_cons_iff.mp hinf with h | h
      · rw [show ofStr "</" = '<' :: ['/'] from rfl] at h
        obtain ⟨-, h2⟩ := List.cons_prefix_cons.mp h
        rw [show ((u :: cn') ++ (ofStr " voices=" ++ [lbChar, '['])) =
          u :: (cn' ++ (ofStr " voices=" ++ [lbChar, '['])) from rfl] at h2
        obtain ⟨h3, -⟩ := List.cons_prefix_cons.mp h2
        exact (alnum_spec u (halnum u (List.mem_cons_self _ _))).2.2.2.2.2.1
          h3.symm
      · have hm : '<' ∈ (u :: cn') ++ (ofStr " voices=" ++ [lbChar, '[']) :=
          h.subset (by decide)
        rcases List.mem_append.mp hm with h | h
        · exact (alnum_spec '<' (halnum '<' h)).1 rfl
        · rcases List.mem_append.mp h with h | h
          · exact absurd h (by decide)
          · exact absurd h (by decide)
    show stepTop acc n _ = _
    unfold stepTop
    rw [isBlankLine_cons_false _ _ (by decide),
      isFenceLine_cons_false _ _ (by decide),
      isEsmLine_cons_false _ _ (by decide) (by decide)]
    rw [isExprLine_cons, show (decide (('<' : Char) = lbChar)) = false from
      by decide]
    rw [show isJsxLine ('<' :: ((u :: cn') ++
        (ofStr " voices=" ++ [lbChar, '[']))) = true from by
      show (decide ('<' = '<') && isUpperChar u) = true
      rw [hup]
      rfl]
    rw [show jsxCloses ('<' :: ((u :: cn') ++
        (ofStr " voices=" ++ [lbChar, '[']))) = false from by
      unfold jsxCloses
      rw [hP0c1, hP0c2]
      rfl]
    simp
  conv_lhs => rw [hsplit]
  show pFold ((splitNl (ofStr "  " ++
      indentAfterNl (joinWithStr (ofStr ",\n")
        ((v :: vs).map jsonVoiceObj))) ++ [ofStr "  ]\x7d />"]))
    (pStep ⟨.top, acc, n⟩
      ('<' :: ((u :: cn') ++ (ofStr " voices=" ++ [lbChar, '['])))) = _
  rw [hstepP0]
  rw [pFold_append]
  rw [pFold_inJsx_noClose _ _ n acc (n + 1) hmidclose]
  show pStep ⟨.inJsx (['<' :: ((u :: cn') ++
      (ofStr " voices=" ++ [lbChar, '[']))] ++
        splitNl (ofStr "  " ++ indentAfterNl (joinWithStr (ofStr ",\n")
          ((v :: vs).map jsonVoiceObj)))) n, acc,
      n + 1 + (splitNl (ofStr "  " ++
        indentAfterNl (joinWithStr (ofStr ",\n")
          ((v :: vs).map jsonVoiceObj)))).length⟩ (ofStr "  ]\x7d />") = _
  simp only [pStep]
  rw [show jsxCloses (ofStr "  ]\x7d />") = true from by decide]
  simp only [if_true]
  have hjoin : joinNl ((['<' :: ((u :: cn') ++
      (ofStr " voices=" ++ [lbChar, '[']))] ++
        splitNl (ofStr "  " ++ indentAfterNl (joinWithStr (ofStr ",\n")
          ((v :: vs).map jsonVoiceObj)))) ++ [ofStr "  ]\x7d />"]) =
      componentCodeOf (u :: cn') (v :: vs) := by
    rw [List.append_assoc, List.singleton_append, ← hsplit, joinNl_splitNl]
  rw [hjoin]
  have hlen : (splitNl (componentCodeOf (u :: cn') (v :: vs))).length =
      (splitNl (ofStr "  " ++ indentAfterNl (joinWithStr (ofStr ",\n")
        ((v :: vs).map jsonVoiceObj)))).length + 2 := by
    rw [hsplit]
    simp
  rw [hlen]
  rw [show n + ((splitNl (ofStr "  " ++
      indentAfterNl (joinWithStr (ofStr ",\n")
        ((v :: vs).map jsonVoiceObj)))).length + 2) - 1 =
    n + 1 + (splitNl (ofStr "  " ++
      indentAfterNl (joinWithStr (ofStr ",\n")
        ((v :: vs).map jsonVoiceObj)))).length by omega]
  rw [show n + ((splitNl (ofStr "  " ++
      indentAfterNl (joinWithStr (ofStr ",\n")
        ((v :: vs).map jsonVoiceObj)))).length + 2) =
    n + 1 + (splitNl (ofStr "  " ++
      indentAfterNl (joinWithStr (ofStr ",\n")
        ((v :: vs).map jsonVoiceObj)))).length + 1 by omega]

theorem pFinalize_delta (M : PMode) (A : List MdxNode) (N : Nat) :
    pFinalize ⟨M, A, N⟩ = (pFinDelta M N).map (fun d => A ++ d) := by
  cases M <;> simp [pFinalize, pFinDelta, Except.map]

theorem pFinDelta_shift (M : PMode) (N k : Nat) (hN : 1 ≤ N) :
    pFinDelta (shiftMode k M) (N + k) =
      (pFinDelta M N).map (List.map (shiftNode k)) := by
  cases M with
  | top => rfl
  | inPara buf s =>
    simp only [pFinDelta, shiftMode, Except.map, List.map_cons, List.map_nil,
      shiftNode]
    rw [show N + k - 1 = N - 1 + k by omega]
  | inFence buf s =>
    simp only [pFinDelta, shiftMode, Except.map, List.map_cons, List.map_nil,
      shiftNode]
    rw [show N + k - 1 = N - 1 + k by omega]
  | inExpr buf d s => rfl
  | inJsx buf s => rfl

theorem pFold_blanks (m : Nat) (acc : List MdxNode) (n : Nat) :
    pFold (List.replicate m []) ⟨.top, acc, n⟩ = ⟨.top, acc, n + m⟩ := by
  induction m generalizing n with
  | zero => rfl
  | succ m ih =>
    rw [List.replicate_succ]
    show pFold (List.replicate m []) (pStep ⟨.top, acc, n⟩ []) = _
    rw [show pStep ⟨PMode.top, acc, n⟩ [] = ⟨.top, acc, n + 1⟩ from rfl]
    rw [ih (n + 1)]
    rw [show n + 1 + m = n + (m + 1) by omega]

theorem pFold_top_form (ls : List Str) (n : Nat)
    (hmode : (pFold ls ⟨.top, [], n⟩).mode = .top) :
    pFold ls ⟨.top, [], n⟩ =
      ⟨.top, (pFold ls ⟨.top, [], n⟩).acc, n + ls.length⟩ := by
  have h1 := pFold_lineNo ls ⟨.top, [], n⟩
  simp only at h1
  rw [show pFold ls ⟨PMode.top, [], n⟩ =
    ⟨(pFold ls ⟨PMode.top, [], n⟩).mode, (pFold ls ⟨PMode.top, [], n⟩).acc,
      (pFold ls ⟨PMode.top, [], n⟩).lineNo⟩ from rfl]
  rw [hmode, h1]

theorem filter_keep_shift (k : Nat) (l : List MdxNode) :
    ((l.map (shiftNode k)).filter keepAfterRemoval).filterMap nodeText =
      (l.filter keepAfterRemoval).filterMap nodeText := by
  induction l with
  | nil => rfl
  | cons x xs ih =>
    simp only [List.map_cons, List.filter_cons, keepAfterRemoval_shift]
    cases hk : keepAfterRemoval x with
    | false => simpa using ih
    | true =>
      simp only [if_true]
      rw [List.filterMap_cons, List.filterMap_cons, nodeText_shift]
      cases nodeText x <;> simp [ih]

theorem pFold_append_eq (a b : List Str) (st st1 st2 : PState)
    (h1 : pFold a st = st1) (h2 : pFold b st1 = st2) :
    pFold (a ++ b) st = st2 := by
  rw [pFold_append, h1, h2]

theorem pFold_shift_top (ls : List Str) (a : List MdxNode) (n k : Nat)
    (hn : 1 ≤ n) (hmode : (pFold ls ⟨.top, [], n⟩).mode = .top) :
    pFold ls ⟨.top, a, n + k⟩ =
      ⟨.top, a ++ ((pFold ls ⟨.top, [], n⟩).acc).map (shiftNode k),
        (pFold ls ⟨.top, [], n⟩).lineNo + k⟩ := by
  rw [show (⟨PMode.top, a, n + k⟩ : PState) =
    ⟨shiftMode k .top, a, n + k⟩ from rfl]
  rw [pFold_shift ls .top a n k hn]
  rw [hmode]
  rfl

theorem pFinalize_delta' (st : PState) :
    pFinalize st = (pFinDelta st.mode st.lineNo).map (fun d => st.acc ++ d) := by
  obtain ⟨m, a, n⟩ := st
  exact pFinalize_delta m a n

theorem parseFrom_of_fold (ls : List Str) (k : Nat) (st : PState)
    (h : pFold ls ⟨.top, [], k⟩ = st) :
    parseFrom ls k =
      (pFinDelta st.mode st.lineNo).map (fun d => st.acc ++ d) := by
  unfold parseFrom
  rw [show List.foldl pStep ⟨PMode.top, [], k⟩ ls =
    pFold ls ⟨.top, [], k⟩ from rfl, h]
  exact pFinalize_delta' st

theorem parse_inject_body
    (body : List Str) (startL : Nat) (hstart : 1 ≤ startL)
    (ms : List MdxNode) (hparse : parseFrom body startL = .ok ms)
    (bp bq : Nat) (hbpq : bp ≤ bq) (hbq : bq ≤ body.length)
    (hb1 : (pFold (body.take bp) ⟨.top, [], startL⟩).mode = .top)
    (hb2 : (pFold (body.take bq) ⟨.top, [], startL⟩).mode = .top)
    (u : Char) (cn' cimp fp : Str) (voices : List Voice) (m : Nat)
    (hup : isUpperChar u = true)
    (halnum : ∀ c ∈ u :: cn', (c.isAlpha || c.isDigit) = true)
    (hclean : ∀ w ∈ voices, cleanVoice w = true) (hvne : voices ≠ [])
    (hfpne : fp ≠ []) (hfphex : ∀ c ∈ fp, isLowerHexChar c = true)
    (hidle : ∀ x ∈ ms, nodeIdle (u :: cn') x = true) :
    ∃ ms',
      parseFrom (body.take bp ++ ([importStatementOf (u :: cn') cimp] ++
        ((body.drop bp).take (bq - bp) ++ ([hashCommentLine fp] ++
        (splitNl (componentCodeOf (u :: cn') voices) ++
        (List.replicate m [] ++ body.drop bq)))))) startL = .ok ms' ∧
      ms'.foldl (walkStep (u :: cn')) (none, []) = (some fp, voices) ∧
      (ms'.filter keepAfterRemoval).filterMap nodeText =
        (ms.filter keepAfterRemoval).filterMap nodeText := by
  obtain ⟨v0, vrest, rfl⟩ : ∃ a b, voices = a :: b := by
    cases voices with
    | nil => exact absurd rfl hvne
    | cons a b => exact ⟨a, b, rfl⟩
  have hlenA : (body.take bp).length = bp := by
    rw [List.length_take]
    omega
  have hlenM : ((body.drop bp).take (bq - bp)).length = bq - bp := by
    rw [List.length_take, List.length_drop]
    omega
  have htakeq : body.take bq =
      body.take bp ++ (body.drop bp).take (bq - bp) := by
    conv_lhs => rw [show bq = bp + (bq - bp) by omega]
    rw [List.take_add]
  have hbody : body = body.take bp ++ ((body.drop bp).take (bq - bp) ++
      body.drop bq) := by
    conv_lhs => rw [← List.take_append_drop bq body]
    rw [htakeq, List.append_assoc]
  have hS1 : pFold (body.take bp) ⟨.top, [], startL⟩ =
      ⟨.top, (pFold (body.take bp) ⟨.top, [], startL⟩).acc, startL + bp⟩ := by
    rw [pFold_top_form _ _ hb1, hlenA]
  have hb2' : (pFold ((body.drop bp).take (bq - bp))
      ⟨.top, [], startL + bp⟩).mode = .top := by
    rw [htakeq, pFold_append, hS1, pFold_acc] at hb2
    exact hb2
  have hl2 : (pFold ((body.drop bp).take (bq - bp))
      ⟨.top, [], startL + bp⟩).lineNo = startL + bq := by
    rw [pFold_lineNo]
    show startL + bp + ((body.drop bp).take (bq - bp)).length = startL + bq
    rw [hlenM]
    omega
  have hbase2 : pFold ((body.drop bp).take (bq - bp))
      ⟨.top, [], startL + bp⟩ =
      ⟨.top, (pFold ((body.drop bp).take (bq - bp))
        ⟨.top, [], startL + bp⟩).acc, startL + bq⟩ := by
    rw [pFold_top_form _ _ hb2', hlenM]
    rw [show startL + bp + (bq - bp) = startL + bq by omega]
  have hlineNo3 : (pFold (body.drop bq) ⟨.top, [], startL + bq⟩).lineNo =
      startL + body.length := by
    rw [pFold_lineNo]
    show startL + bq + (body.drop bq).length = startL + body.length
    rw [List.length_drop]
    omega
  have horigM : pFold ((body.drop bp).take (bq - bp))
      ⟨.top, (pFold (body.take bp) ⟨.top, [], startL⟩).acc, startL + bp⟩ =
      ⟨.top, (pFold (body.take bp) ⟨.top, [], startL⟩).acc ++
        (pFold ((body.drop bp).take (bq - bp))
          ⟨.top, [], startL + bp⟩).acc, startL + bq⟩ := by
    rw [pFold_acc, hb2', hl2]
  have horigS : pFold (body.drop bq)
      ⟨.top, (pFold (body.take bp) ⟨.top, [], startL⟩).acc ++
        (pFold ((body.drop bp).take (bq - bp))
          ⟨.top, [], startL + bp⟩).acc, startL + bq⟩ =
      ⟨(pFold (body.drop bq) ⟨.top, [], startL + bq⟩).mode,
       ((pFold (body.take bp) ⟨.top, [], startL⟩).acc ++
        (pFold ((body.drop bp).take (bq - bp))
          ⟨.top, [], startL + bp⟩).acc) ++
        (pFold (body.drop bq) ⟨.top, [], startL + bq⟩).acc,
       (pFold (body.drop bq) ⟨.top, [], startL + bq⟩).lineNo⟩ :=
    pFold_acc _ _ _ _
  have horig : pFold body ⟨.top, [], startL⟩ =
      ⟨(pFold (body.drop bq) ⟨.top, [], startL + bq⟩).mode,
       ((pFold (body.take bp) ⟨.top, [], startL⟩).acc ++
        (pFold ((body.drop bp).take (bq - bp))
          ⟨.top, [], startL + bp⟩).acc) ++
        (pFold (body.drop bq) ⟨.top, [], startL + bq⟩).acc,
       (pFold (body.drop bq) ⟨.top, [], startL + bq⟩).lineNo⟩ := by
    conv_lhs => rw [hbody]
    exact pFold_append_eq _ _ _ _ _ hS1
      (pFold_append_eq _ _ _ _ _ horigM horigS)
  rw [parseFrom_of_fold body startL _ horig] at hparse
  simp only at hparse
  rw [hlineNo3] at hparse
  cases hdelta : pFinDelta
      (pFold (body.drop bq) ⟨.top, [], startL + bq⟩).mode
      (startL + body.length) with
  | error e =>
    rw [hdelta] at hparse
    simp [Except.map] at hparse
  | ok dfin =>
    rw [hdelta] at hparse
    simp only [Except.map, Except.ok.injEq] at hparse
    have hidle1 : ∀ x ∈ (pFold (body.take bp) ⟨.top, [], startL⟩).acc,
        nodeIdle (u :: cn') x = true := by
      intro x hx
      exact hidle x (by rw [← hparse]; simp [hx])
    have hidle2 : ∀ x ∈ (pFold ((body.drop bp).take (bq - bp))
        ⟨.top, [], startL + bp⟩).acc, nodeIdle (u :: cn') x = true := by
      intro x hx
      exact hidle x (by rw [← hparse]; simp [hx])
    have hidle3 : ∀ x ∈ (pFold (body.drop bq)
        ⟨.top, [], startL + bq⟩).acc, nodeIdle (u :: cn') x = true := by
      intro x hx
      exact hidle x (by rw [← hparse]; simp [hx])
    have hidle4 : ∀ x ∈ dfin, nodeIdle (u :: cn') x = true := by
      intro x hx
      exact hidle x (by rw [← hparse]; simp [hx])
    have hstage2 : pFold [importStatementOf (u :: cn') cimp]
        ⟨.top, (pFold (body.take bp) ⟨.top, [], startL⟩).acc, startL + bp⟩ =
        ⟨.top, (pFold (body.take bp) ⟨.top, [], startL⟩).acc ++
          [.esmN (importStatementOf (u :: cn') cimp) (startL + bp)
            (startL + bp)], startL + bp + 1⟩ :=
      stepTop_import _ _ _ _
    have hstage3 : pFold ((body.drop bp).take (bq - bp))
        ⟨.top, (pFold (body.take bp) ⟨.top, [], startL⟩).acc ++
          [.esmN (importStatementOf (u :: cn') cimp) (startL + bp)
            (startL + bp)], startL + bp + 1⟩ =
        ⟨.top, ((pFold (body.take bp) ⟨.top, [], startL⟩).acc ++
          [.esmN (importStatementOf (u :: cn') cimp) (startL + bp)
            (startL + bp)]) ++
          ((pFold ((body.drop bp).take (bq - bp))
            ⟨.top, [], startL + bp⟩).acc).map (shiftNode 1),
          startL + bq + 1⟩ := by
      have h := pFold_shift_top ((body.drop bp).take (bq - bp))
        ((pFold (body.take bp) ⟨.top, [], startL⟩).acc ++
          [.esmN (importStatementOf (u :: cn') cimp) (startL + bp)
            (startL + bp)]) (startL + bp) 1 (by omega) hb2'
      rw [hl2] at h
      exact h
    have hstage4 : pFold [hashCommentLine fp]
        ⟨.top, ((pFold (body.take bp) ⟨.top, [], startL⟩).acc ++
          [.esmN (importStatementOf (u :: cn') cimp) (startL + bp)
            (startL + bp)]) ++
          ((pFold ((body.drop bp).take (bq - bp))
            ⟨.top, [], startL + bp⟩).acc).map (shiftNode 1),
          startL + bq + 1⟩ =
        ⟨.top, (((pFold (body.take bp) ⟨.top, [], startL⟩).acc ++
          [.esmN (importStatementOf (u :: cn') cimp) (startL + bp)
            (startL + bp)]) ++
          ((pFold ((body.drop bp).take (bq - bp))
            ⟨.top, [], startL + bp⟩).acc).map (shiftNode 1)) ++
          [.exprN (ofStr "/* speak-mintlify-hash: " ++ (fp ++ ofStr " */"))
            (startL + bq + 1) (startL + bq + 1)],
          startL + bq + 1 + 1⟩ :=
      stepTop_hashComment _ _ _ hfphex
    have hstage5 : pFold (splitNl (componentCodeOf (u :: cn') (v0 :: vrest)))
        ⟨.top, ((((pFold (body.take bp) ⟨.top, [], startL⟩).acc ++
          [.esmN (importStatementOf (u :: cn') cimp) (startL + bp)
            (startL + bp)]) ++
          ((pFold ((body.drop bp).take (bq - bp))
            ⟨.top, [], startL + bp⟩).acc).map (shiftNode 1)) ++
          [.exprN (ofStr "/* speak-mintlify-hash: " ++ (fp ++ ofStr " */"))
            (startL + bq + 1) (startL + bq + 1)]),
          startL + bq + 2⟩ =
        ⟨.top, (((((pFold (body.take bp) ⟨.top, [], startL⟩).acc ++
          [.esmN (importStatementOf (u :: cn') cimp) (startL + bp)
            (startL + bp)]) ++
          ((pFold ((body.drop bp).take (bq - bp))
            ⟨.top, [], startL + bp⟩).acc).map (shiftNode 1)) ++
          [.exprN (ofStr "/* speak-mintlify-hash: " ++ (fp ++ ofStr " */"))
            (startL + bq + 1) (startL + bq + 1)]) ++
          [.jsxN (componentCodeOf (u :: cn') (v0 :: vrest)) (startL + bq + 2)
            (startL + bq + 2 + (splitNl (componentCodeOf (u :: cn')
              (v0 :: vrest))).length - 1)]),
          startL + bq + 2 + (splitNl (componentCodeOf (u :: cn')
            (v0 :: vrest))).length⟩ :=
      pFold_componentCode u cn' (v0 :: vrest) _ _ hup halnum hclean (by simp)
    have hstage6 : pFold (List.replicate m [])
        ⟨.top, (((((pFold (body.take bp) ⟨.top, [], startL⟩).acc ++
          [.esmN (importStatementOf (u :: cn') cimp) (startL + bp)
            (startL + bp)]) ++
          ((pFold ((body.drop bp).take (bq - bp))
            ⟨.top, [], startL + bp⟩).acc).map (shiftNode 1)) ++
          [.exprN (ofStr "/* speak-mintlify-hash: " ++ (fp ++ ofStr " */"))
            (startL + bq + 1) (startL + bq + 1)]) ++
          [.jsxN (componentCodeOf (u :: cn') (v0 :: vrest)) (startL + bq + 2)
            (startL + bq + 2 + (splitNl (componentCodeOf (u :: cn')
              (v0 :: vrest))).length - 1)]),
          startL + bq + 2 + (splitNl (componentCodeOf (u :: cn')
            (v0 :: vrest))).length⟩ =
        ⟨.top, (((((pFold (body.take bp) ⟨.top, [], startL⟩).acc ++
          [.esmN (importStatementOf (u :: cn') cimp) (startL + bp)
            (startL + bp)]) ++
          ((pFold ((body.drop bp).take (bq - bp))
            ⟨.top, [], startL + bp⟩).acc).map (shiftNode 1)) ++
          [.exprN (ofStr "/* speak-mintlify-hash: " ++ (fp ++ ofStr " */"))
            (startL + bq + 1) (startL + bq + 1)]) ++
          [.jsxN (componentCodeOf (u :: cn') (v0 :: vrest)) (startL + bq + 2)
            (startL + bq + 2 + (splitNl (componentCodeOf (u :: cn')
              (v0 :: vrest))).length - 1)]),
          (startL + bq) + ((splitNl (componentCodeOf (u :: cn')
            (v0 :: vrest))).length + m + 2)⟩ := by
      rw [pFold_blanks]
      congr 1
      omega
    have hstage7 : pFold (body.drop bq)
        ⟨.top, (((((pFold (body.take bp) ⟨.top, [], startL⟩).acc ++
          [.esmN (importStatementOf (u :: cn') cimp) (startL + bp)
            (startL + bp)]) ++
          ((pFold ((body.drop bp).take (bq - bp))
            ⟨.top, [], startL + bp⟩).acc).map (shiftNode 1)) ++
          [.exprN (ofStr "/* speak-mintlify-hash: " ++ (fp ++ ofStr " */"))
            (startL + bq + 1) (startL + bq + 1)]) ++
          [.jsxN (componentCodeOf (u :: cn') (v0 :: vrest)) (startL + bq + 2)
            (startL + bq + 2 + (splitNl (componentCodeOf (u :: cn')
              (v0 :: vrest))).length - 1)]),
          (startL + bq) + ((splitNl (componentCodeOf (u :: cn')
            (v0 :: vrest))).length + m + 2)⟩ =
        ⟨shiftMode ((splitNl (componentCodeOf (u :: cn')
            (v0 :: vrest))).length + m + 2)
          (pFold (body.drop bq) ⟨.top, [], startL + bq⟩).mode,
         ((((((pFold (body.take bp) ⟨.top, [], startL⟩).acc ++
          [.esmN (importStatementOf (u :: cn') cimp) (startL + bp)
            (startL + bp)]) ++
          ((pFold ((body.drop bp).take (bq - bp))
            ⟨.top, [], startL + bp⟩).acc).map (shiftNode 1)) ++
          [.exprN (ofStr "/* speak-mintlify-hash: " ++ (fp ++ ofStr " */"))
            (startL + bq + 1) (startL + bq + 1)]) ++
          [.jsxN (componentCodeOf (u :: cn') (v0 :: vrest)) (startL + bq + 2)
            (startL + bq + 2 + (splitNl (componentCodeOf (u :: cn')
              (v0 :: vrest))).length - 1)])) ++
          ((pFold (body.drop bq) ⟨.top, [], startL + bq⟩).acc).map
            (shiftNode ((splitNl (componentCodeOf (u :: cn')
              (v0 :: vrest))).length + m + 2)),
         (startL + body.length) + ((splitNl (componentCodeOf (u :: cn')
            (v0 :: vrest))).length + m + 2)⟩ := by
      have h := pFold_shift (body.drop bq) .top
        ((((((pFold (body.take bp) ⟨.top, [], startL⟩).acc ++
          [.esmN (importStatementOf (u :: cn') cimp) (startL + bp)
            (startL + bp)]) ++
          ((pFold ((body.drop bp).take (bq - bp))
            ⟨.top, [], startL + bp⟩).acc).map (shiftNode 1)) ++
          [.exprN (ofStr "/* speak-mintlify-hash: " ++ (fp ++ ofStr " */"))
            (startL + bq + 1) (startL + bq + 1)]) ++
          [.jsxN (componentCodeOf (u :: cn') (v0 :: vrest)) (startL + bq + 2)
            (startL + bq + 2 + (splitNl (componentCodeOf (u :: cn')
              (v0 :: vrest))).length - 1)]))
        (startL + bq)
        ((splitNl (componentCodeOf (u :: cn') (v0 :: vrest))).length + m + 2)
        (by omega)
      rw [hlineNo3] at h
      exact h
    have hfoldF : pFold (body.take bp ++
        ([importStatementOf (u :: cn') cimp] ++
        ((body.drop bp).take (bq - bp) ++ ([hashCommentLine fp] ++
        (splitNl (componentCodeOf (u :: cn') (v0 :: vrest)) ++
        (List.replicate m [] ++ body.drop bq)))))) ⟨.top, [], startL⟩ =
        ⟨shiftMode ((splitNl (componentCodeOf (u :: cn')
            (v0 :: vrest))).length + m + 2)
          (pFold (body.drop bq) ⟨.top, [], startL + bq⟩).mode,
         ((((((pFold (body.take bp) ⟨.top, [], startL⟩).acc ++
          [.esmN (importStatementOf (u :: cn') cimp) (startL + bp)
            (startL + bp)]) ++
          ((pFold ((body.drop bp).take (bq - bp))
            ⟨.top, [], startL + bp⟩).acc).map (shiftNode 1)) ++
          [.exprN (ofStr "/* speak-mintlify-hash: " ++ (fp ++ ofStr " */"))
            (startL + bq + 1) (startL + bq + 1)]) ++
          [.jsxN (componentCodeOf (u :: cn') (v0 :: vrest)) (startL + bq + 2)
            (startL + bq + 2 + (splitNl (componentCodeOf (u :: cn')
              (v0 :: vrest))).length - 1)])) ++
          ((pFold (body.drop bq) ⟨.top, [], startL + bq⟩).acc).map
            (shiftNode ((splitNl (componentCodeOf (u :: cn')
              (v0 :: vrest))).length + m + 2)),
         (startL + body.length) + ((splitNl (componentCodeOf (u :: cn')
            (v0 :: vrest))).length + m + 2)⟩ :=
      pFold_append_eq _ _ _ _ _ hS1
        (pFold_append_eq _ _ _ _ _ hstage2
          (pFold_append_eq _ _ _ _ _ hstage3
            (pFold_append_eq _ _ _ _ _ hstage4
              (pFold_append_eq _ _ _ _ _ hstage5
                (pFold_append_eq _ _ _ _ _ hstage6 hstage7)))))
    have hmod := parseFrom_of_fold _ startL _ hfoldF
    simp only at hmod
    rw [pFinDelta_shift _ _ _ (by omega), hdelta] at hmod
    simp only [Except.map] at hmod
    refine ⟨_, hmod, ?_, ?_⟩
    · simp only [List.foldl_append]
      rw [walkFold_idle _ _ _ hidle1]
      simp only [List.foldl_cons, List.foldl_nil]
      rw [show walkStep (u :: cn') ((none : Option Str), ([] : List Voice))
        (.esmN (importStatementOf (u :: cn') cimp) (startL + bp)
          (startL + bp)) = (none, []) from rfl]
      rw [walkFold_idle _ _ (((pFold ((body.drop bp).take (bq - bp))
          ⟨.top, [], startL + bp⟩).acc).map (shiftNode 1)) (by
        intro x hx
        obtain ⟨y, hy, rfl⟩ := List.mem_map.mp hx
        rw [nodeIdle_shift]
        exact hidle2 y hy)]
      rw [walkStep_hashNode _ _ _ _ _ hfpne hfphex]
      rw [walkStep_component _ _ _ _ _ halnum hclean (by simp)]
      rw [walkFold_idle _ _ (((pFold (body.drop bq)
          ⟨.top, [], startL + bq⟩).acc).map
            (shiftNode ((splitNl (componentCodeOf (u :: cn')
              (v0 :: vrest))).length + m + 2))) (by
        intro x hx
        obtain ⟨y, hy, rfl⟩ := List.mem_map.mp hx
        rw [nodeIdle_shift]
        exact hidle3 y hy)]
      rw [walkFold_idle _ _ (dfin.map
          (shiftNode ((splitNl (componentCodeOf (u :: cn')
            (v0 :: vrest))).length + m + 2))) (by
        intro x hx
        obtain ⟨y, hy, rfl⟩ := List.mem_map.mp hx
        rw [nodeIdle_shift]
        exact hidle4 y hy)]
    · rw [← hparse]
      simp only [List.filter_append, List.filterMap_append]
      rw [show List.filter keepAfterRemoval
        [MdxNode.esmN (importStatementOf (u :: cn') cimp) (startL + bp)
          (startL + bp)] = [] from rfl]
      rw [show List.filter keepAfterRemoval
        [MdxNode.exprN (ofStr "/* speak-mintlify-hash: " ++
          (fp ++ ofStr " */")) (startL + bq + 1) (startL + bq + 1)] = []
        from rfl]
      rw [show List.filter keepAfterRemoval
        [MdxNode.jsxN (componentCodeOf (u :: cn') (v0 :: vrest))
          (startL + bq + 2)
          (startL + bq + 2 + (splitNl (componentCodeOf (u :: cn')
            (v0 :: vrest))).length - 1)] = [] from rfl]
      rw [filter_keep_shift, filter_keep_shift, filter_keep_shift]
      simp

theorem splice_at_len (P rest : List Str) (j : Nat) (hj : P.length = j)
    (it : Str) : listSplice (P ++ rest) j 0 [it] = P ++ ([it] ++ rest) := by
  unfold listSplice
  rw [Nat.add_zero, ← hj, List.take_left, List.drop_left]
  simp [List.append_assoc]

theorem injectFreshLines_shape (L : List Str) (imp hc cc : Str) (p q : Nat)
    (hpq : p ≤ q) (hqN : q ≤ L.length) :
    ∃ m, m ≤ 2 ∧ injectFreshLines L false imp hc cc (p, q) =
      L.take p ++ ([imp] ++ ((L.drop p).take (q - p) ++ ([hc] ++ ([cc] ++
        (List.replicate m [] ++ L.drop q))))) := by
  have hlines1 : listSplice L p 0 [imp] =
      (L.take p ++ ([imp] ++ (L.drop p).take (q - p))) ++ L.drop q := by
    unfold listSplice
    rw [Nat.add_zero]
    conv_lhs => rw [← List.take_append_drop (q - p) (L.drop p)]
    rw [List.drop_drop]
    rw [show p + (q - p) = q by omega]
    simp [List.append_assoc]
  have hPlen : (L.take p ++ ([imp] ++ (L.drop p).take (q - p))).length =
      q + 1 := by
    simp only [List.length_append, List.length_take, List.length_drop,
      List.length_cons, List.length_nil]
    omega
  unfold injectFreshLines
  dsimp only
  simp only [Bool.false_eq_true, if_false]
  rw [hlines1]
  have hRHS : ∀ m : Nat,
      L.take p ++ ([imp] ++ ((L.drop p).take (q - p) ++ ([hc] ++ ([cc] ++
        (List.replicate m [] ++ L.drop q))))) =
      (L.take p ++ ([imp] ++ (L.drop p).take (q - p))) ++ ([hc] ++ ([cc] ++
        (List.replicate m [] ++ L.drop q))) := by
    intro m
    simp [List.append_assoc]
  simp only [hRHS]
  revert hPlen
  generalize L.take p ++ ([imp] ++ (L.drop p).take (q - p)) = P
  generalize L.drop q = D
  intro hPlen
  rw [if_neg (show ¬ q + 1 = 0 by omega)]
  have hj2 : (P ++ [hc]).length = q + 1 + 1 := by
    simp [hPlen]
  have hj3 : ((P ++ [hc]) ++ [cc]).length = q + 1 + 2 := by
    simp [hPlen]
  cases hget1 : (P ++ D).get? (q + 1 - 1) with
  | none =>
    dsimp only
    rw [if_pos rfl]
    rw [splice_at_len P D (q + 1) hPlen ([] : Str)]
    rw [splice_at_len P ([([] : Str)] ++ D) (q + 1) hPlen hc]
    rw [show P ++ ([hc] ++ ([([] : Str)] ++ D)) =
      (P ++ [hc]) ++ ([([] : Str)] ++ D) from by simp [List.append_assoc]]
    rw [splice_at_len (P ++ [hc]) ([([] : Str)] ++ D) (q + 1 + 1) hj2 cc]
    rw [show (P ++ [hc]) ++ ([cc] ++ ([([] : Str)] ++ D)) =
      ((P ++ [hc]) ++ [cc]) ++ ([([] : Str)] ++ D) from by
        simp [List.append_assoc]]
    cases hget2 : (((P ++ [hc]) ++ [cc]) ++ ([([] : Str)] ++ D)).get?
        (q + 1 + 2) with
    | none =>
      dsimp only
      rw [if_pos rfl]
      rw [splice_at_len ((P ++ [hc]) ++ [cc]) ([([] : Str)] ++ D)
        (q + 1 + 2) hj3 ([] : Str)]
      refine ⟨2, by omega, ?_⟩
      simp [List.append_assoc, List.replicate]
    | some l =>
      dsimp only
      cases htr : (jsTrim l != []) with
      | true =>
        rw [if_pos rfl]
        rw [splice_at_len ((P ++ [hc]) ++ [cc]) ([([] : Str)] ++ D)
          (q + 1 + 2) hj3 ([] : Str)]
        refine ⟨2, by omega, ?_⟩
        simp [List.append_assoc, List.replicate]
      | false =>
        simp only [Bool.false_eq_true, if_false]
        refine ⟨1, by omega, ?_⟩
        simp [List.append_assoc, List.replicate]
  | some l0 =>
    dsimp only
    cases htr0 : (jsTrim l0 != []) with
    | true =>
      rw [if_pos rfl]
      rw [splice_at_len P D (q + 1) hPlen ([] : Str)]
      rw [splice_at_len P ([([] : Str)] ++ D) (q + 1) hPlen hc]
      rw [show P ++ ([hc] ++ ([([] : Str)] ++ D)) =
        (P ++ [hc]) ++ ([([] : Str)] ++ D) from by simp [List.append_assoc]]
      rw [splice_at_len (P ++ [hc]) ([([] : Str)] ++ D) (q + 1 + 1) hj2 cc]
      rw [show (P ++ [hc]) ++ ([cc] ++ ([([] : Str)] ++ D)) =
        ((P ++ [hc]) ++ [cc]) ++ ([([] : Str)] ++ D) from by
          simp [List.append_assoc]]
      cases hget2 : (((P ++ [hc]) ++ [cc]) ++ ([([] : Str)] ++ D)).get?
          (q + 1 + 2) with
      | none =>
        dsimp only
        rw [if_pos rfl]
        rw [splice_at_len ((P ++ [hc]) ++ [cc]) ([([] : Str)] ++ D)
          (q + 1 + 2) hj3 ([] : Str)]
        refine ⟨2, by omega, ?_⟩
        simp [List.append_assoc, List.replicate]
      | some l =>
        dsimp only
        cases htr : (jsTrim l != []) with
        | true =>
          rw [if_pos rfl]
          rw [splice_at_len ((P ++ [hc]) ++ [cc]) ([([] : Str)] ++ D)
            (q + 1 + 2) hj3 ([] : Str)]
          refine ⟨2, by omega, ?_⟩
          simp [List.append_assoc, List.replicate]
        | false =>
          simp only [Bool.false_eq_true, if_false]
          refine ⟨1, by omega, ?_⟩
          simp [List.append_assoc, List.replicate]
    | false =>
      simp only [Bool.false_eq_true, if_false]
      rw [splice_at_len P D (q + 1) hPlen hc]
      rw [show P ++ ([hc] ++ D) = (P ++ [hc]) ++ D from by
        simp [List.append_assoc]]
      rw [splice_at_len (P ++ [hc]) D (q + 1 + 1) hj2 cc]
      rw [show (P ++ [hc]) ++ ([cc] ++ D) = ((P ++ [hc]) ++ [cc]) ++ D
        from by simp [List.append_assoc]]
      cases hget2 : (((P ++ [hc]) ++ [cc]) ++ D).get? (q + 1 + 2) with
      | none =>
        dsimp only
        rw [if_pos rfl]
        rw [splice_at_len ((P ++ [hc]) ++ [cc]) D (q + 1 + 2) hj3
          ([] : Str)]
        refine ⟨1, by omega, ?_⟩
        simp [List.append_assoc, List.replicate]
      | some l =>
        dsimp only
        cases htr : (jsTrim l != []) with
        | true =>
          rw [if_pos rfl]
          rw [splice_at_len ((P ++ [hc]) ++ [cc]) D (q + 1 + 2) hj3
            ([] : Str)]
          refine ⟨1, by omega, ?_⟩
          simp [List.append_assoc, List.replicate]
        | false =>
          simp only [Bool.false_eq_true, if_false]
          refine ⟨0, by omega, ?_⟩
          simp [List.append_assoc, List.replicate]

theorem parseLines_no_fm (ls : List Str) (h : ls.getD 0 [] ≠ ofStr "---") :
    parseLines ls = parseFrom ls 1 := by
  cases ls with
  | nil => rfl
  | cons l0 rest =>
    unfold parseLines
    dsimp only
    rw [if_neg (by simpa using h)]

theorem matterContent_no_fm (s : Str)
    (h : (splitNl s).getD 0 [] ≠ ofStr "---") : matterContent s = s := by
  unfold matterContent
  cases hls : splitNl s with
  | nil => rfl
  | cons l0 rest =>
    rw [hls] at h
    dsimp only
    rw [if_neg (by simpa using h)]

theorem splitNl_joinNl_flatMap (ls : List Str) (hne : ls ≠ []) :
    splitNl (joinNl ls) = ls.flatMap splitNl := by
  cases ls with
  | nil => exact absurd rfl hne
  | cons a t => exact splitNl_joinNl_flat a t

theorem flatMap_splitNl_id (u : List Str)
    (hu : ∀ l ∈ u, ∀ c ∈ l, c ≠ nlChar) : u.flatMap splitNl = u := by
  induction u with
  | nil => rfl
  | cons x xs ih =>
    rw [List.flatMap_cons, splitNl_nlfree x (hu x (List.mem_cons_self _ _)),
      ih (fun l hl => hu l (List.mem_cons_of_mem _ hl))]
    rfl

theorem importStatementOf_nlfree (cn cimp : Str)
    (halnum : ∀ c ∈ cn, (c.isAlpha || c.isDigit) = true)
    (hcimp : ∀ c ∈ cimp, c ≠ nlChar) :
    ∀ c ∈ importStatementOf cn cimp, c ≠ nlChar := by
  intro c hc
  unfold importStatementOf at hc
  simp only [List.mem_append] at hc
  rcases hc with (((h | h) | h) | h) | h
  · intro he; subst he; exact absurd h (by decide)
  · exact (alnum_spec c (halnum c h)).2.2.1
  · intro he; subst he; exact absurd h (by decide)
  · exact hcimp c h
  · intro he; subst he; exact absurd h (by decide)

theorem hashCommentLine_nlfree (fp : Str)
    (hfp : ∀ c ∈ fp, isLowerHexChar c = true) :
    ∀ c ∈ hashCommentLine fp, c ≠ nlChar := by
  intro c hc
  unfold hashCommentLine at hc
  simp only [List.mem_append] at hc
  rcases hc with (h | h) | h
  · intro he; subst he; exact absurd h (by decide)
  · exact (hex_spec c (hfp c h)).2.2.1
  · intro he; subst he; exact absurd h (by decide)

theorem hexDigit_lower (n : Nat) (h : n < 16) :
    isLowerHexChar (hexDigit n) = true := by
  interval_cases n <;> decide

theorem wordToHex_hex (w : Nat) : ∀ c ∈ wordToHex w, isLowerHexChar c = true := by
  intro c hc
  unfold wordToHex at hc
  simp only [List.mem_cons, List.not_mem_nil, or_false] at hc
  rcases hc with rfl | rfl | rfl | rfl | rfl | rfl | rfl | rfl <;>
    exact hexDigit_lower _ (Nat.mod_lt _ (by omega))

theorem generateHash_hex (s : Str) :
    ∀ c ∈ generateHash s, isLowerHexChar c = true := by
  intro c hc
  unfold generateHash at hc
  rw [List.mem_flatMap] at hc
  obtain ⟨w, _, hw⟩ := hc
  exact wordToHex_hex w c hw

theorem compressStep_len (st : List Nat) (kw : Nat × Nat) :
    (compressStep st kw).length = st.length := by
  rcases st with _ | ⟨a, _ | ⟨b, _ | ⟨c, _ | ⟨d, _ | ⟨e, _ | ⟨f, _ | ⟨g, _ |
    ⟨h, _ | ⟨i, t⟩⟩⟩⟩⟩⟩⟩⟩⟩ <;> rfl

theorem foldl_compress_len (l : List (Nat × Nat)) (st : List Nat) :
    (l.foldl compressStep st).length = st.length := by
  induction l generalizing st with
  | nil => rfl
  | cons a t ih => rw [List.foldl_cons, ih, compressStep_len]

theorem compressBlock_len (h b : List Nat) :
    (compressBlock h b).length = h.length := by
  unfold compressBlock
  rw [List.length_zipWith, foldl_compress_len]
  exact Nat.min_self _

theorem foldl_blocks_len (bl : List (List Nat)) (h : List Nat) :
    (bl.foldl compressBlock h).length = h.length := by
  induction bl generalizing h with
  | nil => rfl
  | cons a t ih => rw [List.foldl_cons, ih, compressBlock_len]

theorem generateHash_ne_nil (s : Str) : generateHash s ≠ [] := by
  unfold generateHash
  have hlen : (digestWords (utf8Encode s)).length = 8 := by
    unfold digestWords
    rw [foldl_blocks_len]
    rfl
  cases hws : digestWords (utf8Encode s) with
  | nil => rw [hws] at hlen; simp at hlen
  | cons w t =>
    rw [List.flatMap_cons]
    simp [wordToHex]

theorem mapIdx_map_vid (l : List Str) (f : Nat → Str → Voice)
    (hf : ∀ i a, (f i a).vid = a) : (l.mapIdx f).map Voice.vid = l := by
  induction l generalizing f with
  | nil => rfl
  | cons a t ih =>
    rw [List.mapIdx_cons, List.map_cons, hf,
      ih (fun i => f (i + 1)) (fun i a => hf (i + 1) a)]

theorem mkVoices_ids (cfgIds cfgNames : List Str) (urlOf : Str → Str) :
    (mkVoices cfgIds cfgNames urlOf).map Voice.vid = cfgIds := by
  unfold mkVoices
  exact mapIdx_map_vid _ _ (fun i a => rfl)

theorem mkVoices_ne_nil (cfgIds cfgNames : List Str) (urlOf : Str → Str)
    (h : cfgIds ≠ []) : mkVoices cfgIds cfgNames urlOf ≠ [] := by
  intro hcon
  apply h
  have hl := congrArg List.length hcon
  unfold mkVoices at hl
  rw [List.length_mapIdx] at hl
  exact List.eq_nil_of_length_eq_zero hl

theorem extract_of_walk (content cn : Str) (ms : List MdxNode) (fp : Str)
    (v0 : Voice) (vr : List Voice)
    (hpl : parseLines (splitNl content) = .ok ms)
    (hwalk : ms.foldl (walkStep cn) (none, []) = (some fp, v0 :: vr)) :
    extractExistingAudioData content cn =
      .ok (some ⟨some fp, (v0 :: vr).map Voice.vid, v0 :: vr⟩) := by
  unfold extractExistingAudioData
  rw [hpl]
  simp only [Except.map]
  rw [hwalk]
  simp

theorem skipUnchanged_self (d : Str) (ids : List Str) (vs : List Voice) :
    skipUnchangedCheck ⟨some d, ids, vs⟩ d ids = true := by
  rw [skipUnchangedCheck_iff]
  exact ⟨rfl, rfl, fun i hi => hi⟩

theorem importStatementOf_ne_dashes (cn cimp : Str) :
    importStatementOf cn cimp ≠ ofStr "---" := by
  rw [importStatementOf_cons]
  intro hcon
  injection hcon with h1 _
  exact absurd h1 (by decide)

theorem getD0_splice_ne (L : List Str) (p : Nat) (X : List Str) (imp : Str)
    (hL : L.getD 0 [] ≠ ofStr "---") (himp : imp ≠ ofStr "---") :
    (L.take p ++ ([imp] ++ X)).getD 0 [] ≠ ofStr "---" := by
  cases p with
  | zero => simpa using himp
  | succ q =>
    cases L with
    | nil => simpa using himp
    | cons l0 r => simpa using (show l0 ≠ ofStr "---" by simpa using hL)

theorem inject_roundtrip_main (s : Str) (ns : List MdxNode)
    (u : Char) (cn' cimp fp : Str) (voices : List Voice)
    (hp : parseLines (splitNl s) = .ok ns)
    (hfm : (splitNl s).getD 0 [] ≠ ofStr "---")
    (hno : hasAudioComponent s (u :: cn') = false)
    (hnoimp : (splitNl s).any (fun l =>
      containsStr l (ofStr "import \x7b " ++ (u :: cn') ++ ofStr " \x7d")) =
        false)
    (hup : isUpperChar u = true)
    (halnum : ∀ c ∈ u :: cn', (c.isAlpha || c.isDigit) = true)
    (hcimpnl : ∀ c ∈ cimp, c ≠ nlChar)
    (hclean : ∀ w ∈ voices, cleanVoice w = true) (hvne : voices ≠ [])
    (hfpne : fp ≠ []) (hfphex : ∀ c ∈ fp, isLowerHexChar c = true)
    (hidle : ∀ x ∈ ns, nodeIdle (u :: cn') x = true)
    (hpq : specImportPos ns ≤ specComponentPos ns)
    (hqN : specComponentPos ns ≤ (splitNl s).length)
    (hb1 : (pFold ((splitNl s).take (specImportPos ns))
      ⟨.top, [], 1⟩).mode = .top)
    (hb2 : (pFold ((splitNl s).take (specComponentPos ns))
      ⟨.top, [], 1⟩).mode = .top) :
    ∃ out ms',
      injectAudioComponent s voices fp cimp (u :: cn') = .ok out ∧
      parseLines (splitNl out) = .ok ms' ∧
      ms'.foldl (walkStep (u :: cn')) (none, []) = (some fp, voices) ∧
      (ms'.filter keepAfterRemoval).filterMap nodeText =
        (ns.filter keepAfterRemoval).filterMap nodeText ∧
      (splitNl out).getD 0 [] ≠ ofStr "---" := by
  obtain ⟨hfip, hinj, _⟩ :=
    inject_fresh_layout s ns voices fp cimp (u :: cn') hp hno
  rw [hnoimp] at hinj
  obtain ⟨m, _, hshape⟩ := injectFreshLines_shape (splitNl s)
    (importStatementOf (u :: cn') cimp) (hashCommentLine fp)
    (componentCodeOf (u :: cn') voices)
    (specImportPos ns) (specComponentPos ns) hpq hqN
  have hparse : parseFrom (splitNl s) 1 = .ok ns := by
    rw [← parseLines_no_fm (splitNl s) hfm]
    exact hp
  obtain ⟨ms', hpf, hwalk, htext⟩ := parse_inject_body (splitNl s) 1
    (le_refl 1) ns hparse (specImportPos ns) (specComponentPos ns) hpq hqN
    hb1 hb2 u cn' cimp fp voices m hup halnum hclean hvne hfpne hfphex hidle
  have hne' : injectFreshLines (splitNl s) false
      (importStatementOf (u :: cn') cimp) (hashCommentLine fp)
      (componentCodeOf (u :: cn') voices)
      (specImportPos ns, specComponentPos ns) ≠ [] := by
    rw [hshape]
    intro hcon
    have hl := congrArg List.length hcon
    simp only [List.length_append, List.length_cons, List.length_nil] at hl
    omega
  have hA : ((splitNl s).take (specImportPos ns)).flatMap splitNl =
      (splitNl s).take (specImportPos ns) :=
    flatMap_splitNl_id _ (fun l hl =>
      splitNl_mem_nlfree s l (List.take_subset _ _ hl))
  have hM : (((splitNl s).drop (specImportPos ns)).take
      (specComponentPos ns - specImportPos ns)).flatMap splitNl =
      ((splitNl s).drop (specImportPos ns)).take
        (specComponentPos ns - specImportPos ns) :=
    flatMap_splitNl_id _ (fun l hl =>
      splitNl_mem_nlfree s l (List.drop_subset _ _ (List.take_subset _ _ hl)))
  have hR : (List.replicate m ([] : Str)).flatMap splitNl =
      List.replicate m ([] : Str) :=
    flatMap_splitNl_id _ (fun l hl => by
      rw [List.eq_of_mem_replicate hl]
      intro c hc
      exact absurd hc (List.not_mem_nil c))
  have hB : ((splitNl s).drop (specComponentPos ns)).flatMap splitNl =
      (splitNl s).drop (specComponentPos ns) :=
    flatMap_splitNl_id _ (fun l hl =>
      splitNl_mem_nlfree s l (List.drop_subset _ _ hl))
  have himpnl : ∀ c ∈ importStatementOf (u :: cn') cimp, c ≠ nlChar :=
    importStatementOf_nlfree _ _ halnum hcimpnl
  have hhcnl : ∀ c ∈ hashCommentLine fp, c ≠ nlChar :=
    hashCommentLine_nlfree fp hfphex
  have hsplitout : splitNl (joinNl (injectFreshLines (splitNl s) false
      (importStatementOf (u :: cn') cimp) (hashCommentLine fp)
      (componentCodeOf (u :: cn') voices)
      (specImportPos ns, specComponentPos ns))) =
      (splitNl s).take (specImportPos ns) ++
        ([importStatementOf (u :: cn') cimp] ++
        (((splitNl s).drop (specImportPos ns)).take
          (specComponentPos ns - specImportPos ns) ++
        ([hashCommentLine fp] ++
        (splitNl (componentCodeOf (u :: cn') voices) ++
        (List.replicate m [] ++
          (splitNl s).drop (specComponentPos ns)))))) := by
    rw [splitNl_joinNl_flatMap _ hne', hshape]
    simp only [List.flatMap_append, List.flatMap_cons, List.flatMap_nil,
      List.append_nil]
    rw [hA, hM, hR, hB, splitNl_nlfree _ himpnl, splitNl_nlfree _ hhcnl]
  have hhead' : (splitNl (joinNl (injectFreshLines (splitNl s) false
      (importStatementOf (u :: cn') cimp) (hashCommentLine fp)
      (componentCodeOf (u :: cn') voices)
      (specImportPos ns, specComponentPos ns)))).getD 0 [] ≠ ofStr "---" := by
    rw [hsplitout]
    exact getD0_splice_ne _ _ _ _ hfm (importStatementOf_ne_dashes _ _)
  refine ⟨_, ms', hinj, ?_, hwalk, htext, hhead'⟩
  rw [parseLines_no_fm _ hhead', hsplitout]
  exact hpf

/-- C2 (amended): for a document without front matter, without any
pre-existing occurrence of the component tag or a matching import line,
and whose parsed nodes carry no narration annotation or component of the
configured name (so no stale marker can shadow the injected one),
injecting a non-empty clean voice list and a non-empty lowercase-hex
fingerprint and then locating the narration block in the result returns
exactly the injected fingerprint and the ids of the injected voices. -/
theorem inject_locate_roundtrip (s : Str) (ns : List MdxNode)
    (u : Char) (cn' cimp fp : Str) (voices : List Voice)
    (hp : parseLines (splitNl s) = .ok ns)
    (hfm : (splitNl s).getD 0 [] ≠ ofStr "---")
    (hno : hasAudioComponent s (u :: cn') = false)
    (hnoimp : (splitNl s).any (fun l =>
      containsStr l (ofStr "import \x7b " ++ (u :: cn') ++ ofStr " \x7d")) =
        false)
    (hup : isUpperChar u = true)
    (halnum : ∀ c ∈ u :: cn', (c.isAlpha || c.isDigit) = true)
    (hcimpnl : ∀ c ∈ cimp, c ≠ nlChar)
    (hclean : ∀ w ∈ voices, cleanVoice w = true) (hvne : voices ≠ [])
    (hfpne : fp ≠ []) (hfphex : ∀ c ∈ fp, isLowerHexChar c = true)
    (hidle : ∀ x ∈ ns, nodeIdle (u :: cn') x = true)
    (hpq : specImportPos ns ≤ specComponentPos ns)
    (hqN : specComponentPos ns ≤ (splitNl s).length)
    (hb1 : (pFold ((splitNl s).take (specImportPos ns))
      ⟨.top, [], 1⟩).mode = .top)
    (hb2 : (pFold ((splitNl s).take (specComponentPos ns))
      ⟨.top, [], 1⟩).mode = .top) :
    ∃ out, injectAudioComponent s voices fp cimp (u :: cn') = .ok out ∧
      extractExistingAudioData out (u :: cn') =
        .ok (some ⟨some fp, voices.map Voice.vid, voices⟩) := by
  obtain ⟨out, ms', hinj, hpl, hwalk, _, _⟩ := inject_roundtrip_main s ns u cn'
    cimp fp voices hp hfm hno hnoimp hup halnum hcimpnl hclean hvne hfpne
    hfphex hidle hpq hqN hb1 hb2
  obtain ⟨v0, vr, rfl⟩ : ∃ a b, voices = a :: b := by
    cases voices with
    | nil => exact absurd rfl hvne
    | cons a b => exact ⟨a, b, rfl⟩
  exact ⟨out, hinj, extract_of_walk out (u :: cn') ms' fp v0 vr hpl hwalk⟩

/-- C2 counterexample: `exC2Doc` carries a stale narration annotation but
no component tag, so injection takes the fresh path and prepends the new
annotation before the document body; the locator's walk lets the later
(stale) annotation overwrite the injected one, so it reports the stale
fingerprint `aaaa` rather than the injected `bbbb`. -/
theorem inject_locate_counterexample :
    injectAudioComponent exC2Doc exC1Voices (ofStr "bbbb") cimpDef cnDef =
      .ok exC2Out ∧
    extractExistingAudioData exC2Out cnDef =
      .ok (some ⟨some (ofStr "aaaa"), [ofStr "v1"], exC1Voices⟩) ∧
    (ofStr "aaaa" : Str) ≠ ofStr "bbbb" :=
  ⟨by decide, by decide, by decide⟩

theorem inject_locate_roundtrip_witness :
    ∃ out, injectAudioComponent exC2WDoc exC1Voices (ofStr "abcd") cimpDef
        (('A' : Char) :: ofStr "udioTranscript") = .ok out ∧
      extractExistingAudioData out (('A' : Char) :: ofStr "udioTranscript") =
        .ok (some ⟨some (ofStr "abcd"), exC1Voices.map Voice.vid,
          exC1Voices⟩) :=
  inject_locate_roundtrip exC2WDoc exC2WNs 'A' (ofStr "udioTranscript")
    cimpDef (ofStr "abcd") exC1Voices (by decide) (by decide) (by decide)
    (by decide) (by decide) (by decide) (by decide) (by decide) (by decide)
    (by decide) (by decide) (by decide) (by decide) (by decide) (by decide)
    (by decide)

/-- C3 (amended): on a document without front matter, with no component
occurrence, no matching import line, and whose parsed nodes carry no
narration marker or component, and whose insertion points are well
ordered (import point at or before component point, component point
within the document), a first generation run regenerates the file, the
canonical text of the written file equals the original canonical text,
and a second run on the written file reports "content unchanged" and
writes nothing. -/
theorem generate_idempotent (s : Str) (ns : List MdxNode)
    (u : Char) (cn' cimp : Str) (cfgIds cfgNames : List Str)
    (urlOf : Str → Str) (ct : Str)
    (hct : extractCleanText s = .ok ct)
    (hctne : jsTrim ct ≠ [])
    (hp : parseLines (splitNl s) = .ok ns)
    (hfm : (splitNl s).getD 0 [] ≠ ofStr "---")
    (hno : hasAudioComponent s (u :: cn') = false)
    (hnoimp : (splitNl s).any (fun l =>
      containsStr l (ofStr "import \x7b " ++ (u :: cn') ++ ofStr " \x7d")) =
        false)
    (hup : isUpperChar u = true)
    (halnum : ∀ c ∈ u :: cn', (c.isAlpha || c.isDigit) = true)
    (hcimpnl : ∀ c ∈ cimp, c ≠ nlChar)
    (hcfgne : cfgIds ≠ [])
    (hcleanv : ∀ w ∈ mkVoices cfgIds cfgNames urlOf, cleanVoice w = true)
    (hidle : ∀ x ∈ ns, nodeIdle (u :: cn') x = true)
    (hpq : specImportPos ns ≤ specComponentPos ns)
    (hqN : specComponentPos ns ≤ (splitNl s).length)
    (hb1 : (pFold ((splitNl s).take (specImportPos ns))
      ⟨.top, [], 1⟩).mode = .top)
    (hb2 : (pFold ((splitNl s).take (specComponentPos ns))
      ⟨.top, [], 1⟩).mode = .top) :
    ∃ out,
      generateStep s cfgIds cfgNames urlOf cimp (u :: cn') =
        .ok (.regenerated, some out) ∧
      extractCleanText out = .ok ct ∧
      generateStep out cfgIds cfgNames urlOf cimp (u :: cn') =
        .ok (.unchanged, none) := by
  have hvne := mkVoices_ne_nil cfgIds cfgNames urlOf hcfgne
  obtain ⟨out, ms', hinj, hpl, hwalk, htext, hfm2⟩ := inject_roundtrip_main
    s ns u cn' cimp (generateHash ct) (mkVoices cfgIds cfgNames urlOf) hp hfm
    hno hnoimp hup halnum hcimpnl hcleanv hvne (generateHash_ne_nil ct)
    (generateHash_hex ct) hidle hpq hqN hb1 hb2
  have hexnone : extractExistingAudioData s (u :: cn') = .ok none := by
    unfold extractExistingAudioData
    rw [hp]
    simp only [Except.map]
    rw [walkFold_idle (u :: cn') (none, []) ns hidle]
    simp
  have hrun1 : generateStep s cfgIds cfgNames urlOf cimp (u :: cn') =
      .ok (.regenerated, some out) := by
    unfold generateStep
    rw [hct]
    dsimp only
    rw [if_neg hctne, hexnone]
    dsimp only
    rw [hinj]
  have hctout : extractCleanText out = .ok ct := by
    have h1 : extractCleanText out = extractCleanText s := by
      unfold extractCleanText
      rw [matterContent_no_fm out hfm2, matterContent_no_fm s hfm, hpl, hp]
      simp only [Except.map]
      unfold stringifyNodes
      rw [htext]
    rw [h1, hct]
  obtain ⟨v0, vr, hv⟩ : ∃ a b, mkVoices cfgIds cfgNames urlOf = a :: b := by
    cases hmk : mkVoices cfgIds cfgNames urlOf with
    | nil => exact absurd hmk hvne
    | cons a b => exact ⟨a, b, rfl⟩
  have hexout : extractExistingAudioData out (u :: cn') =
      .ok (some ⟨some (generateHash ct), cfgIds,
        mkVoices cfgIds cfgNames urlOf⟩) := by
    rw [hv] at hwalk
    have hx := extract_of_walk out (u :: cn') ms' (generateHash ct) v0 vr
      hpl hwalk
    rw [← hv, mkVoices_ids] at hx
    exact hx
  have hskip : skipUnchangedCheck ⟨some (generateHash ct), cfgIds,
      mkVoices cfgIds cfgNames urlOf⟩ (generateHash ct) cfgIds = true :=
    skipUnchanged_self _ _ _
  have hrun2 : generateStep out cfgIds cfgNames urlOf cimp (u :: cn') =
      .ok (.unchanged, none) := by
    unfold generateStep
    rw [hctout]
    dsimp only
    rw [if_neg hctne, hexout]
    dsimp only
    rw [if_pos hskip]
  exact ⟨out, hrun1, hctout, hrun2⟩

/-- C3 counterexample: in `exC3Doc` an import statement follows the first
paragraph, so the computed import point (line 4) lies beyond the
component point (line 0) and the fresh insertion splits the two-line
paragraph; the canonical text changes ("Hello\nWorld" becomes two
paragraphs), the fingerprint no longer matches, and the second run
regenerates instead of reporting "content unchanged". -/
theorem generate_idempotent_counterexample :
    generateStep exC3Doc [ofStr "v1"] [ofStr "Alice"] (fun _ => ofStr "u")
      cimpDef cnDef = .ok (.regenerated, some exC3Out) ∧
    extractCleanText exC3Doc = .ok (ofStr "Hello\nWorld") ∧
    extractCleanText exC3Out ≠ .ok (ofStr "Hello\nWorld") ∧
    generateStep exC3Out [ofStr "v1"] [ofStr "Alice"] (fun _ => ofStr "u")
      cimpDef cnDef ≠ .ok (.unchanged, none) :=
  ⟨by decide, by decide, by decide, by decide⟩

theorem generate_idempotent_witness :
    ∃ out,
      generateStep exC2WDoc [ofStr "v1"] [ofStr "Alice"] (fun _ => ofStr "u")
        cimpDef (('A' : Char) :: ofStr "udioTranscript") =
          .ok (.regenerated, some out) ∧
      extractCleanText out = .ok (ofStr "Hello") ∧
      generateStep out [ofStr "v1"] [ofStr "Alice"] (fun _ => ofStr "u")
        cimpDef (('A' : Char) :: ofStr "udioTranscript") =
          .ok (.unchanged, none) :=
  generate_idempotent exC2WDoc exC2WNs 'A' (ofStr "udioTranscript") cimpDef
    [ofStr "v1"] [ofStr "Alice"] (fun _ => ofStr "u") (ofStr "Hello")
    (by decide) (by decide) (by decide) (by decide) (by decide) (by decide)
    (by decide) (by decide) (by decide) (by decide) (by decide) (by decide)
    (by decide) (by decide) (by decide) (by decide)
